import Mathlib

/-!
Verification of the DocsDrafter template rendering and format-conversion
engine: a shallow embedding of the JSON-Schema-to-template compiler, the
data normalizer, the path resolver, the HTML renderer, the HTML-to-DOCX
node converter, and the format emitter adapters, together with theorems
settling the specification claims about them.

JavaScript semantics are modelled over ASCII-oriented Lean strings:
strings are lists of characters, JSON numbers are modelled as integers,
and absent (`undefined`) values are modelled with `Option`.
-/

set_option maxHeartbeats 1000000

namespace DocsDrafter

/-! ## Shared JavaScript-semantics helpers -/

/-- JS word character, the regex class `\w`: `[A-Za-z0-9_]`. -/
def isWordChar (c : Char) : Bool :=
  c.isAlpha || c.isDigit || c = '_'

/-- JS truthiness of an optional string: `undefined` and `''` are falsy. -/
def strTruthy : Option String → Bool
  | none => false
  | some s => s ≠ ""

/-- JS `a || b` for optional strings. -/
def strOr (a b : Option String) : Option String :=
  if strTruthy a then a else b

/-- JS `a || d` where the fallback `d` is a plain string. -/
def strOrElse (a : Option String) (d : String) : String :=
  match a with
  | some s => if s = "" then d else s
  | none => d

/-! ## Template data model (transcribed from the TemplateConfig renderer) -/

/-- `CSSPrimitive = string | number`. -/
inductive CSSPrim where
  | s (v : String)
  | n (v : Int)
deriving Repr, DecidableEq

/-- `CSSStyle`: ordered record of style-property name to primitive value. -/
abbrev CSSStyle := List (String × CSSPrim)

/-- The `bind` field of a `BindRef`: the outer `Option` is the presence of
    `bind`, the inner `Option` the presence of `path`. -/
abbrev BindField := Option (Option String)

/-- `string | \x7b bind?: \x7b path?: string \x7d \x7d`, as used by
    `SignatureBlock.name` and `extractPath`. -/
inductive StrOrBind where
  | str (s : String)
  | bindRef (bind : BindField)
deriving Repr, DecidableEq

/-- `extractPath` from the renderer: a string stays as is, a `BindRef`
    yields `bind?.path || undefined` (an empty path is falsy and becomes
    `undefined`). -/
def extractPath : Option StrOrBind → Option String
  | none => none
  | some (.str s) => some s
  | some (.bindRef b) =>
    match b with
    | none => none
    | some none => none
    | some (some p) => if p = "" then none else some p

structure HeadingBlock where
  text : String
  level : Option Int
  style : Option CSSStyle
deriving Repr, DecidableEq

structure ParagraphBlock where
  bind : BindField
  text : Option String
  style : Option CSSStyle
deriving Repr, DecidableEq

structure LinePart where
  bind : BindField
  text : Option String
  path : Option String
deriving Repr, DecidableEq

structure LineBlock where
  parts : List LinePart
  style : Option CSSStyle
deriving Repr, DecidableEq

structure ListBlock where
  bind : BindField
  items : Option (List (Sum String LinePart))
  ordered : Option Bool
  sourcePath : Option String
  dataPath : Option String
  style : Option CSSStyle
deriving Repr, DecidableEq

structure TableColumn where
  header : String
  path : String
deriving Repr, DecidableEq

structure TableBlock where
  bind : BindField
  columns : List TableColumn
  dataPath : Option String
  sourcePath : Option String
  style : Option CSSStyle
  headerStyle : Option CSSStyle
  cellStyle : Option CSSStyle
deriving Repr, DecidableEq

structure KeyValueRow where
  bind : BindField
  label : String
  path : Option String
deriving Repr, DecidableEq

structure KeyValueTableBlock where
  rows : List KeyValueRow
  style : Option CSSStyle
deriving Repr, DecidableEq

structure KeyValueListBlock where
  rows : List KeyValueRow
  style : Option CSSStyle
deriving Repr, DecidableEq

structure DividerBlock where
  style : Option CSSStyle
deriving Repr, DecidableEq

structure SpacerBlock where
  size : Option Int
deriving Repr, DecidableEq

structure SignatureBlock where
  name : Option StrOrBind
  title : Option StrOrBind
  showRegards : Option Bool
  style : Option CSSStyle
deriving Repr, DecidableEq

/-- The closed tagged union of template blocks. -/
inductive TemplateBlock where
  | heading (b : HeadingBlock)
  | paragraph (b : ParagraphBlock)
  | line (b : LineBlock)
  | list (b : ListBlock)
  | table (b : TableBlock)
  | keyValueTable (b : KeyValueTableBlock)
  | keyValueList (b : KeyValueListBlock)
  | divider (b : DividerBlock)
  | spacer (b : SpacerBlock)
  | signature (b : SignatureBlock)
deriving Repr, DecidableEq

/-- The tag of a block, for stating order properties. -/
def blockKind : TemplateBlock → String
  | .heading _ => "heading"
  | .paragraph _ => "paragraph"
  | .line _ => "line"
  | .list _ => "list"
  | .table _ => "table"
  | .keyValueTable _ => "keyValueTable"
  | .keyValueList _ => "keyValueList"
  | .divider _ => "divider"
  | .spacer _ => "spacer"
  | .signature _ => "signature"

/-- The named optional keys of `TemplateConfig.styles` that the renderer
    reads (canonical keys plus the seed-data aliases). -/
structure StylesRecord where
  document : Option CSSStyle := none
  heading : Option CSSStyle := none
  paragraph : Option CSSStyle := none
  line : Option CSSStyle := none
  list : Option CSSStyle := none
  listItem : Option CSSStyle := none
  table : Option CSSStyle := none
  th : Option CSSStyle := none
  td : Option CSSStyle := none
  divider : Option CSSStyle := none
  signature : Option CSSStyle := none
  page : Option CSSStyle := none
  h1 : Option CSSStyle := none
  h2 : Option CSSStyle := none
  h3 : Option CSSStyle := none
  h4 : Option CSSStyle := none
  h5 : Option CSSStyle := none
  h6 : Option CSSStyle := none
  p : Option CSSStyle := none
  kvList : Option CSSStyle := none
  kvRow : Option CSSStyle := none
  kvLabel : Option CSSStyle := none
  kvValue : Option CSSStyle := none
deriving Repr, DecidableEq

structure TemplateConfig where
  title : Option String
  styles : Option StylesRecord
  blocks : List TemplateBlock
deriving Repr, DecidableEq

/-! ## Schema compiler (`schemaToTemplateConfig` in useDocumentGenerator.ts) -/

mutual
/-- `JSONSchemaProperty`: recursive description of one schema field.  The
    properties map is represented by the companion type `SchemaProps`, an
    ordered sequence of key/property pairs (the declaration order of
    `Object.entries`). -/
inductive SchemaProp : Type where
  | mk (type : String) (title : Option String) (format : Option String)
      (enumVals : Option (List String))
      (items : Option SchemaProp)
      (properties : Option SchemaProps)
      (required : Option (List String)) : SchemaProp

inductive SchemaProps : Type where
  | nil : SchemaProps
  | cons (key : String) (prop : SchemaProp) (rest : SchemaProps) : SchemaProps
end

def SchemaProp.type : SchemaProp → String
  | .mk t _ _ _ _ _ _ => t

def SchemaProp.title : SchemaProp → Option String
  | .mk _ t _ _ _ _ _ => t

def SchemaProp.properties : SchemaProp → Option SchemaProps
  | .mk _ _ _ _ _ ps _ => ps

/-- The key/property pairs of a `SchemaProps` sequence, in order. -/
def SchemaProps.toList : SchemaProps → List (String × SchemaProp)
  | .nil => []
  | .cons key prop rest => (key, prop) :: rest.toList

/-- `JSONSchema`: the top-level schema handed to the compiler.  Its
    `properties` is optional because `buildBlocks` reads
    `s.properties || \x7b\x7d`. -/
structure JSONSchema where
  type : String
  properties : Option SchemaProps
  required : Option (List String)

/-- One pass of `s.replace(/[_-]+/g, ' ')`: every run of underscores and
    hyphens becomes a single space.  The boolean records whether the
    previous character belonged to such a run. -/
def squashDashesGo : Bool → List Char → List Char
  | _, [] => []
  | inRun, c :: rest =>
    if c = '_' || c = '-' then
      (if inRun then [] else [' ']) ++ squashDashesGo true rest
    else
      c :: squashDashesGo false rest

def squashDashes (cs : List Char) : List Char :=
  squashDashesGo false cs

/-- The pass `replace(/\b\w/g, m => m.toUpperCase())`: a word character
    not preceded by a word character is upper-cased.  The boolean carries
    whether the previous character was a word character. -/
def upWordStarts : Bool → List Char → List Char
  | _, [] => []
  | prevWord, c :: cs =>
    (if isWordChar c && !prevWord then c.toUpper else c) :: upWordStarts (isWordChar c) cs

/-- `titleCase` from `schemaToTemplateConfig`. -/
def titleCase (s : String) : String :=
  ⟨upWordStarts false (squashDashes s.data)⟩

/-- `makePath` from `schemaToTemplateConfig`. -/
def makePath (parent key : String) : String :=
  if parent = "" then key else parent ++ "." ++ key

/-- `isPrimitive` from `schemaToTemplateConfig`. -/
def isPrimitiveType (t : String) : Bool :=
  t = "string" || t = "number" || t = "integer" || t = "boolean"

/-- The loop of `buildBlocks`: walks the properties in declaration order,
    pushing blocks for non-primitive fields and accumulating keyValueList
    rows for primitive fields.  The accumulated rows are flushed by
    `buildBlocks` only after the walk of the whole property list. -/
def buildBlocksGo : SchemaProps → String → List TemplateBlock × List KeyValueRow
  | .nil, _ => ([], [])
  | .cons key (SchemaProp.mk ty title _fmt _enm items props _req) rest, parentPath =>
    let path := makePath parentPath key
    let label := strOrElse title (titleCase key)
    let restResult := buildBlocksGo rest parentPath
    if isPrimitiveType ty then
      (restResult.1, KeyValueRow.mk (some (some path)) label none :: restResult.2)
    else if ty = "array" then
      match items with
      | some (SchemaProp.mk ity _ _ _ _ (some iprops) _) =>
        if ity = "object" then
          let columns := iprops.toList.map (fun kv =>
            TableColumn.mk (strOrElse kv.2.title (titleCase kv.1)) kv.1)
          (TemplateBlock.table ⟨none, columns, some path, none, none, none, none⟩ ::
             restResult.1,
           restResult.2)
        else
          (TemplateBlock.list ⟨none, none, none, none, some path, none⟩ :: restResult.1,
           restResult.2)
      | _ =>
        (TemplateBlock.list ⟨none, none, none, none, some path, none⟩ :: restResult.1,
         restResult.2)
    else if ty = "object" then
      match props with
      | some iprops =>
        let inner := buildBlocksGo iprops path
        (TemplateBlock.heading ⟨label, some 3, none⟩ ::
            (inner.1 ++
              (if inner.2.isEmpty then [] else [TemplateBlock.keyValueList ⟨inner.2, none⟩])) ++
            restResult.1,
         restResult.2)
      | none => (restResult.1, restResult.2)
    else
      (restResult.1, restResult.2)

/-- `buildBlocks`: the walk plus the trailing flush of accumulated
    primitive rows into one `keyValueList` block. -/
def buildBlocks (props : SchemaProps) (parentPath : String) :
    List TemplateBlock :=
  let r := buildBlocksGo props parentPath
  r.1 ++ if r.2.isEmpty then [] else [TemplateBlock.keyValueList ⟨r.2, none⟩]

/-- `schemaToTemplateConfig`. -/
def schemaToTemplateConfig (schema : JSONSchema) : TemplateConfig :=
  { title := none
  , styles := some
      { table := some [("borderCollapse", .s "collapse"), ("width", .s "100%")]
      , th := some [("fontWeight", .s "600"), ("background", .s "#f9fafb"),
          ("border", .s "1px solid #e5e7eb"), ("padding", .s "8px")]
      , td := some [("border", .s "1px solid #e5e7eb"), ("padding", .s "8px")]
      , paragraph := some [("margin", .s "0 0 12px")]
      , heading := some [("margin", .s "12px 0 6px"), ("fontWeight", .s "600")]
      , kvList := some [("display", .s "grid"), ("rowGap", .s "8px")]
      , kvRow := some [("display", .s "grid"), ("gridTemplateColumns", .s "220px 1fr"),
          ("columnGap", .s "12px"), ("alignItems", .s "start")]
      , kvLabel := some [("fontWeight", .s "600"), ("color", .s "#374151")]
      , kvValue := some [("color", .s "#111827")] }
  , blocks := buildBlocks (schema.properties.getD .nil) "" }

/-- The item schema of the example scenario in the specification:
    an object with properties `sku : string` and `qty : number`. -/
def exampleItemSchema : SchemaProp :=
  .mk "object" none none none none
    (some (.cons "sku" (.mk "string" none none none none none none)
            (.cons "qty" (.mk "number" none none none none none none) .nil)))
    none

/-- The example schema of the specification: a primitive field `name`
    (title `Name`) declared before an array-of-objects field `items`. -/
def exampleSchema : JSONSchema :=
  { type := "object"
  , properties := some
      (.cons "name" (.mk "string" (some "Name") none none none none none)
        (.cons "items" (.mk "array" none none none (some exampleItemSchema) none none) .nil))
  , required := none }

/-! ## JSON-like runtime values

The data object handed to the renderer, and the results of `JSON.parse`,
are JSON-like values.  Numbers are modelled as integers (the integral
fragment of JS numbers); `undefined` is modelled as `Option.none` where it
can occur. -/

inductive Value where
  | vnull
  | vbool (b : Bool)
  | vnum (n : Int)
  | vstr (s : String)
  | varr (elems : List Value)
  | vobj (fields : List (String × Value))
deriving Repr

mutual
/-- Structural equality on values (JSON trees have no reference identity,
    so this is the natural embedding of object identity checks on trees). -/
def Value.beq : Value → Value → Bool
  | .vnull, .vnull => true
  | .vbool a, .vbool b => a == b
  | .vnum a, .vnum b => a == b
  | .vstr a, .vstr b => a == b
  | .varr xs, .varr ys => beqValueList xs ys
  | .vobj xs, .vobj ys => beqValueFields xs ys
  | _, _ => false

def beqValueList : List Value → List Value → Bool
  | [], [] => true
  | x :: xs, y :: ys => x.beq y && beqValueList xs ys
  | _, _ => false

def beqValueFields : List (String × Value) → List (String × Value) → Bool
  | [], [] => true
  | (k, x) :: xs, (l, y) :: ys => k == l && x.beq y && beqValueFields xs ys
  | _, _ => false
end

instance : BEq Value := ⟨Value.beq⟩

mutual
/-- Size measure for the normalizer's termination: a string weighs more
    than any value whose JSON text it could be. -/
def Value.weight : Value → Nat
  | .vnull => 1
  | .vbool _ => 1
  | .vnum _ => 1
  | .vstr s => s.length + 1
  | .varr xs => 1 + weightValueList xs
  | .vobj kvs => 1 + weightValueFields kvs

def weightValueList : List Value → Nat
  | [] => 0
  | v :: vs => v.weight + weightValueList vs

def weightValueFields : List (String × Value) → Nat
  | [] => 0
  | (k, v) :: kvs => k.length + 1 + v.weight + weightValueFields kvs
end

/-- JS truthiness of a value. -/
def Value.truthy : Value → Bool
  | .vnull => false
  | .vbool b => b
  | .vnum n => n != 0
  | .vstr s => s ≠ ""
  | .varr _ => true
  | .vobj _ => true

/-- `Array.isArray`. -/
def isArrayValue : Value → Bool
  | .varr _ => true
  | _ => false

/-- `isPlainObject` from the renderer: an object that is not null, not an
    array, and whose constructor is `Object` (which holds of every value
    produced by `JSON.parse`). -/
def isPlainObjectValue : Value → Bool
  | .vobj _ => true
  | _ => false

/-! ## JSON text: stringify -/

/-- Decimal digits of a natural number, accumulator form.  The fuel is
    always sufficient because the digit count of `n` is at most `n + 1`. -/
def natToCharsGo : Nat → Nat → List Char → List Char
  | 0, _, acc => acc
  | fuel + 1, n, acc =>
    let d := Char.ofNat ('0'.toNat + n % 10)
    let n2 := n / 10
    if n2 = 0 then d :: acc else natToCharsGo fuel n2 (d :: acc)

def natToChars (n : Nat) : List Char :=
  natToCharsGo (n + 1) n []

/-- JS `String(n)` for an integral number. -/
def intToChars (i : Int) : List Char :=
  if i < 0 then '-' :: natToChars (-i).toNat else natToChars i.toNat

def digitsToNat (ds : List Char) : Nat :=
  ds.foldl (fun acc c => acc * 10 + (c.toNat - '0'.toNat)) 0

def hexDigitChar (n : Nat) : Char :=
  if n < 10 then Char.ofNat ('0'.toNat + n) else Char.ofNat ('a'.toNat + (n - 10))

/-- `JSON.stringify` escaping of one string character. -/
def escapeJsonChar (c : Char) : List Char :=
  if c = '"' then ['\\', '"']
  else if c = '\\' then ['\\', '\\']
  else if c = '\n' then ['\\', 'n']
  else if c = '\r' then ['\\', 'r']
  else if c = '\t' then ['\\', 't']
  else if c = '\x08' then ['\\', 'b']
  else if c = '\x0c' then ['\\', 'f']
  else if c.toNat < 0x20 then
    ['\\', 'u', '0', '0', hexDigitChar (c.toNat / 16), hexDigitChar (c.toNat % 16)]
  else [c]

def escapeJsonString (cs : List Char) : List Char :=
  match cs with
  | [] => []
  | c :: rest => escapeJsonChar c ++ escapeJsonString rest

/-- A JSON string literal: quote, escaped characters, quote. -/
def quoteJsonString (s : String) : List Char :=
  '"' :: escapeJsonString s.data ++ ['"']

mutual
/-- `JSON.stringify` (no spacing), over the character list. -/
def jsonStringifyChars : Value → List Char
  | .vnull => ['n', 'u', 'l', 'l']
  | .vbool true => ['t', 'r', 'u', 'e']
  | .vbool false => ['f', 'a', 'l', 's', 'e']
  | .vnum n => intToChars n
  | .vstr s => quoteJsonString s
  | .varr xs => '[' :: jsonStringifyElems xs ++ [']']
  | .vobj kvs => '{' :: jsonStringifyFields kvs ++ ['}']

def jsonStringifyElems : List Value → List Char
  | [] => []
  | [x] => jsonStringifyChars x
  | x :: y :: rest => jsonStringifyChars x ++ ',' :: jsonStringifyElems (y :: rest)

def jsonStringifyFields : List (String × Value) → List Char
  | [] => []
  | [(k, v)] => quoteJsonString k ++ ':' :: jsonStringifyChars v
  | (k, v) :: kv2 :: rest =>
    quoteJsonString k ++ ':' :: jsonStringifyChars v ++ ',' :: jsonStringifyFields (kv2 :: rest)
end

def jsonStringify (v : Value) : String :=
  ⟨jsonStringifyChars v⟩

/-! ## JSON text: parse -/

/-- The whitespace accepted between JSON tokens. -/
def isJsonWs (c : Char) : Bool :=
  c = ' ' || c = '\t' || c = '\n' || c = '\r'

def skipJsonWs (cs : List Char) : List Char :=
  cs.dropWhile isJsonWs

/-- Hexadecimal digit test. -/
def isHexDigitChar (c : Char) : Bool :=
  c.isDigit || ('a' ≤ c && c ≤ 'f') || ('A' ≤ c && c ≤ 'F')

/-- Value of a hexadecimal digit. -/
def hexVal (c : Char) : Nat :=
  if c.isDigit then c.toNat - '0'.toNat
  else if 'a' ≤ c && c ≤ 'f' then c.toNat - 'a'.toNat + 10
  else if 'A' ≤ c && c ≤ 'F' then c.toNat - 'A'.toNat + 10
  else 0

/-- Body of a JSON string literal after the opening quote: returns the
    decoded characters and the input remaining after the closing quote. -/
def parseStrBody : List Char → Option (List Char × List Char)
  | [] => none
  | '"' :: rest => some ([], rest)
  | '\\' :: e :: rest =>
    if e = '"' then (parseStrBody rest).map (fun p => ('"' :: p.1, p.2))
    else if e = '\\' then (parseStrBody rest).map (fun p => ('\\' :: p.1, p.2))
    else if e = '/' then (parseStrBody rest).map (fun p => ('/' :: p.1, p.2))
    else if e = 'b' then (parseStrBody rest).map (fun p => ('\x08' :: p.1, p.2))
    else if e = 'f' then (parseStrBody rest).map (fun p => ('\x0c' :: p.1, p.2))
    else if e = 'n' then (parseStrBody rest).map (fun p => ('\n' :: p.1, p.2))
    else if e = 'r' then (parseStrBody rest).map (fun p => ('\r' :: p.1, p.2))
    else if e = 't' then (parseStrBody rest).map (fun p => ('\t' :: p.1, p.2))
    else if e = 'u' then
      match rest with
      | h1 :: h2 :: h3 :: h4 :: rest2 =>
        if isHexDigitChar h1 && isHexDigitChar h2 && isHexDigitChar h3 && isHexDigitChar h4 then
          let code := hexVal h1 * 4096 + hexVal h2 * 256 + hexVal h3 * 16 + hexVal h4
          (parseStrBody rest2).map (fun p => (Char.ofNat code :: p.1, p.2))
        else none
      | _ => none
    else none
  | c :: rest =>
    if c.toNat < 0x20 then none
    else (parseStrBody rest).map (fun p => (c :: p.1, p.2))

/-- Decimal digits after an optional minus sign.  JSON forbids leading
    zeros; numerals with a fraction or exponent are outside the integral
    fragment modelled here and are rejected. -/
def parseNumDigits (cs : List Char) : Option (Nat × List Char) :=
  let digits := cs.takeWhile Char.isDigit
  let rest := cs.dropWhile Char.isDigit
  if digits.isEmpty then none
  else if digits.length > 1 && digits.head? = some '0' then none
  else
    match rest with
    | c :: _ =>
      if c = '.' || c = 'e' || c = 'E' then none else some (digitsToNat digits, rest)
    | [] => some (digitsToNat digits, rest)

mutual
/-- JSON value parser (transcription of the integral fragment of
    `JSON.parse`), fuel-indexed so that every definition reduces in the
    kernel.  `jsonParse` supplies fuel that is always sufficient. -/
def parseVal : Nat → List Char → Option (Value × List Char)
  | 0, _ => none
  | fuel + 1, cs =>
    match skipJsonWs cs with
    | '{' :: rest => parseObjRest fuel rest
    | '[' :: rest => parseArrRest fuel rest
    | '"' :: rest => (parseStrBody rest).map (fun p => (Value.vstr ⟨p.1⟩, p.2))
    | 't' :: 'r' :: 'u' :: 'e' :: rest => some (.vbool true, rest)
    | 'f' :: 'a' :: 'l' :: 's' :: 'e' :: rest => some (.vbool false, rest)
    | 'n' :: 'u' :: 'l' :: 'l' :: rest => some (.vnull, rest)
    | '-' :: rest => (parseNumDigits rest).map (fun p => (Value.vnum (-(p.1 : Int)), p.2))
    | c :: rest =>
      if c.isDigit then
        (parseNumDigits (c :: rest)).map (fun p => (Value.vnum (p.1 : Int), p.2))
      else none
    | [] => none

def parseObjRest : Nat → List Char → Option (Value × List Char)
  | 0, _ => none
  | fuel + 1, cs =>
    match skipJsonWs cs with
    | '}' :: rest => some (.vobj [], rest)
    | _ => (parseMembers fuel cs).map (fun p => (Value.vobj p.1, p.2))

def parseMembers : Nat → List Char → Option (List (String × Value) × List Char)
  | 0, _ => none
  | fuel + 1, cs =>
    match skipJsonWs cs with
    | '"' :: rest =>
      match parseStrBody rest with
      | none => none
      | some (key, rest2) =>
        match skipJsonWs rest2 with
        | ':' :: rest3 =>
          match parseVal fuel rest3 with
          | none => none
          | some (v, rest4) =>
            match skipJsonWs rest4 with
            | ',' :: rest5 =>
              (parseMembers fuel rest5).map (fun p => ((⟨key⟩, v) :: p.1, p.2))
            | '}' :: rest5 => some ([(⟨key⟩, v)], rest5)
            | _ => none
        | _ => none
    | _ => none

def parseArrRest : Nat → List Char → Option (Value × List Char)
  | 0, _ => none
  | fuel + 1, cs =>
    match skipJsonWs cs with
    | ']' :: rest => some (.varr [], rest)
    | _ => (parseElems fuel cs).map (fun p => (Value.varr p.1, p.2))

def parseElems : Nat → List Char → Option (List Value × List Char)
  | 0, _ => none
  | fuel + 1, cs =>
    match parseVal fuel cs with
    | none => none
    | some (v, rest) =>
      match skipJsonWs rest with
      | ',' :: rest2 => (parseElems fuel rest2).map (fun p => (v :: p.1, p.2))
      | ']' :: rest2 => some ([v], rest2)
      | _ => none
end

/-- `JSON.parse` on a whole string: a single element with only whitespace
    around it. -/
def jsonParse (s : String) : Option Value :=
  match parseVal (3 * s.data.length + 3) s.data with
  | some (v, rest) => if (skipJsonWs rest).isEmpty then some v else none
  | none => none

/-- `tryParseJson` from the renderer: `JSON.parse` with exceptions mapped
    to `undefined`. -/
def tryParseJson (s : String) : Option Value :=
  jsonParse s

/-! ## Data normalization (`normalizeDataForRendering`) -/

/-- JS whitespace removed by `String.trim` (ASCII fragment). -/
def isJsTrimWs (c : Char) : Bool :=
  c = ' ' || c = '\t' || c = '\n' || c = '\r' || c = '\x0b' || c = '\x0c'

def jsTrimChars (cs : List Char) : List Char :=
  ((cs.dropWhile isJsTrimWs).reverse.dropWhile isJsTrimWs).reverse

/-- `looksLikeJsonContainer`: the trimmed string is brace- or
    bracket-delimited. -/
def looksLikeJsonContainer (s : String) : Bool :=
  let t := jsTrimChars s.data
  (t.head? == some '{' && t.getLast? == some '}') ||
  (t.head? == some '[' && t.getLast? == some ']')

theorem length_dropWhile_le {α : Type} (p : α → Bool) (l : List α) :
    (l.dropWhile p).length ≤ l.length := by
  induction l with
  | nil => simp
  | cons a l ih =>
    by_cases h : p a
    · simp only [List.dropWhile_cons, h, if_true, List.length_cons]
      omega
    · simp [List.dropWhile_cons, h]

theorem skipJsonWs_length (cs : List Char) : (skipJsonWs cs).length ≤ cs.length :=
  length_dropWhile_le isJsonWs cs

theorem parseStrBody_length : ∀ (n : Nat) (cs : List Char), cs.length ≤ n →
    ∀ s rest : List Char, parseStrBody cs = some (s, rest) →
      s.length + rest.length + 1 ≤ cs.length := by
  intro n
  induction n with
  | zero =>
    intro cs hlen s rest h
    rw [List.length_eq_zero.mp (Nat.le_zero.mp hlen)] at h
    cases h
  | succ n ih =>
    intro cs hlen s rest h
    unfold parseStrBody at h
    split at h
    · cases h
    · simp only [Option.some.injEq, Prod.mk.injEq] at h
      obtain ⟨h1, h2⟩ := h
      subst h1
      subst h2
      simp
    · repeat' split at h
      all_goals try cases h
      all_goals
        rw [Option.map_eq_some'] at h
        obtain ⟨⟨s1, r1⟩, hp, heq⟩ := h
        simp only [Prod.mk.injEq] at heq
        obtain ⟨heq1, heq2⟩ := heq
        subst heq1
        subst heq2
      all_goals
        simp only [List.length_cons] at hlen ⊢
      · have hb := ih _ (by omega) s1 r1 hp
        omega
      · have hb := ih _ (by omega) s1 r1 hp
        omega
      · have hb := ih _ (by omega) s1 r1 hp
        omega
      · have hb := ih _ (by omega) s1 r1 hp
        omega
      · have hb := ih _ (by omega) s1 r1 hp
        omega
      · have hb := ih _ (by omega) s1 r1 hp
        omega
      · have hb := ih _ (by omega) s1 r1 hp
        omega
      · have hb := ih _ (by omega) s1 r1 hp
        omega
      · have hb := ih _ (by omega) s1 r1 hp
        omega
    · split at h
      · cases h
      · rw [Option.map_eq_some'] at h
        obtain ⟨⟨s1, r1⟩, hp, heq⟩ := h
        simp only [Prod.mk.injEq] at heq
        obtain ⟨heq1, heq2⟩ := heq
        subst heq1
        subst heq2
        simp only [List.length_cons] at hlen ⊢
        have hb := ih _ (by omega) s1 r1 hp
        omega

theorem parseNumDigits_length (cs : List Char) (n : Nat) (rest : List Char)
    (h : parseNumDigits cs = some (n, rest)) :
    rest.length + 1 ≤ cs.length := by
  have hsplit : (cs.takeWhile Char.isDigit).length + (cs.dropWhile Char.isDigit).length
      = cs.length := by
    rw [← List.length_append, List.takeWhile_append_dropWhile]
  have hrest : rest = cs.dropWhile Char.isDigit ∧ ¬(cs.takeWhile Char.isDigit).isEmpty := by
    simp only [parseNumDigits] at h
    split at h
    · cases h
    · split at h
      · cases h
      · split at h
        · split at h
          · cases h
          · simp only [Option.some.injEq, Prod.mk.injEq] at h
            exact ⟨h.2.symm, by assumption⟩
        · simp only [Option.some.injEq, Prod.mk.injEq] at h
          exact ⟨h.2.symm, by assumption⟩
  obtain ⟨rfl, hne⟩ := hrest
  rcases htk : cs.takeWhile Char.isDigit with _ | ⟨d, ds⟩
  · rw [htk] at hne
    simp at hne
  · rw [htk] at hsplit
    simp only [List.length_cons] at hsplit
    omega

theorem parserLength : ∀ fuel : Nat,
    (∀ cs v rest, parseVal fuel cs = some (v, rest) →
      v.weight + rest.length ≤ cs.length) ∧
    (∀ cs v rest, parseObjRest fuel cs = some (v, rest) →
      v.weight + rest.length ≤ cs.length + 1) ∧
    (∀ cs kvs rest, parseMembers fuel cs = some (kvs, rest) →
      weightValueFields kvs + rest.length + 1 ≤ cs.length) ∧
    (∀ cs v rest, parseArrRest fuel cs = some (v, rest) →
      v.weight + rest.length ≤ cs.length + 1) ∧
    (∀ cs xs rest, parseElems fuel cs = some (xs, rest) →
      weightValueList xs + rest.length + 1 ≤ cs.length) := by
  intro fuel
  induction fuel with
  | zero =>
    refine ⟨?_, ?_, ?_, ?_, ?_⟩ <;> intro cs a b h <;>
      simp [parseVal, parseObjRest, parseMembers, parseArrRest, parseElems] at h
  | succ fuel ih =>
    obtain ⟨ihV, ihO, ihM, ihA, ihE⟩ := ih
    refine ⟨?_, ?_, ?_, ?_, ?_⟩
    · intro cs v rest h
      have hsk := skipJsonWs_length cs
      unfold parseVal at h
      split at h
      all_goals rename_i heq
      all_goals rw [heq] at hsk
      all_goals try simp only [List.length_cons] at hsk
      · have hb := ihO _ v rest h
        omega
      · have hb := ihA _ v rest h
        omega
      · rw [Option.map_eq_some'] at h
        obtain ⟨⟨chars, r2⟩, hp, heq2⟩ := h
        simp only [Prod.mk.injEq] at heq2
        obtain ⟨heq3, heq4⟩ := heq2
        subst heq3
        subst heq4
        have hsb := parseStrBody_length _ _ (le_refl _) chars r2 hp
        have hw : (Value.vstr ⟨chars⟩).weight = chars.length + 1 := rfl
        omega
      · simp only [Option.some.injEq, Prod.mk.injEq] at h
        obtain ⟨h1, h2⟩ := h
        subst h1
        subst h2
        have hw : (Value.vbool true).weight = 1 := rfl
        omega
      · simp only [Option.some.injEq, Prod.mk.injEq] at h
        obtain ⟨h1, h2⟩ := h
        subst h1
        subst h2
        have hw : (Value.vbool false).weight = 1 := rfl
        omega
      · simp only [Option.some.injEq, Prod.mk.injEq] at h
        obtain ⟨h1, h2⟩ := h
        subst h1
        subst h2
        have hw : Value.vnull.weight = 1 := rfl
        omega
      · rw [Option.map_eq_some'] at h
        obtain ⟨⟨m, r2⟩, hp, heq2⟩ := h
        simp only [Prod.mk.injEq] at heq2
        obtain ⟨heq3, heq4⟩ := heq2
        subst heq3
        subst heq4
        have hnd := parseNumDigits_length _ _ _ hp
        have hw : (Value.vnum (-(m : Int))).weight = 1 := rfl
        omega
      · split at h
        · rw [Option.map_eq_some'] at h
          obtain ⟨⟨m, r2⟩, hp, heq2⟩ := h
          simp only [Prod.mk.injEq] at heq2
          obtain ⟨heq3, heq4⟩ := heq2
          subst heq3
          subst heq4
          have hnd := parseNumDigits_length _ _ _ hp
          simp only [List.length_cons] at hnd
          have hw : (Value.vnum (m : Int)).weight = 1 := rfl
          omega
        · cases h
      · cases h
    · intro cs v rest h
      have hsk := skipJsonWs_length cs
      unfold parseObjRest at h
      split at h
      · rename_i heq
        rw [heq] at hsk
        simp only [List.length_cons] at hsk
        simp only [Option.some.injEq, Prod.mk.injEq] at h
        obtain ⟨h1, h2⟩ := h
        subst h1
        subst h2
        have hw : (Value.vobj []).weight = 1 := rfl
        omega
      · rw [Option.map_eq_some'] at h
        obtain ⟨⟨kvs, r2⟩, hp, heq2⟩ := h
        simp only [Prod.mk.injEq] at heq2
        obtain ⟨heq3, heq4⟩ := heq2
        subst heq3
        subst heq4
        have hb := ihM _ kvs r2 hp
        have hw : (Value.vobj kvs).weight = 1 + weightValueFields kvs := rfl
        omega
    · intro cs kvs rest h
      have hsk := skipJsonWs_length cs
      unfold parseMembers at h
      split at h
      · rename_i heq
        rw [heq] at hsk
        simp only [List.length_cons] at hsk
        split at h
        · cases h
        · rename_i key rest2 hp
          split at h
          · rename_i rest3 heq2
            have hsk2 := skipJsonWs_length rest2
            rw [heq2] at hsk2
            simp only [List.length_cons] at hsk2
            split at h
            · cases h
            · rename_i v rest4 hv
              have hsb := parseStrBody_length _ _ (le_refl _) key rest2 hp
              have hbv := ihV _ v rest4 hv
              split at h
              · rename_i rest5 heq3
                have hsk3 := skipJsonWs_length rest4
                rw [heq3] at hsk3
                simp only [List.length_cons] at hsk3
                rw [Option.map_eq_some'] at h
                obtain ⟨⟨kvs2, r2⟩, hm, heq4⟩ := h
                simp only [Prod.mk.injEq] at heq4
                obtain ⟨heq5, heq6⟩ := heq4
                subst heq5
                subst heq6
                have hb := ihM _ kvs2 r2 hm
                have hw : weightValueFields ((⟨key⟩, v) :: kvs2)
                    = key.length + 1 + v.weight + weightValueFields kvs2 := rfl
                omega
              · rename_i rest5 heq3
                have hsk3 := skipJsonWs_length rest4
                rw [heq3] at hsk3
                simp only [List.length_cons] at hsk3
                simp only [Option.some.injEq, Prod.mk.injEq] at h
                obtain ⟨h1, h2⟩ := h
                subst h1
                subst h2
                have hw : weightValueFields [(⟨key⟩, v)]
                    = key.length + 1 + v.weight + 0 := rfl
                omega
              · cases h
          · cases h
      · cases h
    · intro cs v rest h
      have hsk := skipJsonWs_length cs
      unfold parseArrRest at h
      split at h
      · rename_i heq
        rw [heq] at hsk
        simp only [List.length_cons] at hsk
        simp only [Option.some.injEq, Prod.mk.injEq] at h
        obtain ⟨h1, h2⟩ := h
        subst h1
        subst h2
        have hw : (Value.varr []).weight = 1 := rfl
        omega
      · rw [Option.map_eq_some'] at h
        obtain ⟨⟨xs, r2⟩, hp, heq2⟩ := h
        simp only [Prod.mk.injEq] at heq2
        obtain ⟨heq3, heq4⟩ := heq2
        subst heq3
        subst heq4
        have hb := ihE _ xs r2 hp
        have hw : (Value.varr xs).weight = 1 + weightValueList xs := rfl
        omega
    · intro cs xs rest h
      unfold parseElems at h
      split at h
      · cases h
      · rename_i v rest2 hv
        have hbv := ihV _ v rest2 hv
        split at h
        · rename_i rest3 heq
          have hsk := skipJsonWs_length rest2
          rw [heq] at hsk
          simp only [List.length_cons] at hsk
          rw [Option.map_eq_some'] at h
          obtain ⟨⟨xs2, r2⟩, hm, heq2⟩ := h
          simp only [Prod.mk.injEq] at heq2
          obtain ⟨heq3, heq4⟩ := heq2
          subst heq3
          subst heq4
          have hb := ihE _ xs2 r2 hm
          have hw : weightValueList (v :: xs2) = v.weight + weightValueList xs2 := rfl
          omega
        · rename_i rest3 heq
          have hsk := skipJsonWs_length rest2
          rw [heq] at hsk
          simp only [List.length_cons] at hsk
          simp only [Option.some.injEq, Prod.mk.injEq] at h
          obtain ⟨h1, h2⟩ := h
          subst h1
          subst h2
          have hw : weightValueList [v] = v.weight + 0 := rfl
          omega
        · cases h

/-- A successfully parsed value weighs no more than its source text. -/
theorem tryParseJson_weight {s : String} {v : Value}
    (h : tryParseJson s = some v) : v.weight ≤ s.length := by
  unfold tryParseJson jsonParse at h
  split at h
  · rename_i v1 rest1 heq
    split at h
    · obtain rfl := Option.some.inj h
      have := (parserLength (3 * s.data.length + 3)).1 s.data v1 rest1 heq
      have hlen : s.length = s.data.length := rfl
      omega
    · cases h
  · cases h

theorem le_weightValueList {x : Value} {xs : List Value} (h : x ∈ xs) :
    x.weight ≤ weightValueList xs := by
  induction xs with
  | nil => cases h
  | cons y ys ih =>
    rcases List.mem_cons.mp h with rfl | hm
    · simp only [weightValueList]
      omega
    · have := ih hm
      simp only [weightValueList]
      omega

theorem le_weightValueFields {kv : String × Value} {kvs : List (String × Value)}
    (h : kv ∈ kvs) : kv.2.weight ≤ weightValueFields kvs := by
  induction kvs with
  | nil => cases h
  | cons y ys ih =>
    rcases List.mem_cons.mp h with rfl | hm
    · rcases kv with ⟨k, v⟩
      simp only [weightValueFields]
      omega
    · have := ih hm
      rcases y with ⟨k, v⟩
      simp only [weightValueFields]
      omega

mutual
theorem Value.beq_iff : (x y : Value) → (Value.beq x y = true ↔ x = y)
  | .vnull, y => by cases y <;> simp [Value.beq]
  | .vbool a, y => by cases y <;> simp [Value.beq]
  | .vnum a, y => by cases y <;> simp [Value.beq]
  | .vstr a, y => by cases y <;> simp [Value.beq]
  | .varr xs, y => by
    cases y
    case varr ys =>
      simp only [Value.beq, Value.varr.injEq]
      exact beqValueList_iff xs ys
    all_goals simp [Value.beq]
  | .vobj xs, y => by
    cases y
    case vobj ys =>
      simp only [Value.beq, Value.vobj.injEq]
      exact beqValueFields_iff xs ys
    all_goals simp [Value.beq]

theorem beqValueList_iff : (xs ys : List Value) → (beqValueList xs ys = true ↔ xs = ys)
  | [], [] => by simp [beqValueList]
  | [], _ :: _ => by simp [beqValueList]
  | _ :: _, [] => by simp [beqValueList]
  | x :: xs, y :: ys => by
    simp only [beqValueList, Bool.and_eq_true, List.cons.injEq]
    rw [Value.beq_iff x y, beqValueList_iff xs ys]

theorem beqValueFields_iff : (xs ys : List (String × Value)) → (beqValueFields xs ys = true ↔ xs = ys)
  | [], [] => by simp [beqValueFields]
  | [], _ :: _ => by simp [beqValueFields]
  | _ :: _, [] => by simp [beqValueFields]
  | (k, x) :: xs, (l, y) :: ys => by
    simp only [beqValueFields, Bool.and_eq_true, List.cons.injEq, Prod.mk.injEq,
      beq_iff_eq]
    rw [Value.beq_iff x y, beqValueFields_iff xs ys]
end

instance : DecidableEq Value := fun x y =>
  decidable_of_iff (Value.beq x y = true) (Value.beq_iff x y)


/-- `normalizeDataForRendering(input, seen)`: strings that look like JSON
    containers and parse to an object or array are replaced by the parsed,
    recursively normalized result; arrays map element-wise; objects already
    in the per-call `seen` set are returned unmodified, otherwise they are
    copied key-wise with the object added to `seen`; all other values pass
    through.  (On tree-shaped values, structural membership in `seen` is
    the embedding of the `WeakSet` reference check.) -/
def normalizeSeen (seen : List Value) (v : Value) : Value :=
  match v with
  | .vstr s =>
    if looksLikeJsonContainer s then
      match h : tryParseJson s with
      | some parsed =>
        if parsed.truthy && (isArrayValue parsed || isPlainObjectValue parsed) then
          normalizeSeen seen parsed
        else .vstr s
      | none => .vstr s
    else .vstr s
  | .varr xs => .varr (xs.attach.map (fun x => normalizeSeen seen x.1))
  | .vobj kvs =>
    if seen.contains (Value.vobj kvs) then Value.vobj kvs
    else
      .vobj (kvs.attach.map (fun kv => (kv.1.1, normalizeSeen (Value.vobj kvs :: seen) kv.1.2)))
  | other => other
termination_by v.weight
decreasing_by
  · have hw := tryParseJson_weight h
    simp only [Value.weight]
    omega
  · have := le_weightValueList x.2
    simp only [Value.weight]
    omega
  · have := le_weightValueFields kv.2
    simp only [Value.weight]
    omega

/-- `normalizeDataForRendering(input)`: the per-call seen set starts
    empty. -/
def normalizeDataForRendering (input : Value) : Value :=
  normalizeSeen [] input

instance : LawfulBEq Value where
  eq_of_beq h := (Value.beq_iff _ _).mp h
  rfl := (Value.beq_iff _ _).mpr rfl

theorem contains_eq_false_of_weight {v : Value} {seen : List Value}
    (h : ∀ o ∈ seen, v.weight < o.weight) : seen.contains v = false := by
  induction seen with
  | nil => rfl
  | cons o os ih =>
    have hne : (v == o) = false := by
      by_contra hc
      have : v = o := eq_of_beq (by simpa using hc)
      subst this
      exact absurd (h v (List.mem_cons_self v os)) (by omega)
    have hrec : os.contains v = false := ih (fun o ho => h o (List.mem_cons_of_mem _ ho))
    simp only [List.contains_cons, hne, Bool.false_or]
    exact hrec

theorem normalizeSeen_null (seen : List Value) : normalizeSeen seen .vnull = .vnull := by
  simp [normalizeSeen]

theorem normalizeSeen_bool (seen : List Value) (b : Bool) :
    normalizeSeen seen (.vbool b) = .vbool b := by
  simp [normalizeSeen]

theorem normalizeSeen_num (seen : List Value) (n : Int) :
    normalizeSeen seen (.vnum n) = .vnum n := by
  simp [normalizeSeen]

theorem normalizeSeen_str_of_not_container {s : String} (seen : List Value)
    (h : looksLikeJsonContainer s = false) :
    normalizeSeen seen (.vstr s) = .vstr s := by
  rw [normalizeSeen]
  simp [h]

theorem normalizeSeen_str_of_parse_none {s : String} (seen : List Value)
    (h : tryParseJson s = none) :
    normalizeSeen seen (.vstr s) = .vstr s := by
  rw [normalizeSeen]
  split
  · rw [h]
  · rfl

theorem normalizeSeen_str_of_not_cont {s : String} {p : Value} (seen : List Value)
    (h1 : looksLikeJsonContainer s = true) (h2 : tryParseJson s = some p)
    (h3 : (p.truthy && (isArrayValue p || isPlainObjectValue p)) = false) :
    normalizeSeen seen (.vstr s) = .vstr s := by
  rw [normalizeSeen]
  simp only [h1, if_true]
  split
  · rename_i p2 heq
    rw [h2] at heq
    obtain rfl := Option.some.inj heq
    simp [h3]
  · rfl

theorem normalizeSeen_str_rehydrate {s : String} {p : Value} (seen : List Value)
    (h1 : looksLikeJsonContainer s = true) (h2 : tryParseJson s = some p)
    (h3 : (p.truthy && (isArrayValue p || isPlainObjectValue p)) = true) :
    normalizeSeen seen (.vstr s) = normalizeSeen seen p := by
  rw [normalizeSeen]
  simp only [h1, if_true]
  split
  · rename_i p2 heq
    rw [h2] at heq
    obtain rfl := Option.some.inj heq
    simp [h3]
  · rename_i heq
    rw [h2] at heq
    cases heq

theorem normalizeSeen_arr (seen : List Value) (xs : List Value) :
    normalizeSeen seen (.varr xs) = .varr (xs.map (normalizeSeen seen)) := by
  rw [normalizeSeen]
  congr 1
  exact List.attach_map_val xs (normalizeSeen seen)

theorem normalizeSeen_obj_seen {kvs : List (String × Value)} (seen : List Value)
    (h : seen.contains (Value.vobj kvs) = true) :
    normalizeSeen seen (.vobj kvs) = .vobj kvs := by
  rw [normalizeSeen, if_pos h]

theorem normalizeSeen_obj {kvs : List (String × Value)} (seen : List Value)
    (h : seen.contains (Value.vobj kvs) = false) :
    normalizeSeen seen (.vobj kvs) =
      .vobj (kvs.map (fun kv => (kv.1, normalizeSeen (Value.vobj kvs :: seen) kv.2))) := by
  rw [normalizeSeen]
  simp only [h, Bool.false_eq_true, if_false]
  congr 1
  exact List.attach_map_val kvs
    (fun kv => (kv.1, normalizeSeen (Value.vobj kvs :: seen) kv.2))

/-- The per-call seen set does not change the result as long as every
    recorded object is heavier than the value being normalized (which is
    an invariant of the traversal: `seen` holds strict ancestors only). -/
theorem normalizeSeen_irrel : ∀ n : Nat, ∀ v : Value, v.weight ≤ n →
    ∀ seen : List Value, (∀ o ∈ seen, v.weight < o.weight) →
      normalizeSeen seen v = normalizeSeen [] v := by
  intro n
  induction n using Nat.strong_induction_on with
  | _ n ih =>
    intro v hw seen hseen
    match v with
    | .vnull => rw [normalizeSeen_null, normalizeSeen_null]
    | .vbool b => rw [normalizeSeen_bool, normalizeSeen_bool]
    | .vnum m => rw [normalizeSeen_num, normalizeSeen_num]
    | .vstr s =>
      rcases hlc : looksLikeJsonContainer s with _ | _
      · rw [normalizeSeen_str_of_not_container seen hlc,
          normalizeSeen_str_of_not_container [] hlc]
      · rcases hp : tryParseJson s with _ | p
        · rw [normalizeSeen_str_of_parse_none seen hp,
            normalizeSeen_str_of_parse_none [] hp]
        · rcases hc : (p.truthy && (isArrayValue p || isPlainObjectValue p)) with _ | _
          · rw [normalizeSeen_str_of_not_cont seen hlc hp hc,
              normalizeSeen_str_of_not_cont [] hlc hp hc]
          · rw [normalizeSeen_str_rehydrate seen hlc hp hc,
              normalizeSeen_str_rehydrate [] hlc hp hc]
            have hpw : p.weight ≤ s.length := tryParseJson_weight hp
            have hvw : (Value.vstr s).weight = s.length + 1 := rfl
            exact ih (s.length) (by omega) p (by omega) seen
              (fun o ho => by have := hseen o ho; omega)
    | .varr xs =>
      rw [normalizeSeen_arr, normalizeSeen_arr]
      congr 1
      apply List.map_congr_left
      intro x hx
      have hxw : x.weight ≤ weightValueList xs := le_weightValueList hx
      have hvw : (Value.varr xs).weight = 1 + weightValueList xs := rfl
      exact ih (n - 1) (by omega) x (by omega) seen
        (fun o ho => by have := hseen o ho; omega)
    | .vobj kvs =>
      have hcon : seen.contains (Value.vobj kvs) = false :=
        contains_eq_false_of_weight hseen
      have hcon0 : ([] : List Value).contains (Value.vobj kvs) = false := rfl
      rw [normalizeSeen_obj seen hcon, normalizeSeen_obj [] hcon0]
      congr 1
      apply List.map_congr_left
      intro kv hkv
      have hkw : kv.2.weight ≤ weightValueFields kvs := le_weightValueFields hkv
      have hvw : (Value.vobj kvs).weight = 1 + weightValueFields kvs := rfl
      have hL : normalizeSeen (Value.vobj kvs :: seen) kv.2 = normalizeSeen [] kv.2 :=
        ih (n - 1) (by omega) kv.2 (by omega) _ (by
          intro o ho
          rcases List.mem_cons.mp ho with rfl | hos
          · omega
          · have := hseen o hos
            omega)
      have hR : normalizeSeen [Value.vobj kvs] kv.2 = normalizeSeen [] kv.2 :=
        ih (n - 1) (by omega) kv.2 (by omega) _ (by
          intro o ho
          rcases List.mem_cons.mp ho with rfl | hos
          · omega
          · cases hos)
      rw [hL, hR]

/-- Derived equation: normalizing an object maps `normalizeDataForRendering`
    over its values. -/
theorem normalize_obj (kvs : List (String × Value)) :
    normalizeDataForRendering (.vobj kvs) =
      .vobj (kvs.map (fun kv => (kv.1, normalizeDataForRendering kv.2))) := by
  unfold normalizeDataForRendering
  rw [normalizeSeen_obj [] rfl]
  congr 1
  apply List.map_congr_left
  intro kv hkv
  have hkw : kv.2.weight ≤ weightValueFields kvs := le_weightValueFields hkv
  have hvw : (Value.vobj kvs).weight = 1 + weightValueFields kvs := rfl
  have hirr : normalizeSeen [Value.vobj kvs] kv.2 = normalizeSeen [] kv.2 :=
    normalizeSeen_irrel kv.2.weight kv.2 (le_refl _) [Value.vobj kvs] (by
      intro o ho
      rcases List.mem_cons.mp ho with rfl | hos
      · omega
      · cases hos)
  rw [hirr]

theorem normalize_arr (xs : List Value) :
    normalizeDataForRendering (.varr xs) = .varr (xs.map normalizeDataForRendering) := by
  unfold normalizeDataForRendering
  exact normalizeSeen_arr [] xs

theorem normalize_prim_bool (b : Bool) :
    normalizeDataForRendering (.vbool b) = .vbool b := normalizeSeen_bool [] b

theorem normalize_idem_aux : ∀ n : Nat, ∀ v : Value, v.weight ≤ n →
    normalizeDataForRendering (normalizeDataForRendering v) = normalizeDataForRendering v := by
  intro n
  induction n using Nat.strong_induction_on with
  | _ n ih =>
    intro v hw
    match v with
    | .vnull =>
      unfold normalizeDataForRendering
      rw [normalizeSeen_null, normalizeSeen_null]
    | .vbool b =>
      unfold normalizeDataForRendering
      rw [normalizeSeen_bool, normalizeSeen_bool]
    | .vnum m =>
      unfold normalizeDataForRendering
      rw [normalizeSeen_num, normalizeSeen_num]
    | .vstr s =>
      rcases hlc : looksLikeJsonContainer s with _ | _
      · unfold normalizeDataForRendering
        rw [normalizeSeen_str_of_not_container [] hlc,
          normalizeSeen_str_of_not_container [] hlc]
      · rcases hp : tryParseJson s with _ | p
        · unfold normalizeDataForRendering
          rw [normalizeSeen_str_of_parse_none [] hp, normalizeSeen_str_of_parse_none [] hp]
        · rcases hc : (p.truthy && (isArrayValue p || isPlainObjectValue p)) with _ | _
          · unfold normalizeDataForRendering
            rw [normalizeSeen_str_of_not_cont [] hlc hp hc,
              normalizeSeen_str_of_not_cont [] hlc hp hc]
          · have hre : normalizeDataForRendering (.vstr s) = normalizeDataForRendering p := by
              unfold normalizeDataForRendering
              exact normalizeSeen_str_rehydrate [] hlc hp hc
            rw [hre]
            have hpw : p.weight ≤ s.length := tryParseJson_weight hp
            have hvw : (Value.vstr s).weight = s.length + 1 := rfl
            exact ih s.length (by omega) p (by omega)
    | .varr xs =>
      rw [normalize_arr, normalize_arr, List.map_map]
      congr 1
      apply List.map_congr_left
      intro x hx
      have hxw : x.weight ≤ weightValueList xs := le_weightValueList hx
      have hvw : (Value.varr xs).weight = 1 + weightValueList xs := rfl
      exact ih (n - 1) (by omega) x (by omega)
    | .vobj kvs =>
      rw [normalize_obj, normalize_obj, List.map_map]
      congr 1
      apply List.map_congr_left
      intro kv hkv
      have hkw : kv.2.weight ≤ weightValueFields kvs := le_weightValueFields hkv
      have hvw : (Value.vobj kvs).weight = 1 + weightValueFields kvs := rfl
      have hvv := ih (n - 1) (by omega) kv.2 (by omega)
      simp only [Function.comp_apply]
      rw [hvv]

/-- C5: normalization is idempotent, and an object already present in the
    per-call seen set is returned unmodified rather than re-descended. -/
theorem C5_normalize_idempotent :
    (∀ x : Value,
      normalizeDataForRendering (normalizeDataForRendering x) = normalizeDataForRendering x) ∧
    (∀ (seen : List Value) (kvs : List (String × Value)),
      seen.contains (Value.vobj kvs) = true →
        normalizeSeen seen (Value.vobj kvs) = Value.vobj kvs) := by
  constructor
  · intro x
    exact normalize_idem_aux x.weight x (le_refl _)
  · intro seen kvs h
    exact normalizeSeen_obj_seen seen h

/-- C5 witness: idempotence at a concrete rehydrating input, and the
    seen-set short-circuit at a concretely populated seen set. -/
theorem C5_witness :
    normalizeDataForRendering (normalizeDataForRendering (.vstr "[1]")) =
      normalizeDataForRendering (.vstr "[1]") ∧
    normalizeSeen [Value.vobj [("a", Value.vnum 1)]] (Value.vobj [("a", Value.vnum 1)]) =
      Value.vobj [("a", Value.vnum 1)] :=
  ⟨C5_normalize_idempotent.1 _,
   C5_normalize_idempotent.2 _ _ (by decide)⟩

/-! ## Round trip between stringify and parse -/

/-- Reference (non-accumulator) form of the decimal digits of a natural
    number, used to reason about `natToChars`. -/
def natToCharsRec (n : Nat) : List Char :=
  if h : n < 10 then [Char.ofNat ('0'.toNat + n)]
  else natToCharsRec (n / 10) ++ [Char.ofNat ('0'.toNat + n % 10)]
decreasing_by
  exact Nat.div_lt_self (by omega) (by omega)

/-- The character after a serialized number must not extend the numeral:
    not a digit and not a fraction or exponent mark. -/
def numSafe : List Char → Bool
  | [] => true
  | c :: _ => !(c.isDigit || c = '.' || c = 'e' || c = 'E')

theorem charToNat_ofNat {n : Nat} (h : n.isValidChar) : (Char.ofNat n).toNat = n := by
  unfold Char.ofNat
  simp only [h, dite_true, dif_pos]
  rfl

theorem isValidChar_of_lt_128 {n : Nat} (h : n < 128) : n.isValidChar :=
  Or.inl (by omega)

theorem digitChar_toNat {d : Nat} (h : d < 10) :
    (Char.ofNat ('0'.toNat + d)).toNat = '0'.toNat + d := by
  have h0 : ('0' : Char).toNat = 48 := rfl
  exact charToNat_ofNat (isValidChar_of_lt_128 (by omega))

theorem digitChar_toNat48 {d : Nat} (h : d < 10) :
    (Char.ofNat (48 + d)).toNat = 48 + d :=
  charToNat_ofNat (isValidChar_of_lt_128 (by omega))

theorem char_isDigit_iff (c : Char) : c.isDigit = true ↔ 48 ≤ c.toNat ∧ c.toNat ≤ 57 := by
  simp only [Char.isDigit, Bool.and_eq_true, decide_eq_true_eq]
  constructor
  · intro ⟨h1, h2⟩
    exact ⟨h1, h2⟩
  · intro ⟨h1, h2⟩
    exact ⟨h1, h2⟩

theorem digitChar_isDigit {d : Nat} (h : d < 10) :
    (Char.ofNat ('0'.toNat + d)).isDigit = true := by
  rw [char_isDigit_iff, digitChar_toNat h]
  have h0 : ('0' : Char).toNat = 48 := rfl
  omega

theorem natToCharsGo_spec : ∀ n fuel acc, n < fuel →
    natToCharsGo fuel n acc = natToCharsRec n ++ acc := by
  intro n
  induction n using Nat.strong_induction_on with
  | _ n ih =>
    intro fuel acc hfuel
    match fuel with
    | f + 1 =>
      rw [natToCharsGo]
      by_cases h10 : n < 10
      · have hz : n / 10 = 0 := Nat.div_eq_of_lt h10
        simp only [hz, if_true, if_pos rfl]
        rw [natToCharsRec]
        simp [h10, Nat.mod_eq_of_lt h10]
      · have hz : n / 10 ≠ 0 := by
          intro hcon
          have hmod := Nat.div_add_mod n 10
          have hml : n % 10 < 10 := Nat.mod_lt _ (by omega)
          omega
        simp only [hz, if_neg hz]
        have hlt : n / 10 < n := Nat.div_lt_self (by omega) (by omega)
        rw [ih (n / 10) hlt f (Char.ofNat ('0'.toNat + n % 10) :: acc) (by omega)]
        conv_rhs => rw [natToCharsRec]
        simp [h10]

theorem natToChars_eq_rec (n : Nat) : natToChars n = natToCharsRec n := by
  unfold natToChars
  rw [natToCharsGo_spec n (n + 1) [] (by omega)]
  simp

theorem natToCharsRec_all_digits : ∀ n, ∀ c ∈ natToCharsRec n, c.isDigit = true := by
  intro n
  induction n using Nat.strong_induction_on with
  | _ n ih =>
    intro c hc
    rw [natToCharsRec] at hc
    by_cases h10 : n < 10
    · simp only [h10, dite_true, dif_pos, List.mem_singleton] at hc
      subst hc
      exact digitChar_isDigit h10
    · simp only [h10, dite_false, dif_neg, List.mem_append, List.mem_singleton] at hc
      rcases hc with hc | hc
      · exact ih (n / 10) (Nat.div_lt_self (by omega) (by omega)) c hc
      · subst hc
        exact digitChar_isDigit (Nat.mod_lt _ (by omega))

theorem digitsToNat_append_one (xs : List Char) (c : Char) :
    digitsToNat (xs ++ [c]) = digitsToNat xs * 10 + (c.toNat - '0'.toNat) := by
  unfold digitsToNat
  rw [List.foldl_append]
  rfl

theorem natToCharsRec_roundtrip : ∀ n, digitsToNat (natToCharsRec n) = n := by
  intro n
  induction n using Nat.strong_induction_on with
  | _ n ih =>
    rw [natToCharsRec]
    by_cases h10 : n < 10
    · simp only [h10, dite_true, dif_pos]
      unfold digitsToNat
      simp only [List.foldl_cons, List.foldl_nil, Nat.zero_mul, Nat.zero_add]
      rw [show ('0'.toNat + n) = 48 + n from rfl, digitChar_toNat48 h10]
      have h0 : ('0' : Char).toNat = 48 := rfl
      omega
    · simp only [h10, dite_false, dif_neg]
      rw [digitsToNat_append_one,
        ih (n / 10) (Nat.div_lt_self (by omega) (by omega)),
        digitChar_toNat (Nat.mod_lt _ (by omega))]
      omega

theorem natToCharsRec_ne_nil (n : Nat) : natToCharsRec n ≠ [] := by
  rw [natToCharsRec]
  by_cases h10 : n < 10 <;> simp [h10]

theorem natToCharsRec_head_zero : ∀ n, ∀ ds,
    natToCharsRec n = '0' :: ds → n < 10 := by
  intro n
  induction n using Nat.strong_induction_on with
  | _ n ih =>
    intro ds h
    by_contra h10
    rw [natToCharsRec] at h
    simp only [h10, dite_false, dif_neg] at h
    rcases hrec : natToCharsRec (n / 10) with _ | ⟨d, ds2⟩
    · exact natToCharsRec_ne_nil _ hrec
    · rw [hrec] at h
      simp only [List.cons_append, List.cons.injEq] at h
      have hd := ih (n / 10) (Nat.div_lt_self (by omega) (by omega)) ds2 (by rw [hrec, h.1])
      have hz : n / 10 < 10 := hd
      rw [natToCharsRec] at hrec
      simp only [hz, dite_true, dif_pos] at hrec
      obtain ⟨hc, _⟩ := List.cons.injEq .. ▸ hrec
      have h0 : ('0' : Char).toNat = 48 := rfl
      have htc := congrArg Char.toNat hc
      rw [digitChar_toNat hz] at htc
      have hdn : d.toNat = 48 := by
        rw [h.1]
        rfl
      have hmod := Nat.div_add_mod n 10
      have hml : n % 10 < 10 := Nat.mod_lt _ (by omega)
      omega

theorem char_le_iff_toNat (a c : Char) : (a ≤ c) ↔ a.toNat ≤ c.toNat := by
  rw [Char.le_def]
  exact ge_iff_le

theorem takeWhile_append_digits : ∀ {ds rest : List Char},
    (∀ c ∈ ds, c.isDigit = true) → numSafe rest = true →
    (ds ++ rest).takeWhile Char.isDigit = ds ∧
      (ds ++ rest).dropWhile Char.isDigit = rest := by
  intro ds
  induction ds with
  | nil =>
    intro rest _ hrest
    match rest with
    | [] => exact ⟨rfl, rfl⟩
    | c :: cs =>
      unfold numSafe at hrest
      simp only [Bool.not_eq_true', Bool.or_eq_false_iff, decide_eq_false_iff_not] at hrest
      simp [List.takeWhile_cons, List.dropWhile_cons, hrest.1.1]
  | cons d ds ih =>
    intro rest hds hrest
    have hd : d.isDigit = true := hds d (List.mem_cons_self d ds)
    have hrec := ih (fun c hc => hds c (List.mem_cons_of_mem d hc)) hrest
    simp [List.takeWhile_cons, List.dropWhile_cons, hd, hrec.1, hrec.2]

theorem digitChar_eq_zero_iff {m : Nat} (h : m < 10)
    (heq : Char.ofNat ('0'.toNat + m) = '0') : m = 0 := by
  have := congrArg Char.toNat heq
  rw [digitChar_toNat h] at this
  have h0 : ('0' : Char).toNat = 48 := rfl
  omega

theorem parseNumDigits_roundtrip (m : Nat) (rest : List Char)
    (hrest : numSafe rest = true) :
    parseNumDigits (natToChars m ++ rest) = some (m, rest) := by
  rw [natToChars_eq_rec]
  obtain ⟨htk, hdw⟩ := takeWhile_append_digits (natToCharsRec_all_digits m) hrest
  unfold parseNumDigits
  simp only [htk, hdw]
  split
  · rename_i hemp
    exact absurd (List.isEmpty_iff.mp hemp) (natToCharsRec_ne_nil m)
  · split
    · rename_i hlz
      simp only [Bool.and_eq_true, decide_eq_true_eq] at hlz
      obtain ⟨hlen, hhead⟩ := hlz
      rcases hrc : natToCharsRec m with _ | ⟨d, ds⟩
      · exact absurd hrc (natToCharsRec_ne_nil m)
      · rw [hrc] at hhead
        simp only [List.head?_cons, Option.some.injEq] at hhead
        subst hhead
        have hm10 : m < 10 := natToCharsRec_head_zero m ds hrc
        have hsingle : natToCharsRec m = [Char.ofNat ('0'.toNat + m)] := by
          rw [natToCharsRec]
          simp [hm10]
        rw [hsingle] at hlen
        simp at hlen
    · split
      · rename_i hd tl
        split
        · rename_i hdot
          exfalso
          unfold numSafe at hrest
          simp only [Bool.not_eq_true', Bool.or_eq_false_iff,
            decide_eq_false_iff_not] at hrest
          simp only [Bool.or_eq_true, decide_eq_true_eq] at hdot
          tauto
        · rw [natToCharsRec_roundtrip]
      · rw [natToCharsRec_roundtrip]

theorem hexDigitChar_toNat {d : Nat} (h : d < 16) :
    (hexDigitChar d).toNat = if d < 10 then 48 + d else 87 + d := by
  unfold hexDigitChar
  by_cases h10 : d < 10
  · rw [if_pos h10, if_pos h10]
    exact charToNat_ofNat (isValidChar_of_lt_128 (by
      have h0 : ('0' : Char).toNat = 48 := rfl
      omega))
  · rw [if_neg h10, if_neg h10]
    have ha : ('a' : Char).toNat = 97 := rfl
    rw [show 'a'.toNat + (d - 10) = 87 + d by omega]
    exact charToNat_ofNat (isValidChar_of_lt_128 (by omega))

theorem isHexDigitChar_hexDigitChar {d : Nat} (h : d < 16) :
    isHexDigitChar (hexDigitChar d) = true := by
  unfold isHexDigitChar
  have ht := hexDigitChar_toNat h
  by_cases h10 : d < 10
  · rw [if_pos h10] at ht
    have : (hexDigitChar d).isDigit = true := by
      rw [char_isDigit_iff, ht]
      omega
    simp [this]
  · rw [if_neg h10] at ht
    have hle : 'a' ≤ hexDigitChar d := by
      rw [char_le_iff_toNat, ht]
      have ha : ('a' : Char).toNat = 97 := rfl
      omega
    have hge : hexDigitChar d ≤ 'f' := by
      rw [char_le_iff_toNat, ht]
      have hf : ('f' : Char).toNat = 102 := rfl
      omega
    simp [hle, hge]

theorem hexVal_hexDigitChar {d : Nat} (h : d < 16) :
    hexVal (hexDigitChar d) = d := by
  unfold hexVal
  have ht := hexDigitChar_toNat h
  by_cases h10 : d < 10
  · rw [if_pos h10] at ht
    have hdig : (hexDigitChar d).isDigit = true := by
      rw [char_isDigit_iff, ht]
      omega
    rw [if_pos hdig, ht]
    have h0 : ('0' : Char).toNat = 48 := rfl
    omega
  · rw [if_neg h10] at ht
    have hdig : (hexDigitChar d).isDigit = false := by
      rw [Bool.eq_false_iff]
      intro hc
      rw [char_isDigit_iff, ht] at hc
      omega
    rw [if_neg (by simp [hdig])]
    have hle : 'a' ≤ hexDigitChar d := by
      rw [char_le_iff_toNat, ht]
      have ha : ('a' : Char).toNat = 97 := rfl
      omega
    have hge : hexDigitChar d ≤ 'f' := by
      rw [char_le_iff_toNat, ht]
      have hf : ('f' : Char).toNat = 102 := rfl
      omega
    rw [if_pos (by simp [hle, hge]), ht]
    have ha : ('a' : Char).toNat = 97 := rfl
    omega

theorem parseStrBody_roundtrip : ∀ (s rest : List Char),
    parseStrBody (escapeJsonString s ++ '"' :: rest) = some (s, rest) := by
  intro s
  induction s with
  | nil =>
    intro rest
    simp [escapeJsonString, parseStrBody]
  | cons c cs ih =>
    intro rest
    show parseStrBody ((escapeJsonChar c ++ escapeJsonString cs) ++ '"' :: rest) =
      some (c :: cs, rest)
    rw [List.append_assoc]
    unfold escapeJsonChar
    by_cases h1 : c = '"'
    · subst h1
      rw [if_pos rfl]
      rw [parseStrBody.eq_def]
      simp [ih rest]
    · rw [if_neg h1]
      by_cases h2 : c = '\\'
      · subst h2
        rw [if_pos rfl]
        rw [parseStrBody.eq_def]
        simp [ih rest]
      · rw [if_neg h2]
        by_cases h3 : c = '\n'
        · subst h3
          rw [if_pos rfl]
          rw [parseStrBody.eq_def]
          simp [ih rest]
        · rw [if_neg h3]
          by_cases h4 : c = '\r'
          · subst h4
            rw [if_pos rfl]
            rw [parseStrBody.eq_def]
            simp [ih rest]
          · rw [if_neg h4]
            by_cases h5 : c = '\t'
            · subst h5
              rw [if_pos rfl]
              rw [parseStrBody.eq_def]
              simp [ih rest]
            · rw [if_neg h5]
              by_cases h6 : c = '\x08'
              · subst h6
                rw [if_pos rfl]
                rw [parseStrBody.eq_def]
                simp [ih rest]
              · rw [if_neg h6]
                by_cases h7 : c = '\x0c'
                · subst h7
                  rw [if_pos rfl]
                  rw [parseStrBody.eq_def]
                  simp [ih rest]
                · rw [if_neg h7]
                  by_cases h8 : c.toNat < 0x20
                  · rw [if_pos h8]
                    have hhi : c.toNat / 16 < 16 := by omega
                    have hlo : c.toNat % 16 < 16 := Nat.mod_lt _ (by omega)
                    have hx1 : isHexDigitChar (hexDigitChar (c.toNat / 16)) = true :=
                      isHexDigitChar_hexDigitChar hhi
                    have hx2 : isHexDigitChar (hexDigitChar (c.toNat % 16)) = true :=
                      isHexDigitChar_hexDigitChar hlo
                    have h0x : isHexDigitChar '0' = true := by decide
                    have hchar : Char.ofNat (hexVal '0' * 4096 + hexVal '0' * 256 +
                        hexVal (hexDigitChar (c.toNat / 16)) * 16 +
                        hexVal (hexDigitChar (c.toNat % 16))) = c := by
                      rw [hexVal_hexDigitChar hhi, hexVal_hexDigitChar hlo]
                      rw [show hexVal '0' = 0 from rfl]
                      rw [show 0 * 4096 + 0 * 256 + c.toNat / 16 * 16 + c.toNat % 16
                          = c.toNat by
                        have := Nat.div_add_mod c.toNat 16
                        omega]
                      exact Char.ofNat_toNat c
                    simp only [List.cons_append, List.nil_append]
                    rw [parseStrBody.eq_def]
                    simp [h0x, hx1, hx2, ih rest, hchar]
                  · rw [if_neg h8]
                    simp only [List.cons_append, List.nil_append]
                    rw [parseStrBody.eq_def]
                    split
                    · rename_i hnil
                      cases hnil
                    · rename_i heq
                      obtain ⟨hc, _⟩ := List.cons.injEq .. ▸ heq
                      exact absurd hc h1
                    · rename_i e r heq
                      obtain ⟨hc, _⟩ := List.cons.injEq .. ▸ heq
                      exact absurd hc h2
                    · rename_i c2 r2 hne1 hne2 heq
                      obtain ⟨hc, hr⟩ := List.cons.injEq .. ▸ heq
                      subst hc
                      rw [← hr, if_neg (by omega), ih rest]
                      rfl

theorem escapeJsonChar_length_pos (c : Char) : 1 ≤ (escapeJsonChar c).length := by
  unfold escapeJsonChar
  repeat' split
  all_goals simp

theorem escapeJsonString_length_ge : ∀ cs : List Char,
    cs.length ≤ (escapeJsonString cs).length := by
  intro cs
  induction cs with
  | nil => simp [escapeJsonString]
  | cons c rest ih =>
    unfold escapeJsonString
    rw [List.length_append, List.length_cons]
    have := escapeJsonChar_length_pos c
    omega

theorem intToChars_ne_nil (i : Int) : intToChars i ≠ [] := by
  unfold intToChars
  split
  · simp
  · rw [natToChars_eq_rec]
    exact natToCharsRec_ne_nil _

mutual
theorem weight_le_stringify : (v : Value) → v.weight ≤ (jsonStringifyChars v).length
  | .vnull => by simp [jsonStringifyChars, Value.weight]
  | .vbool b => by cases b <;> simp [jsonStringifyChars, Value.weight]
  | .vnum m => by
    have h := intToChars_ne_nil m
    have : 1 ≤ (intToChars m).length := by
      rcases hl : intToChars m with _ | ⟨c, l⟩
      · exact absurd hl h
      · simp
    simpa [jsonStringifyChars, Value.weight] using this
  | .vstr s => by
    have h := escapeJsonString_length_ge s.data
    have hlen : s.length = s.data.length := rfl
    simp only [jsonStringifyChars, quoteJsonString, Value.weight, List.length_cons,
      List.length_append, List.length_singleton]
    omega
  | .varr xs => by
    have h := weightList_le_stringifyElems xs
    simp only [jsonStringifyChars, Value.weight, List.length_cons, List.length_append,
      List.length_singleton]
    omega
  | .vobj kvs => by
    have h := weightFields_le_stringifyFields kvs
    simp only [jsonStringifyChars, Value.weight, List.length_cons, List.length_append,
      List.length_singleton]
    omega

theorem weightList_le_stringifyElems : (xs : List Value) →
    weightValueList xs ≤ (jsonStringifyElems xs).length + 1
  | [] => by simp [weightValueList, jsonStringifyElems]
  | [x] => by
    have h := weight_le_stringify x
    simp only [weightValueList, jsonStringifyElems]
    omega
  | x :: y :: rest => by
    have h1 := weight_le_stringify x
    have h2 := weightList_le_stringifyElems (y :: rest)
    simp only [weightValueList] at h2
    simp only [weightValueList, jsonStringifyElems, List.length_append, List.length_cons]
    omega

theorem weightFields_le_stringifyFields : (kvs : List (String × Value)) →
    weightValueFields kvs ≤ (jsonStringifyFields kvs).length + 1
  | [] => by simp [weightValueFields, jsonStringifyFields]
  | [(k, v)] => by
    have h := weight_le_stringify v
    have hq := escapeJsonString_length_ge k.data
    have hlen : k.length = k.data.length := rfl
    simp only [weightValueFields, jsonStringifyFields, quoteJsonString,
      List.length_append, List.length_cons, List.length_singleton]
    omega
  | (k, v) :: kv2 :: rest => by
    have h := weight_le_stringify v
    have hq := escapeJsonString_length_ge k.data
    have h2 := weightFields_le_stringifyFields (kv2 :: rest)
    rcases kv2 with ⟨k2, v2⟩
    simp only [weightValueFields] at h2
    have hlen : k.length = k.data.length := rfl
    simp only [weightValueFields, jsonStringifyFields, quoteJsonString,
      List.length_append, List.length_cons, List.length_singleton]
    omega
end

theorem isJsonWs_false_of_digit {c : Char} (h : c.isDigit = true) :
    isJsonWs c = false := by
  obtain ⟨h1, h2⟩ := (char_isDigit_iff c).mp h
  unfold isJsonWs
  simp only [Bool.or_eq_false_iff, decide_eq_false_iff_not]
  refine ⟨⟨⟨?_, ?_⟩, ?_⟩, ?_⟩ <;> intro hcc <;> subst hcc <;> simp_all

theorem skipJsonWs_cons_of_not_ws {c : Char} (l : List Char) (h : isJsonWs c = false) :
    skipJsonWs (c :: l) = c :: l := by
  unfold skipJsonWs
  rw [List.dropWhile_cons]
  simp [h]

theorem Value.weight_pos (v : Value) : 1 ≤ v.weight := by
  match v with
  | .vnull | .vbool _ | .vnum _ => exact le_refl 1
  | .vstr s => simp [Value.weight]
  | .varr xs => simp [Value.weight]
  | .vobj kvs => simp [Value.weight]

/-- The first character of a serialized value: never whitespace and never
    a closing delimiter. -/
theorem stringify_head_spec (v : Value) : ∃ c l, jsonStringifyChars v = c :: l ∧
    isJsonWs c = false ∧ ¬c = ']' ∧ ¬c = '}' := by
  match v with
  | .vnull => exact ⟨'n', _, rfl, by decide, by decide, by decide⟩
  | .vbool true => exact ⟨'t', _, rfl, by decide, by decide, by decide⟩
  | .vbool false => exact ⟨'f', _, rfl, by decide, by decide, by decide⟩
  | .vstr s => exact ⟨'"', _, rfl, by decide, by decide, by decide⟩
  | .varr xs => exact ⟨'[', _, rfl, by decide, by decide, by decide⟩
  | .vobj kvs => exact ⟨'{', _, rfl, by decide, by decide, by decide⟩
  | .vnum m =>
    rw [show jsonStringifyChars (Value.vnum m) = intToChars m from rfl]
    unfold intToChars
    by_cases hneg : m < 0
    · rw [if_pos hneg]
      exact ⟨'-', _, rfl, by decide, by decide, by decide⟩
    · rw [if_neg hneg, natToChars_eq_rec]
      rcases hrc : natToCharsRec m.toNat with _ | ⟨d, ds⟩
      · exact absurd hrc (natToCharsRec_ne_nil _)
      · have hd : d.isDigit = true := by
          apply natToCharsRec_all_digits m.toNat
          rw [hrc]
          exact List.mem_cons_self d ds
        obtain ⟨hd1, hd2⟩ := (char_isDigit_iff d).mp hd
        refine ⟨d, ds, rfl, isJsonWs_false_of_digit hd, ?_, ?_⟩
        · intro hc
          subst hc
          simp_all
        · intro hc
          subst hc
          simp_all

theorem parseVal_succ (f : Nat) (cs : List Char) :
    parseVal (f + 1) cs =
      match skipJsonWs cs with
      | '{' :: rest => parseObjRest f rest
      | '[' :: rest => parseArrRest f rest
      | '"' :: rest => (parseStrBody rest).map (fun p => (Value.vstr ⟨p.1⟩, p.2))
      | 't' :: 'r' :: 'u' :: 'e' :: rest => some (.vbool true, rest)
      | 'f' :: 'a' :: 'l' :: 's' :: 'e' :: rest => some (.vbool false, rest)
      | 'n' :: 'u' :: 'l' :: 'l' :: rest => some (.vnull, rest)
      | '-' :: rest => (parseNumDigits rest).map (fun p => (Value.vnum (-(p.1 : Int)), p.2))
      | c :: rest =>
        if c.isDigit then
          (parseNumDigits (c :: rest)).map (fun p => (Value.vnum (p.1 : Int), p.2))
        else none
      | [] => none := rfl

theorem parseObjRest_succ (f : Nat) (cs : List Char) :
    parseObjRest (f + 1) cs =
      match skipJsonWs cs with
      | '}' :: rest => some (.vobj [], rest)
      | _ => (parseMembers f cs).map (fun p => (Value.vobj p.1, p.2)) := rfl

theorem parseArrRest_succ (f : Nat) (cs : List Char) :
    parseArrRest (f + 1) cs =
      match skipJsonWs cs with
      | ']' :: rest => some (.varr [], rest)
      | _ => (parseElems f cs).map (fun p => (Value.varr p.1, p.2)) := rfl

theorem parseMembers_succ (f : Nat) (cs : List Char) :
    parseMembers (f + 1) cs =
      match skipJsonWs cs with
      | '"' :: rest =>
        match parseStrBody rest with
        | none => none
        | some (key, rest2) =>
          match skipJsonWs rest2 with
          | ':' :: rest3 =>
            match parseVal f rest3 with
            | none => none
            | some (v, rest4) =>
              match skipJsonWs rest4 with
              | ',' :: rest5 =>
                (parseMembers f rest5).map (fun p => ((⟨key⟩, v) :: p.1, p.2))
              | '}' :: rest5 => some ([(⟨key⟩, v)], rest5)
              | _ => none
          | _ => none
      | _ => none := rfl

theorem parseElems_succ (f : Nat) (cs : List Char) :
    parseElems (f + 1) cs =
      match parseVal f cs with
      | none => none
      | some (v, rest) =>
        match skipJsonWs rest with
        | ',' :: rest2 => (parseElems f rest2).map (fun p => (v :: p.1, p.2))
        | ']' :: rest2 => some ([v], rest2)
        | _ => none := rfl

theorem parseRoundtripAll : ∀ n : Nat,
    (∀ v : Value, v.weight ≤ n → ∀ fuel : Nat, 3 * v.weight + 3 ≤ fuel →
      ∀ rest : List Char, numSafe rest = true →
      parseVal fuel (jsonStringifyChars v ++ rest) = some (v, rest)) ∧
    (∀ xs : List Value, xs ≠ [] → weightValueList xs ≤ n →
      ∀ fuel : Nat, 3 * weightValueList xs + 4 ≤ fuel →
      ∀ rest : List Char, numSafe rest = true →
      parseElems fuel (jsonStringifyElems xs ++ ']' :: rest) = some (xs, rest)) ∧
    (∀ kvs : List (String × Value), kvs ≠ [] → weightValueFields kvs ≤ n →
      ∀ fuel : Nat, 3 * weightValueFields kvs + 4 ≤ fuel →
      ∀ rest : List Char, numSafe rest = true →
      parseMembers fuel (jsonStringifyFields kvs ++ '}' :: rest) = some (kvs, rest)) := by
  intro n
  induction n using Nat.strong_induction_on with
  | _ n ih =>
    have hV : ∀ v : Value, v.weight ≤ n → ∀ fuel : Nat, 3 * v.weight + 3 ≤ fuel →
        ∀ rest : List Char, numSafe rest = true →
        parseVal fuel (jsonStringifyChars v ++ rest) = some (v, rest) := by
      intro v hw fuel hfuel rest hrest
      match fuel, v with
      | 0, v =>
        exfalso
        omega
      | f + 1, .vnull =>
        rw [show jsonStringifyChars Value.vnull = ['n', 'u', 'l', 'l'] from rfl]
        rw [parseVal_succ]
        rw [show skipJsonWs (['n', 'u', 'l', 'l'] ++ rest) = 'n' :: 'u' :: 'l' :: 'l' :: rest
          from skipJsonWs_cons_of_not_ws _ (by decide)]
        rfl
      | f + 1, .vbool true =>
        rw [show jsonStringifyChars (Value.vbool true) = ['t', 'r', 'u', 'e'] from rfl]
        rw [parseVal_succ]
        rw [show skipJsonWs (['t', 'r', 'u', 'e'] ++ rest) = 't' :: 'r' :: 'u' :: 'e' :: rest
          from skipJsonWs_cons_of_not_ws _ (by decide)]
        rfl
      | f + 1, .vbool false =>
        rw [show jsonStringifyChars (Value.vbool false) = ['f', 'a', 'l', 's', 'e'] from rfl]
        rw [parseVal_succ]
        rw [show skipJsonWs (['f', 'a', 'l', 's', 'e'] ++ rest) =
            'f' :: 'a' :: 'l' :: 's' :: 'e' :: rest
          from skipJsonWs_cons_of_not_ws _ (by decide)]
        rfl
      | f + 1, .vstr s =>
        rw [show jsonStringifyChars (Value.vstr s) = '"' :: (escapeJsonString s.data ++ ['"'])
          from rfl]
        rw [parseVal_succ]
        rw [show skipJsonWs (('"' :: (escapeJsonString s.data ++ ['"'])) ++ rest) =
            '"' :: ((escapeJsonString s.data ++ ['"']) ++ rest)
          from skipJsonWs_cons_of_not_ws _ (by decide)]
        simp only [List.append_assoc, List.singleton_append]
        rw [parseStrBody_roundtrip s.data rest]
        rfl
      | f + 1, .vnum m =>
        rw [show jsonStringifyChars (Value.vnum m) = intToChars m from rfl]
        unfold intToChars
        by_cases hneg : m < 0
        · rw [if_pos hneg]
          rw [parseVal_succ]
          rw [show skipJsonWs (('-' :: natToChars (-m).toNat) ++ rest) =
              '-' :: (natToChars (-m).toNat ++ rest)
            from skipJsonWs_cons_of_not_ws _ (by decide)]
          simp only
          rw [parseNumDigits_roundtrip _ rest hrest]
          have h2 : (-((((-m).toNat : Nat)) : Int)) = m := by
            rw [Int.toNat_of_nonneg (by omega : (0 : Int) ≤ -m)]
            omega
          simp only [Option.map_some']
          rw [h2]
        · rw [if_neg hneg]
          rw [natToChars_eq_rec]
          rcases hrc : natToCharsRec m.toNat with _ | ⟨d, ds⟩
          · exact absurd hrc (natToCharsRec_ne_nil _)
          · have hd : d.isDigit = true := by
              apply natToCharsRec_all_digits m.toNat
              rw [hrc]
              exact List.mem_cons_self d ds
            rw [parseVal_succ]
            rw [show skipJsonWs ((d :: ds) ++ rest) = d :: (ds ++ rest)
              from skipJsonWs_cons_of_not_ws _ (isJsonWs_false_of_digit hd)]
            have hnum : parseNumDigits (d :: (ds ++ rest)) = some (m.toNat, rest) := by
              have := parseNumDigits_roundtrip m.toNat rest hrest
              rw [natToChars_eq_rec, hrc] at this
              simpa using this
            have hgoal : (parseNumDigits (d :: (ds ++ rest))).map
                (fun p => (Value.vnum (p.1 : Int), p.2)) = some (Value.vnum m, rest) := by
              rw [hnum]
              have h2 : ((m.toNat : Nat) : Int) = m := Int.toNat_of_nonneg (by omega)
              simp [h2]
            have hdlt : 48 ≤ d.toNat ∧ d.toNat ≤ 57 := (char_isDigit_iff d).mp hd
            split
            · rename_i heq
              obtain ⟨hc, _⟩ := List.cons.injEq .. ▸ heq
              subst hc
              simp at hdlt
            · rename_i heq
              obtain ⟨hc, _⟩ := List.cons.injEq .. ▸ heq
              subst hc
              simp at hdlt
            · rename_i heq
              obtain ⟨hc, _⟩ := List.cons.injEq .. ▸ heq
              subst hc
              simp at hdlt
            · rename_i heq
              obtain ⟨hc, _⟩ := List.cons.injEq .. ▸ heq
              subst hc
              simp at hdlt
            · rename_i heq
              obtain ⟨hc, _⟩ := List.cons.injEq .. ▸ heq
              subst hc
              simp at hdlt
            · rename_i heq
              obtain ⟨hc, _⟩ := List.cons.injEq .. ▸ heq
              subst hc
              simp at hdlt
            · rename_i heq
              obtain ⟨hc, _⟩ := List.cons.injEq .. ▸ heq
              subst hc
              simp at hdlt
            · rename_i c2 r2 heq
              obtain ⟨hc, hr⟩ := List.cons.injEq .. ▸ heq
              subst hc
              rw [if_pos hd, ← hr]
              exact hgoal
            · rename_i heq
              cases heq
      | f + 1, .varr xs =>
        have hwx : (Value.varr xs).weight = 1 + weightValueList xs := rfl
        rw [show jsonStringifyChars (Value.varr xs) =
            '[' :: (jsonStringifyElems xs ++ [']']) from rfl]
        rw [parseVal_succ]
        rw [show skipJsonWs (('[' :: (jsonStringifyElems xs ++ [']'])) ++ rest) =
            '[' :: ((jsonStringifyElems xs ++ [']']) ++ rest)
          from skipJsonWs_cons_of_not_ws _ (by decide)]
        simp only [List.append_assoc, List.singleton_append]
        match f, xs with
        | 0, xs =>
          exfalso
          omega
        | f2 + 1, [] =>
          rw [parseArrRest_succ]
          rw [show skipJsonWs (jsonStringifyElems [] ++ ']' :: rest) = ']' :: rest
            from skipJsonWs_cons_of_not_ws _ (by decide)]
          rfl
        | f2 + 1, x :: xs2 =>
          have hwl : weightValueList (x :: xs2) = x.weight + weightValueList xs2 := rfl
          have hxp := Value.weight_pos x
          have hel := (ih (n - 1) (by omega)).2.1 (x :: xs2) (by simp)
            (by omega) f2 (by omega) rest hrest
          obtain ⟨c0, l0, hsx, hws, hnb, _⟩ := stringify_head_spec x
          have hcs : jsonStringifyElems (x :: xs2) ++ ']' :: rest =
              c0 :: (l0 ++ ((match xs2 with
                | [] => ([] : List Char)
                | _ :: _ => ',' :: jsonStringifyElems xs2) ++ ']' :: rest)) := by
            match xs2 with
            | [] =>
              simp [jsonStringifyElems, hsx]
            | y :: r =>
              simp [jsonStringifyElems, hsx]
          rw [parseArrRest_succ]
          rw [hcs, skipJsonWs_cons_of_not_ws _ hws]
          split
          · rename_i heq
            obtain ⟨hc, _⟩ := List.cons.injEq .. ▸ heq
            exact absurd hc hnb
          · rw [← hcs, hel]
            rfl
      | f + 1, .vobj kvs =>
        have hwx : (Value.vobj kvs).weight = 1 + weightValueFields kvs := rfl
        rw [show jsonStringifyChars (Value.vobj kvs) =
            '{' :: (jsonStringifyFields kvs ++ ['}']) from rfl]
        rw [parseVal_succ]
        rw [show skipJsonWs (('{' :: (jsonStringifyFields kvs ++ ['}'])) ++ rest) =
            '{' :: ((jsonStringifyFields kvs ++ ['}']) ++ rest)
          from skipJsonWs_cons_of_not_ws _ (by decide)]
        simp only [List.append_assoc, List.singleton_append]
        match f, kvs with
        | 0, kvs =>
          exfalso
          omega
        | f2 + 1, [] =>
          rw [parseObjRest_succ]
          rw [show skipJsonWs (jsonStringifyFields [] ++ '}' :: rest) = '}' :: rest
            from skipJsonWs_cons_of_not_ws _ (by decide)]
          rfl
        | f2 + 1, kv :: kvs2 =>
          have hwl : weightValueFields (kv :: kvs2) =
              kv.1.length + 1 + kv.2.weight + weightValueFields kvs2 := by
            rcases kv with ⟨k, v2⟩
            rfl
          have hxp := Value.weight_pos kv.2
          have hmem := (ih (n - 1) (by omega)).2.2 (kv :: kvs2) (by simp)
            (by omega) f2 (by omega) rest hrest
          have hcs : jsonStringifyFields (kv :: kvs2) ++ '}' :: rest =
              '"' :: ((escapeJsonString kv.1.data ++
                ('"' :: ':' :: (jsonStringifyChars kv.2 ++
                  ((match kvs2 with
                    | [] => ([] : List Char)
                    | _ :: _ => ',' :: jsonStringifyFields kvs2) ++ '}' :: rest))))) := by
            rcases kv with ⟨k, v2⟩
            match kvs2 with
            | [] =>
              simp [jsonStringifyFields, quoteJsonString]
            | kv2 :: r =>
              simp [jsonStringifyFields, quoteJsonString]
          rw [parseObjRest_succ]
          rw [hcs, skipJsonWs_cons_of_not_ws _ (by decide)]
          split
          · rename_i heq
            cases List.cons.injEq .. ▸ heq |>.1
          · rw [← hcs, hmem]
            rfl
    refine ⟨hV, ?_, ?_⟩
    · intro xs hne hwl fuel hfuel rest hrest
      match fuel, xs with
      | 0, xs =>
        exfalso
        omega
      | f + 1, [] => exact absurd rfl hne
      | f + 1, [x] =>
        have hw1 : weightValueList [x] = x.weight + 0 := rfl
        rw [show jsonStringifyElems [x] = jsonStringifyChars x from rfl]
        rw [parseElems_succ]
        rw [hV x (by omega) f (by omega) (']' :: rest) rfl]
        simp only [skipJsonWs_cons_of_not_ws rest (show isJsonWs ']' = false by decide)]
      | f + 1, x :: y :: r =>
        have hw1 : weightValueList (x :: y :: r) =
            x.weight + (y.weight + weightValueList r) := rfl
        have hxp := Value.weight_pos x
        have hyp := Value.weight_pos y
        have hyw : weightValueList (y :: r) = y.weight + weightValueList r := rfl
        have hrec := (ih (n - 1) (by omega)).2.1 (y :: r) (by simp)
          (by omega) f (by omega) rest hrest
        rw [show jsonStringifyElems (x :: y :: r) =
            jsonStringifyChars x ++ ',' :: jsonStringifyElems (y :: r) from rfl]
        rw [parseElems_succ]
        simp only [List.append_assoc, List.cons_append]
        rw [hV x (by omega) f (by omega)
          (',' :: (jsonStringifyElems (y :: r) ++ ']' :: rest)) rfl]
        simp only [skipJsonWs_cons_of_not_ws (jsonStringifyElems (y :: r) ++ ']' :: rest)
          (show isJsonWs ',' = false by decide), hrec, Option.map_some']
    · intro kvs hne hwl fuel hfuel rest hrest
      match fuel, kvs with
      | 0, kvs =>
        exfalso
        omega
      | f + 1, [] => exact absurd rfl hne
      | f + 1, (k, v) :: kvs2 =>
        have hw1 : weightValueFields ((k, v) :: kvs2) =
            k.length + 1 + v.weight + weightValueFields kvs2 := rfl
        have hvp := Value.weight_pos v
        have hcs : jsonStringifyFields ((k, v) :: kvs2) ++ '}' :: rest =
            '"' :: (escapeJsonString k.data ++
              ('"' :: (':' :: (jsonStringifyChars v ++
                ((match kvs2 with
                  | [] => ([] : List Char)
                  | _ :: _ => ',' :: jsonStringifyFields kvs2) ++ '}' :: rest))))) := by
          match kvs2 with
          | [] =>
            simp [jsonStringifyFields, quoteJsonString]
          | kv2 :: r =>
            simp [jsonStringifyFields, quoteJsonString]
        rw [parseMembers_succ, hcs]
        rw [skipJsonWs_cons_of_not_ws _ (show isJsonWs '"' = false by decide)]
        have hsb := parseStrBody_roundtrip k.data
          (':' :: (jsonStringifyChars v ++
            ((match kvs2 with
              | [] => ([] : List Char)
              | _ :: _ => ',' :: jsonStringifyFields kvs2) ++ '}' :: rest)))
        match kvs2 with
        | [] =>
          simp only at hsb ⊢
          rw [hsb]
          simp only [skipJsonWs_cons_of_not_ws
            (jsonStringifyChars v ++ ([] ++ '}' :: rest))
            (show isJsonWs ':' = false by decide)]
          simp only [List.nil_append]
          rw [hV v (by omega) f (by omega) ('}' :: rest) rfl]
          simp only [skipJsonWs_cons_of_not_ws rest (show isJsonWs '}' = false by decide)]
        | kv2 :: r =>
          have hrec := (ih (n - 1) (by omega)).2.2 (kv2 :: r) (by simp)
            (by
              rcases kv2 with ⟨k2, v2⟩
              have hw2 : weightValueFields ((k2, v2) :: r) =
                  k2.length + 1 + v2.weight + weightValueFields r := rfl
              omega)
            f (by omega) rest hrest
          simp only at hsb ⊢
          rw [hsb]
          simp only [skipJsonWs_cons_of_not_ws
            (jsonStringifyChars v ++ ((',' :: jsonStringifyFields (kv2 :: r)) ++ '}' :: rest))
            (show isJsonWs ':' = false by decide)]
          rw [show jsonStringifyChars v ++ ((',' :: jsonStringifyFields (kv2 :: r)) ++ '}' :: rest)
              = jsonStringifyChars v ++ (',' :: (jsonStringifyFields (kv2 :: r) ++ '}' :: rest))
            from by simp]
          rw [hV v (by omega) f (by omega)
            (',' :: (jsonStringifyFields (kv2 :: r) ++ '}' :: rest)) rfl]
          simp only [skipJsonWs_cons_of_not_ws
            (jsonStringifyFields (kv2 :: r) ++ '}' :: rest)
            (show isJsonWs ',' = false by decide), hrec, Option.map_some']

theorem jsonParse_stringify (v : Value) : jsonParse (jsonStringify v) = some v := by
  unfold jsonParse
  have hw := weight_le_stringify v
  have h := (parseRoundtripAll v.weight).1 v (le_refl _)
    (3 * (jsonStringifyChars v).length + 3) (by omega) [] rfl
  rw [List.append_nil] at h
  rw [show (jsonStringify v).data = jsonStringifyChars v from rfl]
  rw [h]
  rfl

theorem tryParseJson_stringify (v : Value) : tryParseJson (jsonStringify v) = some v :=
  jsonParse_stringify v

theorem jsTrim_id_of_ends {c d : Char} (l : List Char)
    (hc : isJsTrimWs c = false) (hd : isJsTrimWs d = false) :
    jsTrimChars (c :: (l ++ [d])) = c :: (l ++ [d]) := by
  unfold jsTrimChars
  have h1 : (c :: (l ++ [d])).dropWhile isJsTrimWs = c :: (l ++ [d]) := by
    rw [List.dropWhile_cons]; simp [hc]
  rw [h1]
  have h2 : (c :: (l ++ [d])).reverse = d :: (l.reverse ++ [c]) := by
    simp
  rw [h2, List.dropWhile_cons]
  simp [hd]

theorem looksLike_stringify_container (v : Value)
    (h : (isArrayValue v || isPlainObjectValue v) = true) :
    looksLikeJsonContainer (jsonStringify v) = true := by
  cases v with
  | varr xs =>
    have hg : ('[' :: (jsonStringifyElems xs ++ [']'])).getLast? = some ']' := by
      rw [show ('[' :: (jsonStringifyElems xs ++ [']'])) =
          ('[' :: jsonStringifyElems xs) ++ [']'] from by simp]
      exact List.getLast?_concat _
    unfold looksLikeJsonContainer
    rw [show (jsonStringify (Value.varr xs)).data =
        '[' :: (jsonStringifyElems xs ++ [']']) from rfl]
    rw [jsTrim_id_of_ends _ (by decide) (by decide)]
    simp [hg]
  | vobj kvs =>
    have hg : ('{' :: (jsonStringifyFields kvs ++ ['}'])).getLast? = some '}' := by
      rw [show ('{' :: (jsonStringifyFields kvs ++ ['}'])) =
          ('{' :: jsonStringifyFields kvs) ++ ['}'] from by simp]
      exact List.getLast?_concat _
    unfold looksLikeJsonContainer
    rw [show (jsonStringify (Value.vobj kvs)).data =
        '{' :: (jsonStringifyFields kvs ++ ['}']) from rfl]
    rw [jsTrim_id_of_ends _ (by decide) (by decide)]
    simp [hg]
  | vnull => exact Bool.noConfusion h
  | vbool b => exact Bool.noConfusion h
  | vnum n => exact Bool.noConfusion h
  | vstr s => exact Bool.noConfusion h

/-- C6: normalization round trip.  For every object or array value `v`,
    normalizing the string `JSON.stringify(v)` yields the same result as
    normalizing `v` itself: the serialized form is detected by
    `looksLikeJsonContainer` as a bracket-delimited JSON container, parsed
    back by `tryParseJson`, and recursively normalized. -/
theorem C6_roundtrip (v : Value)
    (h : (isArrayValue v || isPlainObjectValue v) = true) :
    normalizeDataForRendering (Value.vstr (jsonStringify v)) =
      normalizeDataForRendering v := by
  have hcond : (v.truthy && (isArrayValue v || isPlainObjectValue v)) = true := by
    cases v with
    | varr xs => rfl
    | vobj kvs => rfl
    | vnull => exact Bool.noConfusion h
    | vbool b => exact Bool.noConfusion h
    | vnum n => exact Bool.noConfusion h
    | vstr s => exact Bool.noConfusion h
  unfold normalizeDataForRendering
  exact normalizeSeen_str_rehydrate [] (looksLike_stringify_container v h)
    (tryParseJson_stringify v) hcond

theorem C6_witness :
    ((isArrayValue (Value.vobj [("a", Value.vnum 1)]) ||
      isPlainObjectValue (Value.vobj [("a", Value.vnum 1)])) = true) ∧
    normalizeDataForRendering
        (Value.vstr (jsonStringify (Value.vobj [("a", Value.vnum 1)]))) =
      normalizeDataForRendering (Value.vobj [("a", Value.vnum 1)]) :=
  ⟨rfl, C6_roundtrip (Value.vobj [("a", Value.vnum 1)]) rfl⟩

/-! ## HTML rendering (`renderBlocksFromTemplateConfig` and its helpers) -/

/-- Model of `Array.prototype.join('')` on strings. -/
def joinStrings : List String → String
  | [] => ""
  | s :: rest => s ++ joinStrings rest

/-- Model of `Array.prototype.join(sep)` on strings. -/
def joinSep (sep : String) : List String → String
  | [] => ""
  | [s] => s
  | s :: t :: rest => s ++ sep ++ joinSep sep (t :: rest)

mutual
/-- JS `String(v)` on a `Value`: `String(null) = "null"`, numbers print in
    decimal, arrays print as `Array.prototype.toString` (elements joined
    with `','`, `null` elements contributing nothing), plain objects print
    as `"[object Object]"`. -/
def jsToStringChars : Value → List Char
  | .vnull => "null".data
  | .vbool true => "true".data
  | .vbool false => "false".data
  | .vnum n => intToChars n
  | .vstr s => s.data
  | .varr xs => jsArrToStringChars xs
  | .vobj _ => "[object Object]".data

/-- The comma join of `Array.prototype.toString`. -/
def jsArrToStringChars : List Value → List Char
  | [] => []
  | [x] =>
    match x with
    | .vnull => []
    | x => jsToStringChars x
  | x :: y :: rest =>
    (match x with
      | .vnull => []
      | x => jsToStringChars x) ++ ',' :: jsArrToStringChars (y :: rest)
end

/-- Model of `Array.prototype.join(sep)` on values: elements go through
    `String`, except `null` elements which contribute the empty string. -/
def jsJoinValsChars (sep : List Char) : List Value → List Char
  | [] => []
  | [x] =>
    match x with
    | .vnull => []
    | x => jsToStringChars x
  | x :: y :: rest =>
    (match x with
      | .vnull => []
      | x => jsToStringChars x) ++ sep ++ jsJoinValsChars sep (y :: rest)

/-- One global regex replace for a single-character pattern, as in
    `s.replace(/X/g, r)`. -/
def replaceAllChar (t : Char) (r : List Char) (cs : List Char) : List Char :=
  cs.flatMap (fun c => if c = t then r else [c])

/-- The five sequential replacements of `escapeHtml`, in source order. -/
def escapeHtmlChars (cs : List Char) : List Char :=
  replaceAllChar '\'' "&#39;".data
    (replaceAllChar '"' "&quot;".data
      (replaceAllChar '>' "&gt;".data
        (replaceAllChar '<' "&lt;".data
          (replaceAllChar '&' "&amp;".data cs))))

/-- `escapeHtml(v: unknown)`: `null` and `undefined` become `''`, any other
    value is stringified with `String`, then the five replacements apply. -/
def escapeHtml (v : Option Value) : String :=
  ⟨escapeHtmlChars (match v with
    | none => []
    | some .vnull => []
    | some w => jsToStringChars w)⟩

/-- A `CSSPrimitive` under `String(v)`. -/
def cssPrimChars : CSSPrim → List Char
  | .s v => v.data
  | .n v => intToChars v

/-- The kebab-casing `k.replace(/[A-Z]/g, m => '-' + m.toLowerCase())`. -/
def cssKeyChars (cs : List Char) : List Char :=
  cs.flatMap (fun c => if 'A' ≤ c && c ≤ 'Z' then ['-', c.toLower] else [c])

/-- `cssToString`: a missing style renders as `''`; entries with `''`
    values are dropped, keys are kebab-cased, pairs join with `';'`. -/
def cssToString (style : Option CSSStyle) : String :=
  match style with
  | none => ""
  | some st =>
    joinSep ";" ((st.filter (fun kv => kv.2 ≠ CSSPrim.s "")).map
      (fun kv => ⟨cssKeyChars kv.1.data ++ ':' :: cssPrimChars kv.2⟩))

/-- A canonical JS array index: nonempty, all digits, and no leading zero
    unless it is `"0"` itself. -/
def isCanonicalIndex (s : String) : Bool :=
  !s.isEmpty && s.data.all Char.isDigit && (s = "0" || s.data.head? != some '0')

/-- The property access `acc[key]` of the path walk: object field lookup,
    canonical index access on arrays and strings (a string index yields a
    one-character string), `undefined` otherwise.  Prototype properties
    such as `length` lie outside the value model. -/
def jsGetProp (v : Value) (key : String) : Option Value :=
  match v with
  | .vobj kvs => kvs.lookup key
  | .varr xs => if isCanonicalIndex key then xs[digitsToNat key.data]? else none
  | .vstr s =>
    if isCanonicalIndex key then
      (s.data[digitsToNat key.data]?).map (fun c => Value.vstr ⟨[c]⟩)
    else none
  | _ => none

/-- The splitter `s.split(sep)` for a one-character separator, with the
    segment accumulated so far. -/
def splitOnCharGo (sep : Char) (acc : List Char) : List Char → List String
  | [] => [⟨acc.reverse⟩]
  | c :: cs =>
    if c = sep then ⟨acc.reverse⟩ :: splitOnCharGo sep [] cs
    else splitOnCharGo sep (c :: acc) cs

/-- `s.split(sep)` for a one-character separator (the renderer only splits
    on `'.'`). -/
def splitOnChar (sep : Char) (s : String) : List String :=
  splitOnCharGo sep [] s.data

/-- `getValueAtPath`: a falsy path (absent or `''`) yields `''`; otherwise
    the path splits on `'.'` and property access folds over the segments,
    `null`/`undefined` short-circuiting to `undefined`. -/
def getValueAtPath (obj : Value) (path : Option String) : Option Value :=
  match path with
  | none => some (.vstr "")
  | some p =>
    if p = "" then some (.vstr "")
    else
      (splitOnChar '.' p).foldl
        (fun acc key =>
          match acc with
          | none => none
          | some .vnull => none
          | some v => jsGetProp v key)
        (some obj)

/-- `valueToDisplay`: `null`/`undefined` display as `''`, arrays as their
    elements (objects JSON-stringified, anything else `String`-ified)
    joined with `', '`, objects as their JSON text, primitives via
    `String`. -/
def valueToDisplay (v : Option Value) : String :=
  match v with
  | none => ""
  | some .vnull => ""
  | some (.varr xs) =>
    joinSep ", " (xs.map (fun x =>
      match x with
      | .varr _ => jsonStringify x
      | .vobj _ => jsonStringify x
      | _ => ⟨jsToStringChars x⟩))
  | some (.vobj kvs) => jsonStringify (.vobj kvs)
  | some w => ⟨jsToStringChars w⟩

/-- The character class `[\w.]` of the mustache pattern. -/
def isMustachePathChar (c : Char) : Bool :=
  isWordChar c || c = '.'

/-- One attempt of the pattern `\x7b\x7b\s*([\w.]+)\s*\x7d\x7d` anchored at
    the start of `cs`: on success, the captured path and the text after
    the match.  The character classes are disjoint and none contains the
    closing brace, so the greedy scan needs no backtracking. -/
def mustacheMatchAt (cs : List Char) : Option (String × List Char) :=
  match cs with
  | '{' :: '{' :: r =>
    let r1 := r.dropWhile isJsTrimWs
    let p1 := r1.takeWhile isMustachePathChar
    let r2 := (r1.dropWhile isMustachePathChar).dropWhile isJsTrimWs
    if p1.isEmpty then none
    else
      match r2 with
      | '}' :: '}' :: r3 => some (⟨p1⟩, r3)
      | _ => none
  | _ => none

/-- The replacement callback of `replaceMustache`: arrays join with
    `', '`, truthy objects JSON-stringify, anything else goes through
    `escapeHtml` directly. -/
def mustacheRepl (data : Value) (p1 : String) : List Char :=
  match getValueAtPath data (some p1) with
  | some (.varr xs) => (escapeHtml (some (.vstr ⟨jsJoinValsChars ", ".data xs⟩))).data
  | some (.vobj kvs) => (escapeHtml (some (.vstr (jsonStringify (.vobj kvs))))).data
  | w => (escapeHtml w).data

/-- The global-replace scan of `replaceMustache`: the leftmost match is
    replaced and scanning resumes after it; otherwise one character is
    emitted.  Each step consumes at least one character, so fuel
    `length + 1` always suffices (`replaceMustacheGo_irrel` below). -/
def replaceMustacheGo (data : Value) : Nat → List Char → List Char
  | 0, cs => cs
  | _ + 1, [] => []
  | fuel + 1, c :: cs =>
    match mustacheMatchAt (c :: cs) with
    | some (p1, rest) => mustacheRepl data p1 ++ replaceMustacheGo data fuel rest
    | none => c :: replaceMustacheGo data fuel cs

/-- `replaceMustache`. -/
def replaceMustache (text : String) (data : Value) : String :=
  ⟨replaceMustacheGo data (text.data.length + 1) text.data⟩

/-- JS `a || b` on optional style objects (a present object is truthy). -/
def orStyle (a b : Option CSSStyle) : Option CSSStyle :=
  match a with
  | some x => some x
  | none => b

/-- The record `resolveStyles` returns: canonical keys with the aliases
    folded in, plus the per-level heading styles. -/
structure ResolvedStyles where
  document : Option CSSStyle
  heading : Option CSSStyle
  paragraph : Option CSSStyle
  line : Option CSSStyle
  list : Option CSSStyle
  listItem : Option CSSStyle
  table : Option CSSStyle
  th : Option CSSStyle
  td : Option CSSStyle
  divider : Option CSSStyle
  signature : Option CSSStyle
  kvList : Option CSSStyle
  kvRow : Option CSSStyle
  kvLabel : Option CSSStyle
  kvValue : Option CSSStyle
  h1 : Option CSSStyle
  h2 : Option CSSStyle
  h3 : Option CSSStyle
  h4 : Option CSSStyle
  h5 : Option CSSStyle
  h6 : Option CSSStyle
deriving Repr, DecidableEq

/-- The lookup `styles.h[level]`. -/
def ResolvedStyles.h (st : ResolvedStyles) (level : Int) : Option CSSStyle :=
  if level = 1 then st.h1
  else if level = 2 then st.h2
  else if level = 3 then st.h3
  else if level = 4 then st.h4
  else if level = 5 then st.h5
  else if level = 6 then st.h6
  else none

/-- `resolveStyles`. -/
def resolveStyles (styles : Option StylesRecord) : ResolvedStyles :=
  let s := styles.getD {}
  { document := orStyle s.document s.page
    heading := s.heading
    paragraph := orStyle s.paragraph s.p
    line := s.line
    list := s.list
    listItem := s.listItem
    table := s.table
    th := s.th
    td := s.td
    divider := s.divider
    signature := s.signature
    kvList := s.kvList
    kvRow := s.kvRow
    kvLabel := s.kvLabel
    kvValue := s.kvValue
    h1 := s.h1, h2 := s.h2, h3 := s.h3, h4 := s.h4, h5 := s.h5, h6 := s.h6 }

/-- The heading level `Math.min(Math.max(b.level || 2, 1), 6)`: an absent
    or zero level defaults to 2, then the value clamps into 1..6. -/
def headingLevel (level : Option Int) : Int :=
  min (max (match level with
    | none => (2 : Int)
    | some l => if l = 0 then 2 else l) 1) 6

/-- JS truthiness of an optional boolean. -/
def boolTruthy (b : Option Bool) : Bool := b.getD false

/-- The repeated attribute fragment: an empty style string contributes
    nothing, a nonempty one a full `style` attribute. -/
def styleAttr (s : String) : String :=
  if s = "" then "" else " style=\"" ++ s ++ "\""

/-- A `string | BindRef` field embedded as a runtime value, for the
    signature fallback `valueToDisplay(b.name)`. -/
def strOrBindToValue : Option StrOrBind → Option Value
  | none => none
  | some (.str s) => some (.vstr s)
  | some (.bindRef none) => some (.vobj [])
  | some (.bindRef (some none)) => some (.vobj [("bind", .vobj [])])
  | some (.bindRef (some (some p))) =>
    some (.vobj [("bind", .vobj [("path", .vstr p)])])

/-- The `itemsResolved` computation of the `list` case of the renderer:
    a bound source array renders element-wise; otherwise literal items
    render with mustache substitution or their own binding. -/
def listItemsResolved (normalizedData : Value) (b : ListBlock) : List String :=
  let source := strOr b.dataPath b.sourcePath
  if strTruthy source then
    match getValueAtPath normalizedData source with
    | some (.varr xs) =>
      xs.map (fun v => escapeHtml (some (.vstr (valueToDisplay (some v)))))
    | _ => []
  else
    match b.items with
    | some its =>
      if its.isEmpty then []
      else its.flatMap (fun it =>
        match it with
        | .inl txt => [replaceMustache txt normalizedData]
        | .inr p =>
          let pth := strOr (extractPath (some (.bindRef p.bind))) p.path
          let val := if strTruthy pth then getValueAtPath normalizedData pth
                     else some (.vstr (p.text.getD ""))
          match val with
          | some (.varr xs) =>
            xs.map (fun v => escapeHtml (some (.vstr (valueToDisplay (some v)))))
          | w => [escapeHtml (some (.vstr (valueToDisplay w)))])
    | none => []

/-- The body of the per-block `switch` of `renderBlocksFromTemplateConfig`,
    yielding the block's HTML string. -/
def renderBlock (styles : ResolvedStyles) (normalizedData : Value) :
    TemplateBlock → String
  | .heading b =>
    let level := headingLevel b.level
    let text := replaceMustache b.text normalizedData
    let s := cssToString (orStyle b.style (orStyle (styles.h level) styles.heading))
    "<h" ++ ⟨intToChars level⟩ ++ styleAttr s ++ ">" ++ text ++
      "</h" ++ ⟨intToChars level⟩ ++ ">"
  | .paragraph b =>
    let boundPath := extractPath (some (.bindRef b.bind))
    let boundVal := match boundPath with
      | some p => getValueAtPath normalizedData (some p)
      | none => none
    let textRaw := match b.text with
      | some t => replaceMustache t normalizedData
      | none => valueToDisplay boundVal
    let text := escapeHtml (some (.vstr textRaw))
    let s := cssToString (orStyle b.style styles.paragraph)
    "<p" ++ styleAttr s ++ ">" ++ text ++ "</p>"
  | .line b =>
    let text := joinSep " " (b.parts.map (fun p =>
      let pth := strOr (extractPath (some (.bindRef p.bind))) p.path
      let val := if strTruthy pth then getValueAtPath normalizedData pth
                 else some (.vstr (p.text.getD ""))
      escapeHtml (some (.vstr (valueToDisplay val)))))
    let s := cssToString (orStyle b.style styles.line)
    "<div" ++ styleAttr s ++ ">" ++ text ++ "</div>"
  | .list b =>
    let itemsResolved := listItemsResolved normalizedData b
    let s := cssToString (orStyle b.style styles.list)
    let li := joinStrings (itemsResolved.map (fun t =>
      "<li" ++ (match styles.listItem with
        | some st => " style=\"" ++ cssToString (some st) ++ "\""
        | none => "") ++ ">" ++ t ++ "</li>"))
    let tag := if boolTruthy b.ordered then "ol" else "ul"
    "<" ++ tag ++ styleAttr s ++ ">" ++ li ++ "</" ++ tag ++ ">"
  | .table b =>
    let src := strOr b.dataPath b.sourcePath
    let rowsSrc := if strTruthy src then getValueAtPath normalizedData src
                   else some (.varr [normalizedData])
    let rows : List Value := match rowsSrc with
      | some (.varr xs) => xs
      | _ => []
    let tableS := cssToString (orStyle b.style styles.table)
    let thS := cssToString (orStyle b.headerStyle styles.th)
    let tdS := cssToString (orStyle b.cellStyle styles.td)
    let head := joinStrings (b.columns.map (fun c =>
      "<th" ++ styleAttr thS ++ ">" ++ escapeHtml (some (.vstr c.header)) ++ "</th>"))
    let body := joinStrings (rows.map (fun row =>
      "<tr>" ++ joinStrings (b.columns.map (fun c =>
        "<td" ++ styleAttr tdS ++ ">" ++
          escapeHtml (some (.vstr (valueToDisplay (getValueAtPath row (some c.path))))) ++
          "</td>")) ++ "</tr>"))
    "<table" ++ styleAttr tableS ++ "><thead><tr>" ++ head ++
      "</tr></thead><tbody>" ++ body ++ "</tbody></table>"
  | .keyValueTable b =>
    let tableS := cssToString (orStyle b.style styles.table)
    let thS := cssToString styles.th
    let tdS := cssToString styles.td
    let body := joinStrings (b.rows.map (fun r =>
      let pth := strOr (extractPath (some (.bindRef r.bind))) r.path
      let v := valueToDisplay (getValueAtPath normalizedData pth)
      "<tr><th" ++ styleAttr thS ++ ">" ++ escapeHtml (some (.vstr r.label)) ++
        "</th><td" ++ styleAttr tdS ++ ">" ++ escapeHtml (some (.vstr v)) ++
        "</td></tr>"))
    "<table" ++ styleAttr tableS ++ "><tbody>" ++ body ++ "</tbody></table>"
  | .keyValueList b =>
    let listS := cssToString (orStyle b.style styles.kvList)
    let rowS := cssToString styles.kvRow
    let labelS := cssToString styles.kvLabel
    let valueS := cssToString styles.kvValue
    let rows := joinStrings (b.rows.map (fun r =>
      let pth := strOr (extractPath (some (.bindRef r.bind))) r.path
      let v := valueToDisplay (getValueAtPath normalizedData pth)
      "<div class=\"kv-row\"" ++ styleAttr rowS ++ ">" ++
        "<div class=\"kv-label\"" ++ styleAttr labelS ++ ">" ++
        escapeHtml (some (.vstr r.label)) ++ "</div>" ++
        "<div class=\"kv-value\"" ++ styleAttr valueS ++ ">" ++
        escapeHtml (some (.vstr v)) ++ "</div>" ++ "</div>"))
    "<div class=\"kv-list\"" ++ styleAttr listS ++ ">" ++ rows ++ "</div>"
  | .divider b =>
    "<hr" ++ styleAttr (cssToString (orStyle b.style styles.divider)) ++ "/>"
  | .spacer b =>
    let h := b.size.getD 12
    "<div style=\"height:" ++ ⟨intToChars h⟩ ++ "px\"></div>"
  | .signature b =>
    let namePath := extractPath b.name
    let titlePath := extractPath b.title
    let nameText := escapeHtml (some (.vstr (valueToDisplay
      (if strTruthy namePath then getValueAtPath normalizedData namePath
       else strOrBindToValue b.name))))
    let titleText := escapeHtml (some (.vstr (valueToDisplay
      (if strTruthy titlePath then getValueAtPath normalizedData titlePath
       else strOrBindToValue b.title))))
    let s := cssToString (orStyle b.style styles.signature)
    let greeting := if boolTruthy b.showRegards then "<div>Regards,</div>" else ""
    "<div" ++ styleAttr s ++ ">" ++ greeting ++
      "<div style=\"margin-top:12px;font-weight:600;\">" ++ nameText ++ "</div>" ++
      (if titleText = "" then "" else "<div>" ++ titleText ++ "</div>") ++ "</div>"

/-- `renderBlocksFromTemplateConfig`: styles resolve, the data normalizes,
    every block renders, and the parts join with newlines. -/
def renderBlocksFromTemplateConfig (config : TemplateConfig) (data : Value) : String :=
  let styles := resolveStyles config.styles
  let normalizedData := normalizeDataForRendering data
  joinSep "\n" (config.blocks.map (renderBlock styles normalizedData))

theorem replaceMustacheGo_succ (data : Value) (f : Nat) (c : Char) (cs : List Char) :
    replaceMustacheGo data (f + 1) (c :: cs) =
      match mustacheMatchAt (c :: cs) with
      | some (p1, rest) => mustacheRepl data p1 ++ replaceMustacheGo data f rest
      | none => c :: replaceMustacheGo data f cs := rfl

theorem mustacheMatchAt_consumes : ∀ {cs : List Char} {p1 : String} {rest : List Char},
    mustacheMatchAt cs = some (p1, rest) → rest.length + 5 ≤ cs.length := by
  intro cs p1 rest h
  unfold mustacheMatchAt at h
  split at h
  · rename_i r
    simp only at h
    split at h
    · cases h
    · rename_i hp1
      split at h
      · rename_i r3 heq
        obtain ⟨h1, h2⟩ := Prod.mk.injEq .. ▸ Option.some.inj h
        subst h2
        have hr1 : (r.dropWhile isJsTrimWs).length ≤ r.length :=
          length_dropWhile_le _ _
        have hsplit : (r.dropWhile isJsTrimWs).takeWhile isMustachePathChar ++
            (r.dropWhile isJsTrimWs).dropWhile isMustachePathChar =
            r.dropWhile isJsTrimWs := List.takeWhile_append_dropWhile _ _
        have hlen := congrArg List.length hsplit
        simp only [List.length_append] at hlen
        have htk : 1 ≤ ((r.dropWhile isJsTrimWs).takeWhile isMustachePathChar).length := by
          rcases hc : (r.dropWhile isJsTrimWs).takeWhile isMustachePathChar with _ | ⟨a, l⟩
          · rw [hc] at hp1; simp at hp1
          · simp
        have hr2 : (((r.dropWhile isJsTrimWs).dropWhile isMustachePathChar).dropWhile
            isJsTrimWs).length ≤
            ((r.dropWhile isJsTrimWs).dropWhile isMustachePathChar).length :=
          length_dropWhile_le _ _
        have heql := congrArg List.length heq
        simp only [List.length_cons] at heql
        simp only [List.length_cons]
        omega
      · cases h
  · cases h

theorem replaceMustacheGo_irrel (data : Value) : ∀ n : Nat, ∀ cs : List Char,
    cs.length ≤ n → ∀ f g : Nat, cs.length < f → cs.length < g →
    replaceMustacheGo data f cs = replaceMustacheGo data g cs := by
  intro n
  induction n using Nat.strong_induction_on with
  | _ n ih =>
    intro cs hn f g hf hg
    obtain ⟨f, rfl⟩ : ∃ f2, f = f2 + 1 := ⟨f - 1, by omega⟩
    obtain ⟨g, rfl⟩ : ∃ g2, g = g2 + 1 := ⟨g - 1, by omega⟩
    match cs with
    | [] => rfl
    | c :: cs =>
      rw [replaceMustacheGo_succ, replaceMustacheGo_succ]
      rcases hm : mustacheMatchAt (c :: cs) with _ | ⟨p1, rest⟩
      · dsimp only
        simp only [List.length_cons] at hn hf hg
        have := ih (n - 1) (by omega) cs (by omega) f g (by omega) (by omega)
        rw [this]
      · dsimp only
        have hc := mustacheMatchAt_consumes hm
        simp only [List.length_cons] at hn hf hg hc
        have := ih (n - 1) (by omega) rest (by omega) f g (by omega) (by omega)
        rw [this]

/-- C10: for every heading block the emitted tag level is clamped into
    1..6: the rendered HTML of a heading block is an
    `<hL ...>text</hL>` pair whose level `L = headingLevel b.level`
    satisfies `1 ≤ L ≤ 6`, equals 2 when the declared level is absent or
    zero, equals 6 when the declared level exceeds 6, and equals 1 when
    the declared level is below 1 and nonzero. -/
theorem C10_heading_level_clamp (b : HeadingBlock) (styles : ResolvedStyles)
    (data : Value) :
    (1 ≤ headingLevel b.level ∧ headingLevel b.level ≤ 6) ∧
    (b.level = none → headingLevel b.level = 2) ∧
    (b.level = some 0 → headingLevel b.level = 2) ∧
    (∀ l : Int, b.level = some l → 6 < l → headingLevel b.level = 6) ∧
    (∀ l : Int, b.level = some l → l < 1 → l ≠ 0 → headingLevel b.level = 1) ∧
    renderBlock styles data (.heading b) =
      "<h" ++ (⟨intToChars (headingLevel b.level)⟩ : String) ++
        styleAttr (cssToString (orStyle b.style
          (orStyle (styles.h (headingLevel b.level)) styles.heading))) ++ ">" ++
        replaceMustache b.text data ++
        "</h" ++ (⟨intToChars (headingLevel b.level)⟩ : String) ++ ">" := by
  refine ⟨?_, ?_, ?_, ?_, ?_, rfl⟩
  · rcases hl : b.level with _ | l
    · simp [headingLevel]
    · simp only [headingLevel]
      by_cases h0 : l = 0
    <;> simp only [h0, if_true, if_false, reduceIte]
      <;> rw [Int.min_def, Int.max_def]
      <;> split <;> split <;> omega
  · intro h
    simp [headingLevel, h]
  · intro h
    simp [headingLevel, h]
  · intro l h h6
    simp only [headingLevel, h]
    have hne : l ≠ 0 := by omega
    simp only [hne, if_false, reduceIte]
    rw [Int.min_def, Int.max_def]
    split <;> split <;> omega
  · intro l h h1 hne
    simp only [headingLevel, h]
    simp only [hne, if_false, reduceIte]
    rw [Int.min_def, Int.max_def]
    split <;> split <;> omega

/-- C8: a paragraph block bound through `bind.path` to a path that does
    not resolve in the normalized data renders as an empty `<p></p>`
    (provided no paragraph style is configured): the failed path lookup
    yields `undefined`, which displays as the empty string, and the
    rendering pipeline is total, so no exception can occur. -/
theorem C8_missing_path_paragraph (data : Value) (b : ParagraphBlock)
    (title : Option String) (p : String)
    (htext : b.text = none) (hstyle : b.style = none)
    (hpath : extractPath (some (.bindRef b.bind)) = some p)
    (hmiss : getValueAtPath (normalizeDataForRendering data) (some p) = none) :
    renderBlocksFromTemplateConfig ⟨title, none, [.paragraph b]⟩ data = "<p></p>" := by
  unfold renderBlocksFromTemplateConfig
  simp only [List.map_cons, List.map_nil]
  unfold renderBlock
  simp only [htext, hstyle, hpath, hmiss]
  rfl

theorem C8_witness :
    getValueAtPath (normalizeDataForRendering Value.vnull) (some "missing") = none ∧
    renderBlocksFromTemplateConfig
        ⟨none, none, [.paragraph ⟨some (some "missing"), none, none⟩]⟩ Value.vnull =
      "<p></p>" := by
  have hn : normalizeDataForRendering Value.vnull = Value.vnull := normalizeSeen_null []
  have hmiss : getValueAtPath (normalizeDataForRendering Value.vnull)
      (some "missing") = none := by rw [hn]; rfl
  exact ⟨hmiss, C8_missing_path_paragraph Value.vnull ⟨some (some "missing"), none, none⟩
    none "missing" rfl rfl rfl hmiss⟩

/-! ## Provenance fragments for the escaping invariant

The fragment renderer mirrors `renderBlocksFromTemplateConfig` but keeps
every emitted piece tagged: `lit` pieces are template or structural text,
`dat` pieces are exactly the strings the renderer passed through
`escapeHtml`.  Serializing the fragments recovers the rendered HTML, and
every `dat` fragment is escaped, which together give the escaping
invariant of the renderer. -/

/-- One emitted piece of HTML: `lit` is template/structural text, `dat`
    is a piece that went through `escapeHtml`. -/
inductive Frag where
  | lit (s : String)
  | dat (s : String)
deriving Repr, DecidableEq

/-- The text of a fragment. -/
def Frag.out : Frag → String
  | .lit s => s
  | .dat s => s

/-- Serialization of a fragment list. -/
def fragsOut : List Frag → String
  | [] => ""
  | f :: fs => f.out ++ fragsOut fs

theorem fragsOut_cons (f : Frag) (fs : List Frag) :
    fragsOut (f :: fs) = f.out ++ fragsOut fs := rfl

theorem fragsOut_append : ∀ (a b : List Frag),
    fragsOut (a ++ b) = fragsOut a ++ fragsOut b := by
  intro a b
  induction a with
  | nil => simp [fragsOut, String.empty_append]
  | cons f fs ih => simp [fragsOut, ih, String.append_assoc]

/-- Fragment counterpart of `joinStrings`. -/
def fragsJoin : List (List Frag) → List Frag
  | [] => []
  | x :: rest => x ++ fragsJoin rest

/-- Fragment counterpart of `joinSep`. -/
def fragsJoinSep (sep : Frag) : List (List Frag) → List Frag
  | [] => []
  | [x] => x
  | x :: y :: rest => x ++ sep :: fragsJoinSep sep (y :: rest)

theorem joinStrings_frags : ∀ L : List (List Frag),
    joinStrings (L.map fragsOut) = fragsOut (fragsJoin L) := by
  intro L
  induction L with
  | nil => rfl
  | cons x rest ih => simp [joinStrings, fragsJoin, fragsOut_append, ih]

theorem joinSep_frags (sep : String) : ∀ L : List (List Frag),
    joinSep sep (L.map fragsOut) = fragsOut (fragsJoinSep (.lit sep) L) := by
  intro L
  induction L with
  | nil => rfl
  | cons x rest ih =>
    cases rest with
    | nil => simp [joinSep, fragsJoinSep]
    | cons y rest2 =>
      simp only [List.map_cons] at ih ⊢
      simp [joinSep, fragsJoinSep, fragsOut_append, fragsOut_cons, Frag.out,
        String.append_assoc, ih]

/-- Fragment counterpart of `replaceMustacheGo`: substitutions are `dat`
    (they go through `escapeHtml`), everything else is `lit`. -/
def mustacheFragsGo (data : Value) : Nat → List Char → List Frag
  | 0, cs => [.lit ⟨cs⟩]
  | _ + 1, [] => []
  | fuel + 1, c :: cs =>
    match mustacheMatchAt (c :: cs) with
    | some (p1, rest) => .dat ⟨mustacheRepl data p1⟩ :: mustacheFragsGo data fuel rest
    | none => .lit ⟨[c]⟩ :: mustacheFragsGo data fuel cs

/-- Fragment counterpart of `replaceMustache`. -/
def replaceMustacheFrags (text : String) (data : Value) : List Frag :=
  mustacheFragsGo data (text.data.length + 1) text.data

theorem mustacheFragsGo_succ (data : Value) (f : Nat) (c : Char) (cs : List Char) :
    mustacheFragsGo data (f + 1) (c :: cs) =
      match mustacheMatchAt (c :: cs) with
      | some (p1, rest) => .dat ⟨mustacheRepl data p1⟩ :: mustacheFragsGo data f rest
      | none => .lit ⟨[c]⟩ :: mustacheFragsGo data f cs := rfl

theorem replaceMustacheGo_out (data : Value) : ∀ (fuel : Nat) (cs : List Char),
    (⟨replaceMustacheGo data fuel cs⟩ : String) = fragsOut (mustacheFragsGo data fuel cs) := by
  intro fuel
  induction fuel with
  | zero =>
    intro cs
    show (⟨cs⟩ : String) = (⟨cs⟩ : String) ++ ""
    rw [String.append_empty]
  | succ f ih =>
    intro cs
    cases cs with
    | nil => rfl
    | cons c cs =>
      rw [replaceMustacheGo_succ, mustacheFragsGo_succ]
      rcases hm : mustacheMatchAt (c :: cs) with _ | ⟨p1, rest⟩
      · dsimp only
        rw [fragsOut_cons, ← ih cs]
        rfl
      · dsimp only
        rw [fragsOut_cons, ← ih rest]
        rfl

theorem replaceMustache_out (text : String) (data : Value) :
    replaceMustache text data = fragsOut (replaceMustacheFrags text data) :=
  replaceMustacheGo_out data (text.data.length + 1) text.data

/-- The per-character effect of the five replacements of `escapeHtml`
    (the passes touch disjoint characters and never rewrite their own
    output, so they fuse into one pass). -/
def escOne (c : Char) : List Char :=
  if c = '&' then "&amp;".data
  else if c = '<' then "&lt;".data
  else if c = '>' then "&gt;".data
  else if c = '"' then "&quot;".data
  else if c = '\'' then "&#39;".data
  else [c]

theorem escapeHtmlChars_append (a b : List Char) :
    escapeHtmlChars (a ++ b) = escapeHtmlChars a ++ escapeHtmlChars b := by
  simp [escapeHtmlChars, replaceAllChar]

theorem escapeHtmlChars_eq_flatMap : ∀ cs : List Char,
    escapeHtmlChars cs = cs.flatMap escOne := by
  intro cs
  induction cs with
  | nil => rfl
  | cons c cs ih =>
    have hcons : escapeHtmlChars (c :: cs) = escapeHtmlChars [c] ++ escapeHtmlChars cs := by
      rw [show (c :: cs) = [c] ++ cs from rfl, escapeHtmlChars_append]
    rw [hcons, ih, List.flatMap_cons]
    congr 1
    by_cases h1 : c = '&'
    · subst h1; decide
    by_cases h2 : c = '<'
    · subst h2; decide
    by_cases h3 : c = '>'
    · subst h3; decide
    by_cases h4 : c = '"'
    · subst h4; decide
    by_cases h5 : c = '\''
    · subst h5; decide
    simp [escapeHtmlChars, replaceAllChar, escOne, h1, h2, h3, h4, h5]

mutual
/-- Every ampersand starts one of the five entities `escapeHtml` emits. -/
def ampEntityOK : List Char → Bool
  | [] => true
  | c :: rest => if c = '&' then ampEntityTail rest else ampEntityOK rest

/-- What may follow an ampersand: one of the five entity tails. -/
def ampEntityTail : List Char → Bool
  | 'a' :: 'm' :: 'p' :: ';' :: r2 => ampEntityOK r2
  | 'l' :: 't' :: ';' :: r2 => ampEntityOK r2
  | 'g' :: 't' :: ';' :: r2 => ampEntityOK r2
  | 'q' :: 'u' :: 'o' :: 't' :: ';' :: r2 => ampEntityOK r2
  | '#' :: '3' :: '9' :: ';' :: r2 => ampEntityOK r2
  | _ => false
end

/-- A fully escaped piece of text: no raw `<`, `>`, `"` or `'` at all, and
    every `&` begins an escape entity. -/
def htmlEscapedOK (cs : List Char) : Bool :=
  cs.all (fun c => !(c == '<') && !(c == '>') && !(c == '"') && !(c == '\'')) &&
    ampEntityOK cs

theorem escapedOK_flatMap : ∀ cs : List Char,
    htmlEscapedOK (cs.flatMap escOne) = true := by
  have hsafe : ∀ cs : List Char, (cs.flatMap escOne).all
      (fun c => !(c == '<') && !(c == '>') && !(c == '"') && !(c == '\'')) = true := by
    intro cs
    induction cs with
    | nil => rfl
    | cons c cs ih =>
      rw [List.flatMap_cons, List.all_append, ih, Bool.and_true]
      by_cases h1 : c = '&'
      · subst h1; decide
      by_cases h2 : c = '<'
      · subst h2; decide
      by_cases h3 : c = '>'
      · subst h3; decide
      by_cases h4 : c = '"'
      · subst h4; decide
      by_cases h5 : c = '\''
      · subst h5; decide
      simp [escOne, h1, h2, h3, h4, h5]
  have hamp : ∀ cs : List Char, ampEntityOK (cs.flatMap escOne) = true := by
    intro cs
    induction cs with
    | nil => rfl
    | cons c cs ih =>
      rw [List.flatMap_cons]
      by_cases h1 : c = '&'
      · subst h1
        rw [show escOne '&' ++ cs.flatMap escOne =
            '&' :: 'a' :: 'm' :: 'p' :: ';' :: cs.flatMap escOne from rfl]
        rw [show ampEntityOK ('&' :: 'a' :: 'm' :: 'p' :: ';' :: cs.flatMap escOne) =
            ampEntityOK (cs.flatMap escOne) from rfl]
        exact ih
      by_cases h2 : c = '<'
      · subst h2
        rw [show escOne '<' ++ cs.flatMap escOne =
            '&' :: 'l' :: 't' :: ';' :: cs.flatMap escOne from rfl]
        rw [show ampEntityOK ('&' :: 'l' :: 't' :: ';' :: cs.flatMap escOne) =
            ampEntityOK (cs.flatMap escOne) from rfl]
        exact ih
      by_cases h3 : c = '>'
      · subst h3
        rw [show escOne '>' ++ cs.flatMap escOne =
            '&' :: 'g' :: 't' :: ';' :: cs.flatMap escOne from rfl]
        rw [show ampEntityOK ('&' :: 'g' :: 't' :: ';' :: cs.flatMap escOne) =
            ampEntityOK (cs.flatMap escOne) from rfl]
        exact ih
      by_cases h4 : c = '"'
      · subst h4
        rw [show escOne '"' ++ cs.flatMap escOne =
            '&' :: 'q' :: 'u' :: 'o' :: 't' :: ';' :: cs.flatMap escOne from rfl]
        rw [show ampEntityOK ('&' :: 'q' :: 'u' :: 'o' :: 't' :: ';' :: cs.flatMap escOne) =
            ampEntityOK (cs.flatMap escOne) from rfl]
        exact ih
      by_cases h5 : c = '\''
      · subst h5
        rw [show escOne '\'' ++ cs.flatMap escOne =
            '&' :: '#' :: '3' :: '9' :: ';' :: cs.flatMap escOne from rfl]
        rw [show ampEntityOK ('&' :: '#' :: '3' :: '9' :: ';' :: cs.flatMap escOne) =
            ampEntityOK (cs.flatMap escOne) from rfl]
        exact ih
      have hesc : escOne c = [c] := by simp [escOne, h1, h2, h3, h4, h5]
      rw [hesc]
      show ampEntityOK (c :: cs.flatMap escOne) = true
      rw [show ampEntityOK (c :: cs.flatMap escOne) =
          if c = '&' then ampEntityTail (cs.flatMap escOne)
          else ampEntityOK (cs.flatMap escOne) from rfl, if_neg h1]
      exact ih
  intro cs
  unfold htmlEscapedOK
  rw [hsafe cs, hamp cs]
  rfl

/-- Every string `escapeHtml` produces is fully escaped. -/
theorem escapeHtml_escapedOK (v : Option Value) :
    htmlEscapedOK (escapeHtml v).data = true := by
  show htmlEscapedOK (escapeHtmlChars _) = true
  rw [escapeHtmlChars_eq_flatMap]
  exact escapedOK_flatMap _

/-- Fragment counterpart of `listItemsResolved`. -/
def listItemsFrags (normalizedData : Value) (b : ListBlock) : List (List Frag) :=
  let source := strOr b.dataPath b.sourcePath
  if strTruthy source then
    match getValueAtPath normalizedData source with
    | some (.varr xs) =>
      xs.map (fun v => [Frag.dat (escapeHtml (some (.vstr (valueToDisplay (some v)))))])
    | _ => []
  else
    match b.items with
    | some its =>
      if its.isEmpty then []
      else its.flatMap (fun it =>
        match it with
        | .inl txt => [replaceMustacheFrags txt normalizedData]
        | .inr p =>
          let pth := strOr (extractPath (some (.bindRef p.bind))) p.path
          let val := if strTruthy pth then getValueAtPath normalizedData pth
                     else some (.vstr (p.text.getD ""))
          match val with
          | some (.varr xs) =>
            xs.map (fun v =>
              [Frag.dat (escapeHtml (some (.vstr (valueToDisplay (some v)))))])
          | w => [[Frag.dat (escapeHtml (some (.vstr (valueToDisplay w))))]])
    | none => []

/-- Fragment counterpart of `renderBlock`: the same per-block structure,
    with every `escapeHtml` result tagged `dat` and all template or
    structural text tagged `lit`. -/
def renderBlockFrags (styles : ResolvedStyles) (normalizedData : Value) :
    TemplateBlock → List Frag
  | .heading b =>
    let level := headingLevel b.level
    let s := cssToString (orStyle b.style (orStyle (styles.h level) styles.heading))
    Frag.lit ("<h" ++ ⟨intToChars level⟩ ++ styleAttr s ++ ">") ::
      replaceMustacheFrags b.text normalizedData ++
      [Frag.lit ("</h" ++ ⟨intToChars level⟩ ++ ">")]
  | .paragraph b =>
    let boundPath := extractPath (some (.bindRef b.bind))
    let boundVal := match boundPath with
      | some p => getValueAtPath normalizedData (some p)
      | none => none
    let textRaw := match b.text with
      | some t => replaceMustache t normalizedData
      | none => valueToDisplay boundVal
    let s := cssToString (orStyle b.style styles.paragraph)
    [Frag.lit ("<p" ++ styleAttr s ++ ">"),
     Frag.dat (escapeHtml (some (.vstr textRaw))),
     Frag.lit "</p>"]
  | .line b =>
    let textF := fragsJoinSep (Frag.lit " ") (b.parts.map (fun p =>
      let pth := strOr (extractPath (some (.bindRef p.bind))) p.path
      let val := if strTruthy pth then getValueAtPath normalizedData pth
                 else some (.vstr (p.text.getD ""))
      [Frag.dat (escapeHtml (some (.vstr (valueToDisplay val))))]))
    let s := cssToString (orStyle b.style styles.line)
    Frag.lit ("<div" ++ styleAttr s ++ ">") :: textF ++ [Frag.lit "</div>"]
  | .list b =>
    let itemsF := listItemsFrags normalizedData b
    let s := cssToString (orStyle b.style styles.list)
    let liF := fragsJoin (itemsF.map (fun t =>
      Frag.lit ("<li" ++ (match styles.listItem with
        | some st => " style=\"" ++ cssToString (some st) ++ "\""
        | none => "") ++ ">") :: t ++ [Frag.lit "</li>"]))
    let tag := if boolTruthy b.ordered then "ol" else "ul"
    Frag.lit ("<" ++ tag ++ styleAttr s ++ ">") :: liF ++ [Frag.lit ("</" ++ tag ++ ">")]
  | .table b =>
    let src := strOr b.dataPath b.sourcePath
    let rowsSrc := if strTruthy src then getValueAtPath normalizedData src
                   else some (.varr [normalizedData])
    let rows : List Value := match rowsSrc with
      | some (.varr xs) => xs
      | _ => []
    let tableS := cssToString (orStyle b.style styles.table)
    let thS := cssToString (orStyle b.headerStyle styles.th)
    let tdS := cssToString (orStyle b.cellStyle styles.td)
    let headF := fragsJoin (b.columns.map (fun c =>
      [Frag.lit ("<th" ++ styleAttr thS ++ ">"),
       Frag.dat (escapeHtml (some (.vstr c.header))),
       Frag.lit "</th>"]))
    let bodyF := fragsJoin (rows.map (fun row =>
      Frag.lit "<tr>" :: fragsJoin (b.columns.map (fun c =>
        [Frag.lit ("<td" ++ styleAttr tdS ++ ">"),
         Frag.dat (escapeHtml (some (.vstr (valueToDisplay
           (getValueAtPath row (some c.path)))))),
         Frag.lit "</td>"])) ++ [Frag.lit "</tr>"]))
    Frag.lit ("<table" ++ styleAttr tableS ++ "><thead><tr>") :: headF ++
      [Frag.lit "</tr></thead><tbody>"] ++ bodyF ++ [Frag.lit "</tbody></table>"]
  | .keyValueTable b =>
    let tableS := cssToString (orStyle b.style styles.table)
    let thS := cssToString styles.th
    let tdS := cssToString styles.td
    let bodyF := fragsJoin (b.rows.map (fun r =>
      let pth := strOr (extractPath (some (.bindRef r.bind))) r.path
      let v := valueToDisplay (getValueAtPath normalizedData pth)
      [Frag.lit ("<tr><th" ++ styleAttr thS ++ ">"),
       Frag.dat (escapeHtml (some (.vstr r.label))),
       Frag.lit ("</th><td" ++ styleAttr tdS ++ ">"),
       Frag.dat (escapeHtml (some (.vstr v))),
       Frag.lit "</td></tr>"]))
    Frag.lit ("<table" ++ styleAttr tableS ++ "><tbody>") :: bodyF ++
      [Frag.lit "</tbody></table>"]
  | .keyValueList b =>
    let listS := cssToString (orStyle b.style styles.kvList)
    let rowS := cssToString styles.kvRow
    let labelS := cssToString styles.kvLabel
    let valueS := cssToString styles.kvValue
    let rowsF := fragsJoin (b.rows.map (fun r =>
      let pth := strOr (extractPath (some (.bindRef r.bind))) r.path
      let v := valueToDisplay (getValueAtPath normalizedData pth)
      [Frag.lit ("<div class=\"kv-row\"" ++ styleAttr rowS ++ ">" ++
         "<div class=\"kv-label\"" ++ styleAttr labelS ++ ">"),
       Frag.dat (escapeHtml (some (.vstr r.label))),
       Frag.lit ("</div>" ++ "<div class=\"kv-value\"" ++ styleAttr valueS ++ ">"),
       Frag.dat (escapeHtml (some (.vstr v))),
       Frag.lit ("</div>" ++ "</div>")]))
    Frag.lit ("<div class=\"kv-list\"" ++ styleAttr listS ++ ">") :: rowsF ++
      [Frag.lit "</div>"]
  | .divider b =>
    [Frag.lit ("<hr" ++ styleAttr (cssToString (orStyle b.style styles.divider)) ++ "/>")]
  | .spacer b =>
    let h := b.size.getD 12
    [Frag.lit ("<div style=\"height:" ++ ⟨intToChars h⟩ ++ "px\"></div>")]
  | .signature b =>
    let namePath := extractPath b.name
    let titlePath := extractPath b.title
    let nameText := escapeHtml (some (.vstr (valueToDisplay
      (if strTruthy namePath then getValueAtPath normalizedData namePath
       else strOrBindToValue b.name))))
    let titleText := escapeHtml (some (.vstr (valueToDisplay
      (if strTruthy titlePath then getValueAtPath normalizedData titlePath
       else strOrBindToValue b.title))))
    let s := cssToString (orStyle b.style styles.signature)
    let greeting := if boolTruthy b.showRegards then "<div>Regards,</div>" else ""
    Frag.lit ("<div" ++ styleAttr s ++ ">" ++ greeting ++
        "<div style=\"margin-top:12px;font-weight:600;\">") ::
      Frag.dat nameText :: Frag.lit "</div>" ::
      ((if titleText = "" then []
        else [Frag.lit "<div>", Frag.dat titleText, Frag.lit "</div>"]) ++
       [Frag.lit "</div>"])

/-- Fragment counterpart of `renderBlocksFromTemplateConfig`. -/
def renderBlocksFrags (config : TemplateConfig) (data : Value) : List Frag :=
  let styles := resolveStyles config.styles
  let normalizedData := normalizeDataForRendering data
  fragsJoinSep (.lit "\n") (config.blocks.map (renderBlockFrags styles normalizedData))

theorem map_fragsOut {α : Type} (l : List α) (f : α → String) (g : α → List Frag)
    (h : ∀ a ∈ l, f a = fragsOut (g a)) :
    l.map f = (l.map g).map fragsOut := by
  induction l with
  | nil => rfl
  | cons a l ih =>
    simp only [List.map_cons]
    rw [h a (List.mem_cons_self a l), ih (fun x hx => h x (List.mem_cons_of_mem a hx))]

theorem flatMap_fragsOut {α : Type} (l : List α) (f : α → List String)
    (g : α → List (List Frag)) (h : ∀ a ∈ l, f a = (g a).map fragsOut) :
    l.flatMap f = (l.flatMap g).map fragsOut := by
  induction l with
  | nil => rfl
  | cons a l ih =>
    simp only [List.flatMap_cons, List.map_append]
    rw [h a (List.mem_cons_self a l), ih (fun x hx => h x (List.mem_cons_of_mem a hx))]

theorem listItemsResolved_out (nd : Value) (b : ListBlock) :
    listItemsResolved nd b = (listItemsFrags nd b).map fragsOut := by
  unfold listItemsResolved listItemsFrags
  by_cases hsrc : strTruthy (strOr b.dataPath b.sourcePath) = true
  · simp only [hsrc, if_true, reduceIte]
    rcases hv : getValueAtPath nd (strOr b.dataPath b.sourcePath) with _ | v
    · rfl
    · cases v <;>
        simp [List.map_map, Function.comp_def, fragsOut, Frag.out, String.append_empty]
  · simp only [hsrc, if_false, reduceIte]
    cases hits : b.items with
    | none => rfl
    | some its =>
      by_cases hemp : its.isEmpty = true
      · simp [hemp]
      · simp only [hemp, if_false, reduceIte]
        apply flatMap_fragsOut
        intro it hit
        cases it with
        | inl txt => simp [replaceMustache_out]
        | inr p =>
          simp only
          rcases hv2 : (if strTruthy (strOr (extractPath (some (StrOrBind.bindRef p.bind)))
                p.path) = true then
              getValueAtPath nd (strOr (extractPath (some (StrOrBind.bindRef p.bind))) p.path)
            else some (Value.vstr (p.text.getD ""))) with _ | v
          · simp [hv2, fragsOut, Frag.out, String.append_empty]
          · cases v <;>
              simp [hv2, List.map_map, Function.comp_def, fragsOut, Frag.out,
                String.append_empty]

theorem renderBlock_out (styles : ResolvedStyles) (nd : Value) :
    ∀ blk : TemplateBlock,
      renderBlock styles nd blk = fragsOut (renderBlockFrags styles nd blk) := by
  intro blk
  cases blk with
  | heading b =>
    simp [renderBlock, renderBlockFrags, fragsOut_append, fragsOut, Frag.out,
      ← replaceMustache_out, String.append_assoc, String.append_empty]
  | paragraph b =>
    simp [renderBlock, renderBlockFrags, fragsOut, Frag.out,
      String.append_assoc, String.append_empty]
  | line b =>
    simp [renderBlock, renderBlockFrags, ← joinSep_frags, List.map_map,
      Function.comp_def, fragsOut_append, fragsOut, Frag.out,
      String.append_assoc, String.append_empty]
  | list b =>
    simp [renderBlock, renderBlockFrags, listItemsResolved_out, ← joinStrings_frags,
      List.map_map, Function.comp_def, fragsOut_append, fragsOut, Frag.out,
      String.append_assoc, String.append_empty]
  | table b =>
    simp [renderBlock, renderBlockFrags, ← joinStrings_frags, List.map_map,
      Function.comp_def, fragsOut_append, fragsOut, Frag.out,
      String.append_assoc, String.append_empty]
  | keyValueTable b =>
    simp [renderBlock, renderBlockFrags, ← joinStrings_frags, List.map_map,
      Function.comp_def, fragsOut_append, fragsOut, Frag.out,
      String.append_assoc, String.append_empty]
  | keyValueList b =>
    simp [renderBlock, renderBlockFrags, ← joinStrings_frags, List.map_map,
      Function.comp_def, fragsOut_append, fragsOut, Frag.out,
      String.append_assoc, String.append_empty]
  | divider b =>
    simp [renderBlock, renderBlockFrags, fragsOut, Frag.out, String.append_empty]
  | spacer b =>
    simp [renderBlock, renderBlockFrags, fragsOut, Frag.out, String.append_empty]
  | signature b =>
    simp only [renderBlock, renderBlockFrags]
    by_cases ht : escapeHtml (some (Value.vstr (valueToDisplay
        (if strTruthy (extractPath b.title) = true then
          getValueAtPath nd (extractPath b.title)
         else strOrBindToValue b.title)))) = "" <;>
      simp [ht, fragsOut_append, fragsOut, Frag.out,
        String.append_assoc, String.append_empty]

/-- A fragment is data-escaped: `lit` pieces vacuously (they are template
    or structural text, not data), `dat` pieces are fully escaped text. -/
def Frag.escd : Frag → Bool
  | .lit _ => true
  | .dat s => htmlEscapedOK s.data

theorem all_fragsJoin (p : Frag → Bool) : ∀ L : List (List Frag),
    (fragsJoin L).all p = L.all (fun x => x.all p) := by
  intro L
  induction L with
  | nil => rfl
  | cons x rest ih => simp [fragsJoin, List.all_append, ih]

theorem all_fragsJoinSep (p : Frag → Bool) (sep : Frag) (hsep : p sep = true) :
    ∀ L : List (List Frag),
    (fragsJoinSep sep L).all p = L.all (fun x => x.all p) := by
  intro L
  induction L with
  | nil => rfl
  | cons x rest ih =>
    cases rest with
    | nil => simp [fragsJoinSep]
    | cons y r2 =>
      simp only [fragsJoinSep, List.all_append, List.all_cons, hsep, Bool.true_and]
      rw [ih]
      simp [List.all_cons]

theorem mustacheRepl_escapedOK (data : Value) (p1 : String) :
    htmlEscapedOK (mustacheRepl data p1) = true := by
  unfold mustacheRepl
  split
  · exact escapeHtml_escapedOK _
  · exact escapeHtml_escapedOK _
  · exact escapeHtml_escapedOK _

theorem escd_mustacheFragsGo (data : Value) : ∀ (fuel : Nat) (cs : List Char),
    (mustacheFragsGo data fuel cs).all Frag.escd = true := by
  intro fuel
  induction fuel with
  | zero => intro cs; rfl
  | succ f ih =>
    intro cs
    cases cs with
    | nil => rfl
    | cons c cs =>
      rw [mustacheFragsGo_succ]
      rcases hm : mustacheMatchAt (c :: cs) with _ | ⟨p1, rest⟩
      · dsimp only
        simp [List.all_cons, Frag.escd, ih]
      · dsimp only
        simp [List.all_cons, Frag.escd, ih, mustacheRepl_escapedOK]

theorem escd_replaceMustacheFrags (text : String) (data : Value) :
    (replaceMustacheFrags text data).all Frag.escd = true :=
  escd_mustacheFragsGo data (text.data.length + 1) text.data

theorem escd_listItemsFrags (nd : Value) (b : ListBlock) :
    (listItemsFrags nd b).all (fun x => x.all Frag.escd) = true := by
  unfold listItemsFrags
  by_cases hsrc : strTruthy (strOr b.dataPath b.sourcePath) = true
  · rw [if_pos hsrc]
    rcases hv : getValueAtPath nd (strOr b.dataPath b.sourcePath) with _ | v
    · rfl
    · cases v <;>
        simp [List.all_map, Function.comp_def, List.all_cons, Frag.escd,
          escapeHtml_escapedOK]
  · rw [if_neg hsrc]
    cases b.items with
    | none => rfl
    | some its =>
      dsimp only
      by_cases hemp : its.isEmpty = true
      · simp [hemp]
      · rw [if_neg hemp]
        simp only [List.all_eq_true]
        intro x hx
        rw [List.mem_flatMap] at hx
        obtain ⟨it, hit, hx⟩ := hx
        cases it with
        | inl txt =>
          simp only [List.mem_singleton] at hx
          subst hx
          exact List.all_eq_true.mp (escd_replaceMustacheFrags txt nd)
        | inr p =>
          simp only at hx
          rcases hv2 : (if strTruthy (strOr (extractPath (some (StrOrBind.bindRef p.bind)))
                p.path) = true then
              getValueAtPath nd (strOr (extractPath (some (StrOrBind.bindRef p.bind))) p.path)
            else some (Value.vstr (p.text.getD ""))) with _ | v
          · rw [hv2] at hx
            simp only [List.mem_singleton] at hx
            subst hx
            simp [List.all_cons, Frag.escd, escapeHtml_escapedOK]
          · rw [hv2] at hx
            cases v <;>
              first
              | (simp only [List.mem_singleton] at hx
                 subst hx
                 simp [List.all_cons, Frag.escd, escapeHtml_escapedOK])
              | (rw [List.mem_map] at hx
                 obtain ⟨w, hw, rfl⟩ := hx
                 simp [List.all_cons, Frag.escd, escapeHtml_escapedOK])

theorem mem_fragsJoin {f : Frag} : ∀ {L : List (List Frag)},
    f ∈ fragsJoin L → ∃ x ∈ L, f ∈ x := by
  intro L h
  induction L with
  | nil => cases h
  | cons x rest ih =>
    simp only [fragsJoin] at h
    rcases List.mem_append.mp h with h1 | h2
    · exact ⟨x, List.mem_cons_self x rest, h1⟩
    · obtain ⟨y, hy, hf⟩ := ih h2
      exact ⟨y, List.mem_cons_of_mem x hy, hf⟩

theorem escd_renderBlockFrags (styles : ResolvedStyles) (nd : Value) :
    ∀ blk : TemplateBlock, (renderBlockFrags styles nd blk).all Frag.escd = true := by
  intro blk
  cases blk with
  | heading b =>
    simp [renderBlockFrags, List.all_cons, List.all_append, Frag.escd,
      escd_replaceMustacheFrags]
  | paragraph b =>
    simp [renderBlockFrags, List.all_cons, Frag.escd, escapeHtml_escapedOK]
  | line b =>
    simp [renderBlockFrags, List.all_cons, List.all_append, Frag.escd,
      all_fragsJoinSep, List.all_map, Function.comp_def, escapeHtml_escapedOK]
  | list b =>
    simp [renderBlockFrags, List.all_cons, List.all_append, Frag.escd,
      all_fragsJoin, List.all_map, Function.comp_def, escd_listItemsFrags]
  | table b =>
    simp [renderBlockFrags, List.all_cons, List.all_append, Frag.escd,
      all_fragsJoin, List.all_map, Function.comp_def, escapeHtml_escapedOK]
    intro row hrow a2 ha2
    rcases ha2 with h | rfl
    · obtain ⟨x, hxL, hfx⟩ := mem_fragsJoin h
      rw [List.mem_map] at hxL
      obtain ⟨c, hc, rfl⟩ := hxL
      simp only [List.mem_cons, List.not_mem_nil, or_false] at hfx
      rcases hfx with rfl | rfl | rfl
      · rfl
      · exact escapeHtml_escapedOK _
      · rfl
    · rfl
  | keyValueTable b =>
    simp [renderBlockFrags, List.all_cons, List.all_append, Frag.escd,
      all_fragsJoin, List.all_map, Function.comp_def, escapeHtml_escapedOK]
  | keyValueList b =>
    simp [renderBlockFrags, List.all_cons, List.all_append, Frag.escd,
      all_fragsJoin, List.all_map, Function.comp_def, escapeHtml_escapedOK]
  | divider b => rfl
  | spacer b => rfl
  | signature b =>
    simp only [renderBlockFrags]
    by_cases ht : escapeHtml (some (Value.vstr (valueToDisplay
        (if strTruthy (extractPath b.title) = true then
          getValueAtPath nd (extractPath b.title)
         else strOrBindToValue b.title)))) = "" <;>
      simp [ht, List.all_cons, List.all_append, Frag.escd, escapeHtml_escapedOK]

theorem escd_renderBlocksFrags (config : TemplateConfig) (data : Value) :
    (renderBlocksFrags config data).all Frag.escd = true := by
  show (fragsJoinSep (.lit "\n") (config.blocks.map (renderBlockFrags
    (resolveStyles config.styles) (normalizeDataForRendering data)))).all Frag.escd = true
  rw [all_fragsJoinSep Frag.escd (.lit "\n") rfl, List.all_eq_true]
  intro x hx
  rw [List.mem_map] at hx
  obtain ⟨blk, hblk, rfl⟩ := hx
  exact escd_renderBlockFrags (resolveStyles config.styles)
    (normalizeDataForRendering data) blk

/-- C2: every data value reaching the rendered HTML is escaped.  The
    fragment renderer `renderBlocksFrags` mirrors the string renderer and
    tags exactly the `escapeHtml` outputs as `dat`: serializing it
    recovers `renderBlocksFromTemplateConfig`, and every `dat` fragment
    is fully escaped — it contains no `<`, `>`, `"` or `'` at all, and
    every `&` in it begins an escape entity — so no raw `<`, `>`, `&` or
    quote of any bound or substituted data value survives into the
    output outside of tag structure. -/
theorem C2_escaping_invariant (config : TemplateConfig) (data : Value) :
    renderBlocksFromTemplateConfig config data =
      fragsOut (renderBlocksFrags config data) ∧
    ∀ s : String, Frag.dat s ∈ renderBlocksFrags config data →
      htmlEscapedOK s.data = true ∧
      ∀ c ∈ s.data, c ≠ '<' ∧ c ≠ '>' ∧ c ≠ '"' ∧ c ≠ '\'' := by
  constructor
  · show joinSep "\n" (config.blocks.map (renderBlock (resolveStyles config.styles)
        (normalizeDataForRendering data))) =
      fragsOut (fragsJoinSep (.lit "\n") (config.blocks.map (renderBlockFrags
        (resolveStyles config.styles) (normalizeDataForRendering data))))
    rw [map_fragsOut _ _ _ (fun blk _ => renderBlock_out (resolveStyles config.styles)
      (normalizeDataForRendering data) blk)]
    exact joinSep_frags "\n" _
  · intro s hs
    have hall := escd_renderBlocksFrags config data
    rw [List.all_eq_true] at hall
    have hesc : htmlEscapedOK s.data = true := hall _ hs
    refine ⟨hesc, ?_⟩
    intro c hc
    unfold htmlEscapedOK at hesc
    rw [Bool.and_eq_true] at hesc
    have hsafe := hesc.1
    rw [List.all_eq_true] at hsafe
    have hthis := hsafe c hc
    simp only [Bool.and_eq_true, Bool.not_eq_true', beq_eq_false_iff_ne] at hthis
    exact ⟨hthis.1.1.1, hthis.1.1.2, hthis.1.2, hthis.2⟩

/-! ## HTML → DOCX conversion (`htmlToDocxChildren`, `createDocx`)

The converter works on strings with case-insensitive regexes; the model
works on `List Char` with explicit scanners.  Document nodes keep the
content the source embeds in `docx` objects: paragraph/heading text,
table cell text with its header flag, and the image type. -/

/-- A produced document node: `Paragraph` with one text run, a heading
    paragraph, a `Table` of rows of `(isHeader, text)` cells, or an
    embedded image of the given type. -/
inductive DocxNode where
  | para (text : String)
  | heading (level : Nat) (text : String)
  | table (rows : List (List (Bool × String)))
  | image (imgType : String)
deriving Repr, DecidableEq

/-- Case-insensitive literal prefix match (the `i` flag): the pattern is
    lowercase; an input character matches when its `toLower` equals it.
    Returns the rest of the input on success. -/
def ciPrefix : List Char → List Char → Option (List Char)
  | [], cs => some cs
  | _ :: _, [] => none
  | p :: ps, c :: cs => if c.toLower = p then ciPrefix ps cs else none

/-- The opening-tag pattern `<tag[^>]*>` anchored at the start: the tag
    name (case-insensitive) followed by everything up to and including
    the first `>`. -/
def matchTagOpen (tag : List Char) (cs : List Char) : Option (Unit × List Char) :=
  match ciPrefix ('<' :: tag) cs with
  | none => none
  | some rest =>
    match rest.dropWhile (fun c => c ≠ '>') with
    | '>' :: rest2 => some ((), rest2)
    | _ => none

/-- The closing-tag pattern `</tag>` anchored at the start. -/
def matchTagClose (tag : List Char) (cs : List Char) : Option (Unit × List Char) :=
  (ciPrefix ('<' :: '/' :: (tag ++ ['>'])) cs).map (fun rest => ((), rest))

/-- Leftmost-match search: the first position at which `f` succeeds, with
    the text before the match, the match result, and the rest. -/
def scanFirst {α : Type} (f : List Char → Option (α × List Char)) :
    List Char → Option (List Char × α × List Char)
  | [] =>
    match f [] with
    | some (a, rest) => some ([], a, rest)
    | none => none
  | c :: cs =>
    match f (c :: cs) with
    | some (a, rest) => some ([], a, rest)
    | none =>
      match scanFirst f cs with
      | some (before, a, rest) => some (c :: before, a, rest)
      | none => none

/-- `extractTag`: the text before the first opening tag, the inner text up
    to the first closing tag after it, and the text after. -/
def extractTag (tag : List Char) (cs : List Char) :
    Option (List Char × List Char × List Char) :=
  match scanFirst (matchTagOpen tag) cs with
  | none => none
  | some (before, _, rest) =>
    match scanFirst (matchTagClose tag) rest with
    | none => none
    | some (inner, _, after) => some (before, inner, after)

/-- The name alternation of `</(h\d|p|div|li|tr)>` (the alternatives start
    with distinct letters, so matching is first-letter directed). -/
def closeTagRest (r : List Char) : Option (List Char) :=
  match r with
  | [] => none
  | c1 :: rest1 =>
    if c1.toLower = 'h' then
      match rest1 with
      | d :: rest2 => if d.isDigit then some rest2 else none
      | [] => none
    else if c1.toLower = 'p' then some rest1
    else if c1.toLower = 'd' then ciPrefix "iv".data rest1
    else if c1.toLower = 'l' then ciPrefix "i".data rest1
    else if c1.toLower = 't' then ciPrefix "r".data rest1
    else none

/-- The pattern `</(h\d|p|div|li|tr)>` anchored at the start. -/
def matchCloseTagNL (cs : List Char) : Option (List Char) :=
  match cs with
  | '<' :: '/' :: r =>
    match closeTagRest r with
    | some ('>' :: rest) => some rest
    | _ => none
  | _ => none

/-- The pattern `<br\s*\/?\s*>` anchored at the start. -/
def matchBr (cs : List Char) : Option (List Char) :=
  match ciPrefix "<br".data cs with
  | none => none
  | some r1 =>
    let r2 := r1.dropWhile isJsTrimWs
    let r3 := match r2 with
      | '/' :: t => t
      | _ => r2
    match r3.dropWhile isJsTrimWs with
    | '>' :: rest => some rest
    | _ => none

/-- Pass `replace(/<\/(h\d|p|div|li|tr)>/gi, '\n')`. -/
def stripCloseGo : Nat → List Char → List Char
  | 0, cs => cs
  | _ + 1, [] => []
  | fuel + 1, c :: cs =>
    match matchCloseTagNL (c :: cs) with
    | some rest => '\n' :: stripCloseGo fuel rest
    | none => c :: stripCloseGo fuel cs

def stripClose (cs : List Char) : List Char :=
  stripCloseGo (cs.length + 1) cs

/-- Pass `replace(/<br\s*\/?\s*>/gi, '\n')`. -/
def stripBrGo : Nat → List Char → List Char
  | 0, cs => cs
  | _ + 1, [] => []
  | fuel + 1, c :: cs =>
    match matchBr (c :: cs) with
    | some rest => '\n' :: stripBrGo fuel rest
    | none => c :: stripBrGo fuel cs

def stripBr (cs : List Char) : List Char :=
  stripBrGo (cs.length + 1) cs

/-- Pass `replace(/<[^>]+>/g, '')`. -/
def stripAllTagsGo : Nat → List Char → List Char
  | 0, cs => cs
  | _ + 1, [] => []
  | fuel + 1, c :: cs =>
    if c = '<' then
      match cs.dropWhile (fun x => x ≠ '>') with
      | '>' :: rest =>
        if (cs.takeWhile (fun x => x ≠ '>')).isEmpty then c :: stripAllTagsGo fuel cs
        else stripAllTagsGo fuel rest
      | _ => c :: stripAllTagsGo fuel cs
    else c :: stripAllTagsGo fuel cs

def stripAllTags (cs : List Char) : List Char :=
  stripAllTagsGo (cs.length + 1) cs

/-- Pass `replace(/\n{3,}/g, '\n\n')` (a maximal newline run of three or
    more collapses to two). -/
def squeezeNlGo : Nat → List Char → List Char
  | 0, cs => cs
  | _ + 1, [] => []
  | fuel + 1, c :: cs =>
    if c = '\n' then
      let run := cs.takeWhile (fun x => x = '\n')
      let rest := cs.dropWhile (fun x => x = '\n')
      if 2 ≤ run.length then '\n' :: '\n' :: squeezeNlGo fuel rest
      else c :: (run ++ squeezeNlGo fuel rest)
    else c :: squeezeNlGo fuel cs

def squeezeNl (cs : List Char) : List Char :=
  squeezeNlGo (cs.length + 1) cs

/-- `stripTags` of the DOCX converter: closing tags and `<br>` become
    newlines, remaining tags vanish, newline runs collapse, and the
    result is trimmed. -/
def stripTags (cs : List Char) : String :=
  ⟨jsTrimChars (squeezeNl (stripAllTags (stripBr (stripClose cs))))⟩

/-- `stripHtmlToPlainText` of the PDF generator: the same first three
    passes, without newline collapsing or trimming. -/
def stripHtmlToPlainText (html : String) : String :=
  ⟨stripAllTags (stripBr (stripClose html.data))⟩

/-- `split(/\n{2,}/)`: segments separated by maximal newline runs of two
    or more. -/
def splitNNGo : Nat → List Char → List Char → List String
  | 0, acc, cs => [⟨acc.reverse ++ cs⟩]
  | _ + 1, acc, [] => [⟨acc.reverse⟩]
  | fuel + 1, acc, c :: cs =>
    if c = '\n' then
      match cs with
      | c2 :: _ =>
        if c2 = '\n' then
          ⟨acc.reverse⟩ :: splitNNGo fuel [] (cs.dropWhile (fun x => x = '\n'))
        else splitNNGo fuel (c :: acc) cs
      | [] => splitNNGo fuel (c :: acc) []
    else splitNNGo fuel (c :: acc) cs

def splitNN (s : String) : List String :=
  splitNNGo (s.data.length + 1) [] s.data

/-- `beforeText ? beforeText.split(/\n{2,}/).map(t => new Paragraph(t)) : []`. -/
def mkParas (t : String) : List DocxNode :=
  if t = "" then [] else (splitNN t).map DocxNode.para

/-- The repeated `exec` loop over `/<tag[^>]*>([\s\S]*?)<\/tag>/gi`: for
    each non-overlapping match, its lazily-captured inner text.  The fuel
    is the input length plus one; every iteration consumes at least one
    character. -/
def tagPairsGo (tag : List Char) : Nat → List Char → List (List Char)
  | 0, _ => []
  | fuel + 1, cs =>
    match scanFirst (matchTagOpen tag) cs with
    | none => []
    | some (_, _, rest) =>
      match scanFirst (matchTagClose tag) rest with
      | none => []
      | some (inner, _, after) => inner :: tagPairsGo tag fuel after

def tagPairs (tag : List Char) (cs : List Char) : List (List Char) :=
  tagPairsGo tag (cs.length + 1) cs

/-- The cell opening alternation `<(td|th)[^>]*>`: the flag is whether the
    tag was `th`. -/
def matchCellOpen (cs : List Char) : Option (Bool × List Char) :=
  match matchTagOpen "td".data cs with
  | some (_, rest) => some (false, rest)
  | none =>
    match matchTagOpen "th".data cs with
    | some (_, rest) => some (true, rest)
    | none => none

/-- The cell closing alternation `</(td|th)>`. -/
def matchCellClose (cs : List Char) : Option (Unit × List Char) :=
  match matchTagClose "td".data cs with
  | some r => some r
  | none => matchTagClose "th".data cs

/-- The `exec` loop over the cell pattern, keeping the header flag. -/
def cellPairsGo : Nat → List Char → List (Bool × List Char)
  | 0, _ => []
  | fuel + 1, cs =>
    match scanFirst matchCellOpen cs with
    | none => []
    | some (_, isHeader, rest) =>
      match scanFirst matchCellClose rest with
      | none => []
      | some (inner, _, after) => (isHeader, inner) :: cellPairsGo fuel after

def cellPairs (cs : List Char) : List (Bool × List Char) :=
  cellPairsGo (cs.length + 1) cs

/-- `parseTable`: the first `<table>` element becomes one table node whose
    rows are the `<tr>` matches and whose cells are the `<td>`/`<th>`
    matches, each cell holding its header flag and stripped text. -/
def parseTable (cs : List Char) : Option (DocxNode × List Char × List DocxNode) :=
  match extractTag "table".data cs with
  | none => none
  | some (before, inner, after) =>
    let rows := (tagPairs "tr".data inner).map (fun rowInner =>
      (cellPairs rowInner).map (fun cell => (cell.1, stripTags cell.2)))
    some (.table rows, after, mkParas (stripTags before))

/-- `parseHeading`: the levels 1..6 are tried in order. -/
def parseHeadingGo : List Nat → List Char → Option (DocxNode × List Char × List DocxNode)
  | [], _ => none
  | l :: ls, cs =>
    match extractTag ('h' :: natToChars l) cs with
    | some (before, inner, after) =>
      some (.heading l (stripTags inner), after, mkParas (stripTags before))
    | none => parseHeadingGo ls cs

def parseHeading (cs : List Char) : Option (DocxNode × List Char × List DocxNode) :=
  parseHeadingGo [1, 2, 3, 4, 5, 6] cs

/-- `parseList`: `ul` then `ol`; each `<li>` match becomes a bulleted or
    numbered paragraph. -/
def parseListKind (ordered : Bool) (tag : List Char) (cs : List Char) :
    Option (List DocxNode × List Char × List DocxNode) :=
  match extractTag tag cs with
  | none => none
  | some (before, inner, after) =>
    let lis := tagPairs "li".data inner
    let paras := (List.range lis.length).zip lis |>.map (fun z =>
      let bullet : String := if ordered then ⟨natToChars (z.1 + 1)⟩ ++ ". " else "• "
      DocxNode.para (bullet ++ stripTags z.2))
    some (paras, after, mkParas (stripTags before))

def parseList (cs : List Char) : Option (List DocxNode × List Char × List DocxNode) :=
  match parseListKind false "ul".data cs with
  | some r => some r
  | none => parseListKind true "ol".data cs

/-- `decodeDataUri` succeeds on `^data:([^;]+);base64,(.+)$` (the dot does
    not match newlines); it yields the mime type. -/
def decodeDataUri (src : List Char) : Option (List Char) :=
  if "data:".data.isPrefixOf src then
    let r := src.drop 5
    let mime := r.takeWhile (fun c => c ≠ ';')
    if mime.isEmpty then none
    else
      let r2 := r.drop mime.length
      if ";base64,".data.isPrefixOf r2 then
        let rest := r2.drop 8
        if !rest.isEmpty && rest.all (fun c => c ≠ '\n' && c ≠ '\r') then some mime
        else none
      else none
  else none

/-- One attempt of the split of `[^>]*` in the image pattern at offset
    `k`: `src=` (case-insensitive), a quote, a nonempty quote-free
    capture, a quote, then everything up to and including the first
    `>`. -/
def imgCheckAt (afterImg : List Char) (k : Nat) : Option (List Char × List Char) :=
  match ciPrefix "src=".data (afterImg.drop k) with
  | none => none
  | some r1 =>
    match r1 with
    | [] => none
    | q :: r2 =>
      if q = '"' || q = '\'' then
        if (r2.takeWhile (fun c => !(c = '"' || c = '\''))).isEmpty then none
        else
          match r2.dropWhile (fun c => !(c = '"' || c = '\'')) with
          | [] => none
          | _ :: r3 =>
            match r3.dropWhile (fun c => c ≠ '>') with
            | '>' :: r4 => some (r2.takeWhile (fun c => !(c = '"' || c = '\'')), r4)
            | _ => none
      else none

/-- The greedy backtracking of `[^>]*` in the image pattern: the longest
    split is tried first. -/
def imgTrySplit (afterImg : List Char) : Nat → Option (List Char × List Char)
  | 0 => imgCheckAt afterImg 0
  | k + 1 =>
    match imgCheckAt afterImg (k + 1) with
    | some r => some r
    | none => imgTrySplit afterImg k

/-- The pattern `<img[^>]*src=["']([^"']+)["'][^>]*>` anchored at the
    start: on success the captured source and the rest after the match. -/
def matchImg (cs : List Char) : Option (List Char × List Char) :=
  match ciPrefix "<img".data cs with
  | none => none
  | some afterImg =>
    imgTrySplit afterImg (afterImg.takeWhile (fun c => c ≠ '>')).length

/-- JS `String.prototype.includes` on character lists. -/
def containsSeq (needle : List Char) : List Char → Bool
  | [] => needle.isEmpty
  | c :: cs => needle.isPrefixOf (c :: cs) || containsSeq needle cs

/-- `parseImage`: the first image match; a data URI embeds as an image of
    the mime-derived type, anything else keeps an `[Image]` placeholder
    paragraph. -/
def parseImage (cs : List Char) : Option (DocxNode × List Char × List DocxNode) :=
  match scanFirst matchImg cs with
  | none => none
  | some (before, src, after) =>
    let beforeParas := mkParas (stripTags before)
    match decodeDataUri src with
    | none => some (.para "[Image]", after, beforeParas)
    | some mime =>
      let t : String :=
        if containsSeq "png".data mime then "png"
        else if containsSeq "jpeg".data mime || containsSeq "jpg".data mime then "jpg"
        else if containsSeq "gif".data mime then "gif"
        else if containsSeq "bmp".data mime then "bmp"
        else "png"
      some (.image t, after, beforeParas)

/-- The tag-name alternation `(table|h\d|ul|ol|li|p|div|br|img)` (first
    letters `t/h/u/o/l/p/d/b/i` make it deterministic; `table` and `tr`
    do not both appear, and `li` precedes `p`). -/
def anyTagName (r : List Char) : Option (List Char) :=
  match ciPrefix "table".data r with
  | some rest => some rest
  | none =>
  match r with
  | c1 :: d :: rest =>
    if c1.toLower = 'h' && d.isDigit then some rest
    else
      match ciPrefix "ul".data r with
      | some rest2 => some rest2
      | none =>
      match ciPrefix "ol".data r with
      | some rest2 => some rest2
      | none =>
      match ciPrefix "li".data r with
      | some rest2 => some rest2
      | none =>
      match ciPrefix "p".data r with
      | some rest2 => some rest2
      | none =>
      match ciPrefix "div".data r with
      | some rest2 => some rest2
      | none =>
      match ciPrefix "br".data r with
      | some rest2 => some rest2
      | none => ciPrefix "img".data r
  | _ =>
    match ciPrefix "p".data r with
    | some rest2 => some rest2
    | none => none

/-- The pattern `<\/?(table|h\d|ul|ol|li|p|div|br|img)[^>]*>` anchored at
    the start; on success the matched text and the rest. -/
def matchAnyTag (cs : List Char) : Option (List Char × List Char) :=
  match cs with
  | '<' :: rest0 =>
    let rest1 := match rest0 with
      | '/' :: r => r
      | _ => rest0
    match anyTagName rest1 with
    | none => none
    | some rest2 =>
      match rest2.dropWhile (fun c => c ≠ '>') with
      | '>' :: rest3 => some (cs.take (cs.length - rest3.length), rest3)
      | _ => none
  | _ => none

/-- The `/^<br\b/i` test on a matched tag. -/
def isBrStart (m0 : List Char) : Bool :=
  match m0 with
  | '<' :: b :: r :: rest =>
    (b.toLower = 'b' && r.toLower = 'r') &&
      (match rest with
        | [] => true
        | c :: _ => !isWordChar c)
  | _ => false

/-- One iteration of the conversion loop of `htmlToDocxChildren`: tables,
    headings, lists and images are tried in order; otherwise text up to
    the next known tag flushes as paragraphs and a `<p>`/`<div>` block, a
    single leading tag, or one character is consumed. -/
def convertStep (cs : List Char) : List DocxNode × List Char :=
  match parseTable cs with
  | some (node, after, beforeParas) => (beforeParas ++ [node], after)
  | none =>
  match parseHeading cs with
  | some (node, after, beforeParas) => (beforeParas ++ [node], after)
  | none =>
  match parseList cs with
  | some (nodes, after, beforeParas) => (beforeParas ++ nodes, after)
  | none =>
  match parseImage cs with
  | some (node, after, beforeParas) => (beforeParas ++ [node], after)
  | none =>
  match scanFirst matchAnyTag cs with
  | none => (mkParas (stripTags cs), [])
  | some (before, matched, rest) =>
    match extractTag "p".data (matched ++ rest) with
    | some (bb, binner, bafter) =>
      (mkParas (stripTags before) ++ mkParas (stripTags bb) ++
        (if stripTags binner = "" then [] else [.para (stripTags binner)]), bafter)
    | none =>
    match extractTag "div".data (matched ++ rest) with
    | some (bb, binner, bafter) =>
      (mkParas (stripTags before) ++ mkParas (stripTags bb) ++
        (if stripTags binner = "" then [] else [.para (stripTags binner)]), bafter)
    | none =>
    match matchAnyTag (matched ++ rest) with
    | some (m0, rest2) =>
      (mkParas (stripTags before) ++ (if isBrStart m0 then [.para ""] else []), rest2)
    | none => (mkParas (stripTags before), (matched ++ rest).drop 1)

/-- The conversion loop: at most `MAX_ITERATIONS = 10000` iterations, each
    running `convertStep`, stopping when the remaining text is empty. -/
def htmlLoopGo : Nat → List Char → List DocxNode → List DocxNode
  | _, [], acc => acc
  | 0, _ :: _, acc => acc
  | fuel + 1, c :: cs, acc =>
    let step := convertStep (c :: cs)
    htmlLoopGo fuel step.2 (acc ++ step.1)

/-- `htmlToDocxChildren`. -/
def htmlToDocxChildren (html : String) : List DocxNode :=
  htmlLoopGo 10000 html.data []

/-- The fileName validation of `createDocx`: nonempty and matching
    `^[\w\-. ]+$`. -/
def validFileName (s : String) : Bool :=
  !(s == "") && s.data.all (fun c => isWordChar c || c = '-' || c = '.' || c = ' ')

/-- The pattern `<style[^>]*>` then lazily to the first `</style>`. -/
def matchStyleBlock (cs : List Char) : Option (List Char) :=
  match matchTagOpen "style".data cs with
  | none => none
  | some (_, rest) =>
    match scanFirst (matchTagClose "style".data) rest with
    | none => none
    | some (_, _, after) => some after

/-- `replace(/<style[^>]*>[\s\S]*?<\/style>/gi, '')`. -/
def stripStyleGo : Nat → List Char → List Char
  | 0, cs => cs
  | _ + 1, [] => []
  | fuel + 1, c :: cs =>
    match matchStyleBlock (c :: cs) with
    | some rest => stripStyleGo fuel rest
    | none => c :: stripStyleGo fuel cs

def stripStyleBlocks (cs : List Char) : List Char :=
  stripStyleGo (cs.length + 1) cs

/-- `createDocx` up to the external packaging and file writes: the
    fileName validation throws, `<style>` blocks are removed, the HTML
    converts, and an empty conversion falls back to one paragraph with
    the fully stripped text.  The pure conversion cannot throw, so the
    surrounding `try`/`catch` never reaches its fallback. -/
def createDocx (fileName : String) (html : String) : Except String (List DocxNode) :=
  if !validFileName fileName then
    .error "Invalid fileName: must contain only alphanumeric characters, spaces, dots, hyphens, and underscores"
  else
    let sanitizedHtml := stripStyleBlocks html.data
    let children := htmlToDocxChildren ⟨sanitizedHtml⟩
    .ok (if children.length > 0 then children
         else [.para (stripTags sanitizedHtml)])

/-! ## PDF generation (`createPdf`)

The external effects (printing, file moves, the pdf-lib pipeline and the
final write) are oracle parameters: each is the `Except` outcome the
corresponding `await` would produce, so the control flow of the
`try`/`catch` structure is modelled exactly. -/

/-- The result record of `createPdf`. -/
structure CreatePdfResult where
  fileUri : String
  base64 : Option String
deriving Repr, DecidableEq

/-- The outcomes of the external operations of `createPdf`.
    `deleteResult` is listed for completeness: its failure is swallowed
    by an empty `catch`, so it cannot influence the result.
    `pdfLibResult` is a function of the text drawn onto the fallback
    page. -/
structure PdfEffects where
  printResult : Except String (String × String)
  deleteResult : Except String Unit
  moveResult : Except String Unit
  pdfLibResult : String → Except String String
  writeResult : Except String Unit

/-- `createPdf`: the primary print path with the rename attempt, and the
    pdf-lib fallback that rethrows its own failure. -/
def createPdf (eff : PdfEffects) (documentDirectory : String)
    (html fileName : String) : Except String CreatePdfResult :=
  match eff.printResult with
  | .ok (uri, base64) =>
    let desiredUri := documentDirectory ++ fileName ++ ".pdf"
    match eff.moveResult with
    | .ok _ => .ok ⟨desiredUri, some base64⟩
    | .error _ => .ok ⟨uri, some base64⟩
  | .error _ =>
    match eff.pdfLibResult (stripHtmlToPlainText html) with
    | .error e => .error e
    | .ok pdfBytes =>
      match eff.writeResult with
      | .error e => .error e
      | .ok _ => .ok ⟨documentDirectory ++ fileName ++ ".pdf", some pdfBytes⟩

/-- C9: `createDocx` validates its fileName before any parsing or
    packaging: an empty name or one with a character outside letters,
    digits, underscore, dot, hyphen and space is rejected with the
    `Invalid fileName` error, and every name inside that class proceeds
    to generation. -/
theorem C9_createDocx_filename_validation (fileName html : String) :
    (validFileName fileName = false →
      createDocx fileName html = .error "Invalid fileName: must contain only alphanumeric characters, spaces, dots, hyphens, and underscores") ∧
    (validFileName fileName = true →
      ∃ nodes, createDocx fileName html = .ok nodes) ∧
    (validFileName fileName = true ↔
      fileName ≠ "" ∧ ∀ c ∈ fileName.data,
        c.isAlpha = true ∨ c.isDigit = true ∨ c = '_' ∨ c = '.' ∨ c = '-' ∨ c = ' ') := by
  refine ⟨?_, ?_, ?_⟩
  · intro h
    simp [createDocx, h]
  · intro h
    refine ⟨if 0 < (htmlToDocxChildren ⟨stripStyleBlocks html.data⟩).length
        then htmlToDocxChildren ⟨stripStyleBlocks html.data⟩
        else [DocxNode.para (stripTags (stripStyleBlocks html.data))], ?_⟩
    simp [createDocx, h]
  · unfold validFileName isWordChar
    simp only [Bool.and_eq_true, Bool.not_eq_true', beq_eq_false_iff_ne, ne_eq,
      List.all_eq_true, Bool.or_eq_true, decide_eq_true_eq]
    constructor <;> rintro ⟨h1, h2⟩ <;>
      exact ⟨h1, fun c hc => by have := h2 c hc; tauto⟩

/-- C7: the claim says `createPdf` never propagates an error.  The
    fallback path rethrows `fallbackError`, so when both the primary
    print and the pdf-lib fallback fail the error does reach the caller:
    here a failing print oracle and a failing pdf-lib oracle produce
    `Except.error`. -/
theorem C7_counterexample :
    createPdf ⟨.error "print failed", .ok (), .ok (),
        fun _ => .error "pdf-lib failed", .ok ()⟩
      "file:///doc/" "<p>x</p>" "doc" = .error "pdf-lib failed" := rfl

/-- C7 (amended): `createPdf` succeeds whenever the primary print
    succeeds (even if the rename fails, in which case the original uri is
    returned), and, when the print fails, succeeds if the pdf-lib
    fallback on the tag-stripped plain text and the final write succeed;
    if the fallback pipeline itself fails, that error propagates to the
    caller. -/
theorem C7_pdf_fallback (eff : PdfEffects)
    (documentDirectory html fileName : String) :
    (∀ uri base64, eff.printResult = .ok (uri, base64) →
      (eff.moveResult = .ok () →
        createPdf eff documentDirectory html fileName =
          .ok ⟨documentDirectory ++ fileName ++ ".pdf", some base64⟩) ∧
      (∀ e, eff.moveResult = .error e →
        createPdf eff documentDirectory html fileName = .ok ⟨uri, some base64⟩)) ∧
    (∀ e, eff.printResult = .error e →
      ∀ bytes, eff.pdfLibResult (stripHtmlToPlainText html) = .ok bytes →
        (eff.writeResult = .ok () →
          createPdf eff documentDirectory html fileName =
            .ok ⟨documentDirectory ++ fileName ++ ".pdf", some bytes⟩) ∧
        (∀ e2, eff.writeResult = .error e2 →
          createPdf eff documentDirectory html fileName = .error e2)) ∧
    (∀ e, eff.printResult = .error e →
      ∀ e2, eff.pdfLibResult (stripHtmlToPlainText html) = .error e2 →
      createPdf eff documentDirectory html fileName = .error e2) := by
  refine ⟨?_, ?_, ?_⟩
  · intro uri base64 hp
    exact ⟨fun hm => by simp [createPdf, hp, hm],
      fun e hm => by simp [createPdf, hp, hm]⟩
  · intro e hp bytes hf
    exact ⟨fun hw => by simp [createPdf, hp, hf, hw],
      fun e2 hw => by simp [createPdf, hp, hf, hw]⟩
  · intro e hp e2 hf
    simp [createPdf, hp, hf]

/-! ## Converter progress -/

theorem ciPrefix_length : ∀ (pat cs rest : List Char),
    ciPrefix pat cs = some rest → rest.length + pat.length = cs.length := by
  intro pat
  induction pat with
  | nil =>
    intro cs rest h
    obtain rfl := Option.some.inj h
    simp
  | cons p ps ih =>
    intro cs rest h
    cases cs with
    | nil => cases h
    | cons c cs2 =>
      unfold ciPrefix at h
      split at h
      · have := ih cs2 rest h
        simp only [List.length_cons]
        omega
      · cases h

theorem ciPrefix_lt {pat cs rest : List Char} (hne : pat ≠ [])
    (h : ciPrefix pat cs = some rest) : rest.length < cs.length := by
  have := ciPrefix_length pat cs rest h
  have hp : 1 ≤ pat.length := by
    cases pat with
    | nil => exact absurd rfl hne
    | cons a l => simp
  omega

theorem scanFirst_spec {α : Type} (f : List Char → Option (α × List Char)) :
    ∀ (cs b : List Char) (a : α) (r : List Char),
    scanFirst f cs = some (b, a, r) → ∃ s, cs = b ++ s ∧ f s = some (a, r) := by
  intro cs
  induction cs with
  | nil =>
    intro b a r h
    unfold scanFirst at h
    split at h
    · rename_i a2 r2 heq
      simp only [Option.some.injEq, Prod.mk.injEq] at h
      obtain ⟨rfl, rfl, rfl⟩ := h
      exact ⟨[], rfl, heq⟩
    · cases h
  | cons c cs2 ih =>
    intro b a r h
    unfold scanFirst at h
    split at h
    · rename_i a2 r2 heq
      simp only [Option.some.injEq, Prod.mk.injEq] at h
      obtain ⟨rfl, rfl, rfl⟩ := h
      exact ⟨c :: cs2, rfl, heq⟩
    · rename_i heq
      split at h
      · rename_i b2 a2 r2 heq2
        simp only [Option.some.injEq, Prod.mk.injEq] at h
        obtain ⟨rfl, rfl, rfl⟩ := h
        obtain ⟨s, hs, hf⟩ := ih b2 a2 r2 heq2
        exact ⟨s, by rw [hs]; rfl, hf⟩
      · cases h

theorem matchTagOpen_length {tag cs : List Char} {rest : List Char}
    (h : matchTagOpen tag cs = some ((), rest)) :
    rest.length + tag.length + 2 ≤ cs.length := by
  unfold matchTagOpen at h
  split at h
  · cases h
  · rename_i r1 heq
    have h1 := ciPrefix_length _ _ _ heq
    simp only [List.length_cons] at h1
    split at h
    · rename_i rest2 heq2
      obtain rfl : rest2 = rest := by
        simpa using h
      have h2 : ((r1.dropWhile (fun c => c ≠ '>'))).length ≤ r1.length :=
        length_dropWhile_le _ _
      rw [heq2] at h2
      simp only [List.length_cons] at h2
      omega
    · cases h

theorem matchTagClose_length {tag cs : List Char} {rest : List Char}
    (h : matchTagClose tag cs = some ((), rest)) :
    rest.length + tag.length + 3 = cs.length := by
  unfold matchTagClose at h
  rcases heq : ciPrefix ('<' :: '/' :: (tag ++ ['>'])) cs with _ | r1
  · rw [heq] at h; cases h
  · rw [heq] at h
    simp only [Option.map_some'] at h
    obtain rfl : r1 = rest := by simpa using h
    have h1 := ciPrefix_length _ _ _ heq
    simp only [List.length_cons, List.length_append, List.length_singleton,
      List.length_nil] at h1
    omega

theorem extractTag_after_lt {tag cs b i a : List Char}
    (h : extractTag tag cs = some (b, i, a)) :
    a.length + b.length + i.length + 5 ≤ cs.length := by
  unfold extractTag at h
  split at h
  · cases h
  · rename_i b1 u rest heq1
    split at h
    · cases h
    · rename_i inner u2 after heq2
      simp only [Option.some.injEq, Prod.mk.injEq] at h
      obtain ⟨hb, hi, ha⟩ := h
      obtain ⟨s1, hs1, hf1⟩ := scanFirst_spec _ _ _ _ _ heq1
      obtain ⟨s2, hs2, hf2⟩ := scanFirst_spec _ _ _ _ _ heq2
      cases u
      cases u2
      have l1 := matchTagOpen_length hf1
      have l2 := matchTagClose_length hf2
      have e1 := congrArg List.length hs1
      have e2 := congrArg List.length hs2
      simp only [List.length_append] at e1 e2
      subst hb
      subst hi
      subst ha
      omega

theorem parseTable_after_lt {cs : List Char} {n : DocxNode}
    {a : List Char} {ps : List DocxNode}
    (h : parseTable cs = some (n, a, ps)) : a.length < cs.length := by
  unfold parseTable at h
  split at h
  · cases h
  · rename_i before inner after heq
    simp only [Option.some.injEq, Prod.mk.injEq] at h
    obtain ⟨_, rfl, _⟩ := h
    have := extractTag_after_lt heq
    omega

theorem parseHeadingGo_after_lt : ∀ {ls : List Nat} {cs : List Char} {n : DocxNode}
    {a : List Char} {ps : List DocxNode},
    parseHeadingGo ls cs = some (n, a, ps) → a.length < cs.length := by
  intro ls
  induction ls with
  | nil => intro cs n a ps h; cases h
  | cons l ls2 ih =>
    intro cs n a ps h
    unfold parseHeadingGo at h
    split at h
    · rename_i before inner after heq
      simp only [Option.some.injEq, Prod.mk.injEq] at h
      obtain ⟨_, rfl, _⟩ := h
      have := extractTag_after_lt heq
      omega
    · exact ih h

theorem parseListKind_after_lt {ordered : Bool} {tag cs : List Char}
    {ns : List DocxNode} {a : List Char} {ps : List DocxNode}
    (h : parseListKind ordered tag cs = some (ns, a, ps)) : a.length < cs.length := by
  unfold parseListKind at h
  split at h
  · cases h
  · rename_i before inner after heq
    simp only [Option.some.injEq, Prod.mk.injEq] at h
    obtain ⟨_, rfl, _⟩ := h
    have := extractTag_after_lt heq
    omega

theorem parseList_after_lt {cs : List Char} {ns : List DocxNode}
    {a : List Char} {ps : List DocxNode}
    (h : parseList cs = some (ns, a, ps)) : a.length < cs.length := by
  unfold parseList at h
  split at h
  · rename_i r heq
    obtain rfl := Option.some.inj h
    exact parseListKind_after_lt heq
  · exact parseListKind_after_lt h

theorem imgCheckAt_length {afterImg : List Char} {k : Nat} {cap r4 : List Char}
    (h : imgCheckAt afterImg k = some (cap, r4)) : r4.length < afterImg.length := by
  unfold imgCheckAt at h
  split at h
  · cases h
  · rename_i r1 heq
    have h1 := ciPrefix_length _ _ _ heq
    have hdrop : (afterImg.drop k).length ≤ afterImg.length := by
      simp [List.length_drop]
    split at h
    · cases h
    · rename_i q r2
      split at h
      · split at h
        · cases h
        · split at h
          · cases h
          · rename_i q2 r3 heq3
            have h3 : (r2.dropWhile (fun c => !(c = '"' || c = '\''))).length ≤ r2.length :=
              length_dropWhile_le _ _
            rw [heq3] at h3
            simp only [List.length_cons] at h3
            split at h
            · rename_i r4b heq4
              simp only [Option.some.injEq, Prod.mk.injEq] at h
              obtain ⟨hcap, hr4⟩ := h
              subst hr4
              have h4 : (r3.dropWhile (fun c => c ≠ '>')).length ≤ r3.length :=
                length_dropWhile_le _ _
              rw [heq4] at h4
              simp only [List.length_cons] at h4
              simp only [List.length_cons] at h1
              omega
            · cases h
      · cases h

theorem imgTrySplit_length {afterImg : List Char} : ∀ {k : Nat} {cap r4 : List Char},
    imgTrySplit afterImg k = some (cap, r4) → r4.length < afterImg.length := by
  intro k
  induction k with
  | zero => intro cap r4 h; exact imgCheckAt_length h
  | succ k2 ih =>
    intro cap r4 h
    unfold imgTrySplit at h
    split at h
    · rename_i r heq
      obtain rfl := Option.some.inj h
      exact imgCheckAt_length heq
    · exact ih h

theorem matchImg_length {cs src rest : List Char}
    (h : matchImg cs = some (src, rest)) : rest.length + 5 ≤ cs.length := by
  unfold matchImg at h
  split at h
  · cases h
  · rename_i afterImg heq
    have h1 := ciPrefix_length _ _ _ heq
    have h2 := imgTrySplit_length h
    have h4 : ("<img".data).length = 4 := rfl
    omega

theorem parseImage_after_lt {cs : List Char} {n : DocxNode}
    {a : List Char} {ps : List DocxNode}
    (h : parseImage cs = some (n, a, ps)) : a.length < cs.length := by
  unfold parseImage at h
  split at h
  · cases h
  · rename_i before src after heq
    obtain ⟨s, hs, hf⟩ := scanFirst_spec _ _ _ _ _ heq
    have hl := matchImg_length hf
    have e1 := congrArg List.length hs
    simp only [List.length_append] at e1
    have ha : a = after := by
      split at h
      · simp only [Option.some.injEq, Prod.mk.injEq] at h
        exact h.2.1.symm
      · simp only [Option.some.injEq, Prod.mk.injEq] at h
        exact h.2.1.symm
    subst ha
    omega

theorem anyTagName_length {r rest2 : List Char}
    (h : anyTagName r = some rest2) : rest2.length + 1 ≤ r.length := by
  unfold anyTagName at h
  split at h
  · rename_i rest heq
    obtain rfl := Option.some.inj h
    have := ciPrefix_lt (by decide) heq
    omega
  · rename_i heq0
    split at h
    · rename_i c1 d rest
      split at h
      · obtain rfl := Option.some.inj h
        simp only [List.length_cons]
        omega
      · split at h
        · rename_i rr heq
          obtain rfl := Option.some.inj h
          have := ciPrefix_lt (by decide) heq
          omega
        · split at h
          · rename_i rr heq
            obtain rfl := Option.some.inj h
            have := ciPrefix_lt (by decide) heq
            omega
          · split at h
            · rename_i rr heq
              obtain rfl := Option.some.inj h
              have := ciPrefix_lt (by decide) heq
              omega
            · split at h
              · rename_i rr heq
                obtain rfl := Option.some.inj h
                have := ciPrefix_lt (by decide) heq
                omega
              · split at h
                · rename_i rr heq
                  obtain rfl := Option.some.inj h
                  have := ciPrefix_lt (by decide) heq
                  omega
                · split at h
                  · rename_i rr heq
                    obtain rfl := Option.some.inj h
                    have := ciPrefix_lt (by decide) heq
                    omega
                  · have := ciPrefix_lt (show "img".data ≠ [] by decide) h
                    omega
    · split at h
      · rename_i rr heq
        obtain rfl := Option.some.inj h
        have := ciPrefix_lt (by decide) heq
        omega
      · cases h

theorem matchAnyTag_length {cs m0 rest3 : List Char}
    (h : matchAnyTag cs = some (m0, rest3)) :
    rest3.length + 3 ≤ cs.length ∧ m0.length + rest3.length ≤ cs.length := by
  unfold matchAnyTag at h
  split at h
  · rename_i rest0
    simp only at h
    have hrest1 : (match rest0 with
        | '/' :: r => r
        | _ => rest0).length ≤ rest0.length := by
      split
      · rename_i r
        simp
      · exact Nat.le_refl _
    split at h
    · cases h
    · rename_i rest2 heq
      have h1 := anyTagName_length heq
      split at h
      · rename_i rest3b heq3
        simp only [Option.some.injEq, Prod.mk.injEq] at h
        obtain ⟨hm, hr⟩ := h
        have h3 : (rest2.dropWhile (fun c => c ≠ '>')).length ≤ rest2.length :=
          length_dropWhile_le _ _
        rw [heq3] at h3
        simp only [List.length_cons] at h3
        constructor
        · rw [← hr]
          simp only [List.length_cons]
          omega
        · rw [← hm, ← hr]
          have ht : (('<' :: rest0).take (('<' :: rest0).length - rest3b.length)).length ≤
              ('<' :: rest0).length - rest3b.length := by
            simp [List.length_take]
          simp only [List.length_cons] at ht ⊢
          omega
      · cases h
  · cases h

theorem convertStep_progress : ∀ cs : List Char, cs ≠ [] →
    (convertStep cs).2.length < cs.length := by
  intro cs hne
  have hpos : 1 ≤ cs.length := by
    cases cs with
    | nil => exact absurd rfl hne
    | cons c r => simp
  unfold convertStep
  split
  · rename_i node after beforeParas heq
    exact parseTable_after_lt heq
  split
  · rename_i node after beforeParas heq
    exact parseHeadingGo_after_lt heq
  split
  · rename_i nodes after beforeParas heq
    exact parseList_after_lt heq
  split
  · rename_i node after beforeParas heq
    exact parseImage_after_lt heq
  split
  · exact hpos
  rename_i before matched rest heqScan
  obtain ⟨s, hs, hf⟩ := scanFirst_spec _ _ _ _ _ heqScan
  have hm := matchAnyTag_length hf
  have e1 := congrArg List.length hs
  simp only [List.length_append] at e1
  split
  · rename_i bb binner bafter heqP
    have hext := extractTag_after_lt heqP
    simp only [List.length_append] at hext
    dsimp only
    omega
  split
  · rename_i bb binner bafter heqD
    have hext := extractTag_after_lt heqD
    simp only [List.length_append] at hext
    dsimp only
    omega
  split
  · rename_i m0 rest2 heqA
    have h2 := (matchAnyTag_length heqA).1
    simp only [List.length_append] at h2
    dsimp only
    omega
  · dsimp only
    simp only [List.length_drop, List.length_append]
    omega

theorem htmlLoopGo_irrel : ∀ n : Nat, ∀ (cs : List Char) (acc : List DocxNode),
    cs.length ≤ n → ∀ f g : Nat, cs.length < f → cs.length < g →
    htmlLoopGo f cs acc = htmlLoopGo g cs acc := by
  intro n
  induction n using Nat.strong_induction_on with
  | _ n ih =>
    intro cs acc hn f g hf hg
    obtain ⟨f, rfl⟩ : ∃ f2, f = f2 + 1 := ⟨f - 1, by omega⟩
    obtain ⟨g, rfl⟩ : ∃ g2, g = g2 + 1 := ⟨g - 1, by omega⟩
    match cs with
    | [] => rfl
    | c :: cs =>
      show htmlLoopGo f (convertStep (c :: cs)).2 (acc ++ (convertStep (c :: cs)).1) =
        htmlLoopGo g (convertStep (c :: cs)).2 (acc ++ (convertStep (c :: cs)).1)
      have hp := convertStep_progress (c :: cs) (by simp)
      simp only [List.length_cons] at hn hf hg hp
      exact ih (n - 1) (by omega) _ _ (by omega) f g (by omega) (by omega)

/-- C3: the HTML→DOCX conversion loop terminates for every finite input.
    Every iteration of the loop body (`convertStep`) strictly consumes
    input — a matched tag region, one leading tag, or a single dropped
    character — so the remaining text shrinks at each step, and beyond
    `length` iterations the fuelled loop is already stable (the
    `MAX_ITERATIONS` cap is only a hard stop for inputs longer than
    10000 characters). -/
theorem C3_converter_termination :
    (∀ cs : List Char, cs ≠ [] → (convertStep cs).2.length < cs.length) ∧
    (∀ (html : String) (acc : List DocxNode) (f g : Nat),
      html.data.length < f → html.data.length < g →
      htmlLoopGo f html.data acc = htmlLoopGo g html.data acc) ∧
    (∀ html : String, htmlToDocxChildren html = htmlLoopGo 10000 html.data []) :=
  ⟨convertStep_progress,
   fun html acc f g hf hg =>
     htmlLoopGo_irrel html.data.length html.data acc (Nat.le_refl _) f g hf hg,
   fun _ => rfl⟩

/-! ## Table conversion shape (towards C4)

For an HTML document that is exactly one `<table>` with `R` rows of `C`
cells whose texts contain no `<`, the converter yields exactly one table
node with the same shape.  The scans are evaluated with a "no match
inside" analysis: the closing-tag matchers fail at every position of the
inner content, so the leftmost-match searches land on the structural
tags of the constructed document. -/

/-- The constructed cell `<td>text</td>`. -/
def cellHtml (t : String) : List Char :=
  "<td>".data ++ t.data ++ "</td>".data

/-- The constructed row `<tr>cells</tr>`. -/
def rowHtml (r : List String) : List Char :=
  "<tr>".data ++ r.flatMap cellHtml ++ "</tr>".data

/-- The constructed table `<table>rows</table>`. -/
def tableHtml (cells : List (List String)) : List Char :=
  "<table>".data ++ cells.flatMap rowHtml ++ "</table>".data

theorem toLower_eq_lt {c : Char} (h : c.toLower = '<') : c = '<' := by
  have h2 : (if c.toNat ≥ 65 ∧ c.toNat ≤ 90 then Char.ofNat (c.toNat + 32) else c) = '<' := h
  split at h2
  · rename_i hr
    have hv : (Char.ofNat (c.toNat + 32)).toNat = ('<' : Char).toNat :=
      congrArg Char.toNat h2
    rw [charToNat_ofNat (isValidChar_of_lt_128 (by omega))] at hv
    have h60 : ('<' : Char).toNat = 60 := rfl
    omega
  · exact h2

theorem ciPrefix_none_of_ne {pat : List Char} {c : Char} {rest : List Char}
    (h : c ≠ '<') : ciPrefix ('<' :: pat) (c :: rest) = none := by
  unfold ciPrefix
  rw [if_neg (fun hl => h (toLower_eq_lt hl))]

theorem matchTagClose_none_of_ne {tag : List Char} {c : Char} {rest : List Char}
    (h : c ≠ '<') : matchTagClose tag (c :: rest) = none := by
  unfold matchTagClose
  rw [ciPrefix_none_of_ne h]
  rfl

theorem matchCellClose_none_of_ne {c : Char} {rest : List Char}
    (h : c ≠ '<') : matchCellClose (c :: rest) = none := by
  unfold matchCellClose
  rw [matchTagClose_none_of_ne h, matchTagClose_none_of_ne h]

/-- No position of `a` (continued by `k`) starts a match of `g`. -/
def noMatchIn {β : Type} (g : List Char → Option β) (a k : List Char) : Prop :=
  ∀ i, i < a.length → g (a.drop i ++ k) = none

theorem noMatchIn_nil {β : Type} {g : List Char → Option β} {k : List Char} :
    noMatchIn g [] k := by
  intro i hi
  simp at hi

theorem noMatchIn_cons {β : Type} {g : List Char → Option β} {c : Char}
    {a k : List Char} (h0 : g (c :: (a ++ k)) = none) (ha : noMatchIn g a k) :
    noMatchIn g (c :: a) k := by
  intro i hi
  cases i with
  | zero => simpa using h0
  | succ j =>
    simp only [List.length_cons] at hi
    simpa using ha j (by omega)

theorem noMatchIn_append {β : Type} {g : List Char → Option β} {a b k : List Char}
    (ha : noMatchIn g a (b ++ k)) (hb : noMatchIn g b k) : noMatchIn g (a ++ b) k := by
  intro i hi
  simp only [List.length_append] at hi
  by_cases hia : i < a.length
  · rw [List.drop_append_of_le_length (Nat.le_of_lt hia), List.append_assoc]
    exact ha i hia
  · push_neg at hia
    obtain ⟨j, rfl⟩ : ∃ j, i = a.length + j := ⟨i - a.length, by omega⟩
    rw [List.drop_append]
    exact hb j (by omega)

theorem noMatchIn_text {β : Type} {g : List Char → Option β} {a k : List Char}
    (hg : ∀ (c : Char) (rest : List Char), c ≠ '<' → g (c :: rest) = none)
    (ha : ∀ c ∈ a, c ≠ '<') : noMatchIn g a k := by
  intro i hi
  rw [List.drop_eq_getElem_cons hi, List.cons_append]
  exact hg _ _ (ha _ (List.getElem_mem hi))

theorem noMatchIn_flatMap {α β : Type} {g : List Char → Option β}
    {f : α → List Char} {l : List α} {k : List Char}
    (h : ∀ x ∈ l, ∀ k2, noMatchIn g (f x) k2) : noMatchIn g (l.flatMap f) k := by
  induction l with
  | nil => exact noMatchIn_nil
  | cons x xs ih =>
    rw [List.flatMap_cons]
    exact noMatchIn_append (h x (List.mem_cons_self x xs) _)
      (ih (fun y hy => h y (List.mem_cons_of_mem x hy)))

theorem scanFirst_cons {α : Type} (f : List Char → Option (α × List Char))
    (c : Char) (cs : List Char) :
    scanFirst f (c :: cs) =
      match f (c :: cs) with
      | some (a, rest) => some ([], a, rest)
      | none =>
        match scanFirst f cs with
        | some (before, a, rest) => some (c :: before, a, rest)
        | none => none := rfl

theorem scanFirst_append_of_noMatch {α : Type}
    {f : List Char → Option (α × List Char)} :
    ∀ (a : List Char) (b : List Char), noMatchIn f a b →
    scanFirst f (a ++ b) =
      (scanFirst f b).map (fun r => (a ++ r.1, r.2)) := by
  intro a
  induction a with
  | nil =>
    intro b h
    simp only [List.nil_append]
    rcases hb : scanFirst f b with _ | ⟨b2, x, r⟩ <;> simp
  | cons c a2 ih =>
    intro b h
    have h0 : f (c :: (a2 ++ b)) = none := by simpa using h 0 (by simp)
    rw [List.cons_append, scanFirst_cons, h0]
    have h2 : noMatchIn f a2 b := by
      intro i hi
      simpa using h (i + 1) (by simp only [List.length_cons]; omega)
    dsimp only
    rw [ih b h2]
    rcases hb : scanFirst f b with _ | ⟨b2, x, r⟩ <;> simp

theorem noMatchIn_tok4 {β : Type} {g : List Char → Option β} {c0 c1 c2 c3 : Char}
    {k : List Char} (h0 : g (c0 :: c1 :: c2 :: c3 :: k) = none)
    (h1 : c1 ≠ '<') (h2 : c2 ≠ '<') (h3 : c3 ≠ '<')
    (hg : ∀ (c : Char) (rest : List Char), c ≠ '<' → g (c :: rest) = none) :
    noMatchIn g [c0, c1, c2, c3] k :=
  noMatchIn_cons h0 (noMatchIn_cons (hg _ _ h1)
    (noMatchIn_cons (hg _ _ h2) (noMatchIn_cons (hg _ _ h3) noMatchIn_nil)))

theorem noMatchIn_tok5 {β : Type} {g : List Char → Option β} {c0 c1 c2 c3 c4 : Char}
    {k : List Char} (h0 : g (c0 :: c1 :: c2 :: c3 :: c4 :: k) = none)
    (h1 : c1 ≠ '<') (h2 : c2 ≠ '<') (h3 : c3 ≠ '<') (h4 : c4 ≠ '<')
    (hg : ∀ (c : Char) (rest : List Char), c ≠ '<' → g (c :: rest) = none) :
    noMatchIn g [c0, c1, c2, c3, c4] k :=
  noMatchIn_cons h0 (noMatchIn_cons (hg _ _ h1) (noMatchIn_cons (hg _ _ h2)
    (noMatchIn_cons (hg _ _ h3) (noMatchIn_cons (hg _ _ h4) noMatchIn_nil))))

/-- The closing-tag matchers fail at every position of one constructed
    cell (for a `<`-free cell text), whatever follows. -/
theorem noMatchIn_cellHtml {β : Type} {g : List Char → Option β} (t : String)
    (k : List Char) (ht : ∀ c ∈ t.data, c ≠ '<')
    (hopen : ∀ rest, g ('<' :: 't' :: rest) = none)
    (hclosetd : ∀ rest, g ('<' :: '/' :: 't' :: 'd' :: rest) = none)
    (hg : ∀ (c : Char) (rest : List Char), c ≠ '<' → g (c :: rest) = none) :
    noMatchIn g (cellHtml t) k := by
  show noMatchIn g (['<', 't', 'd', '>'] ++ (t.data ++ ['<', '/', 't', 'd', '>'])) k
  refine noMatchIn_append ?_ (noMatchIn_append ?_ ?_)
  · exact noMatchIn_tok4 (hopen _) (by decide) (by decide) (by decide) hg
  · exact noMatchIn_text hg ht
  · exact noMatchIn_tok5 (hclosetd _) (by decide) (by decide) (by decide) (by decide) hg

/-- The closing-tag matchers fail at every position of one constructed
    row. -/
theorem noMatchIn_rowHtml {β : Type} {g : List Char → Option β} (r : List String)
    (k : List Char) (hr : ∀ t ∈ r, ∀ c ∈ t.data, c ≠ '<')
    (hopen : ∀ rest, g ('<' :: 't' :: rest) = none)
    (hclosetd : ∀ rest, g ('<' :: '/' :: 't' :: 'd' :: rest) = none)
    (hclosetr : ∀ rest, g ('<' :: '/' :: 't' :: 'r' :: rest) = none)
    (hg : ∀ (c : Char) (rest : List Char), c ≠ '<' → g (c :: rest) = none) :
    noMatchIn g (rowHtml r) k := by
  show noMatchIn g (['<', 't', 'r', '>'] ++ (r.flatMap cellHtml ++ ['<', '/', 't', 'r', '>'])) k
  refine noMatchIn_append ?_ (noMatchIn_append ?_ ?_)
  · exact noMatchIn_tok4 (hopen _) (by decide) (by decide) (by decide) hg
  · exact noMatchIn_flatMap (fun t htm k2 =>
      noMatchIn_cellHtml t k2 (hr t htm) hopen hclosetd hg)
  · exact noMatchIn_tok5 (hclosetr _) (by decide) (by decide) (by decide) (by decide) hg

theorem noMatchIn_body_closeTable (cells : List (List String))
    (h : ∀ r ∈ cells, ∀ t ∈ r, ∀ c ∈ t.data, c ≠ '<') (k : List Char) :
    noMatchIn (matchTagClose "table".data) (cells.flatMap rowHtml) k :=
  noMatchIn_flatMap (fun r hrm k2 =>
    noMatchIn_rowHtml r k2 (h r hrm) (fun _ => rfl) (fun _ => rfl) (fun _ => rfl)
      (fun _ _ hne => matchTagClose_none_of_ne hne))

theorem noMatchIn_blob_closeTr (r : List String)
    (hr : ∀ t ∈ r, ∀ c ∈ t.data, c ≠ '<') (k : List Char) :
    noMatchIn (matchTagClose "tr".data) (r.flatMap cellHtml) k :=
  noMatchIn_flatMap (fun t htm k2 =>
    noMatchIn_cellHtml t k2 (hr t htm) (fun _ => rfl) (fun _ => rfl)
      (fun _ _ hne => matchTagClose_none_of_ne hne))

theorem tagPairsGo_succ (tag : List Char) (f : Nat) (cs : List Char) :
    tagPairsGo tag (f + 1) cs =
      match scanFirst (matchTagOpen tag) cs with
      | none => []
      | some (_, _, rest) =>
        match scanFirst (matchTagClose tag) rest with
        | none => []
        | some (inner, _, after) => inner :: tagPairsGo tag f after := rfl

theorem cellPairsGo_succ (f : Nat) (cs : List Char) :
    cellPairsGo (f + 1) cs =
      match scanFirst matchCellOpen cs with
      | none => []
      | some (_, isHeader, rest) =>
        match scanFirst matchCellClose rest with
        | none => []
        | some (inner, _, after) => (isHeader, inner) :: cellPairsGo f after := rfl

theorem cellPairsGo_cells : ∀ (row : List String),
    (∀ t ∈ row, ∀ c ∈ t.data, c ≠ '<') → ∀ fuel : Nat, row.length < fuel →
    cellPairsGo fuel (row.flatMap cellHtml) = row.map (fun t => (false, t.data)) := by
  intro row
  induction row with
  | nil =>
    intro _ fuel hf
    obtain ⟨f, rfl⟩ : ∃ f2, fuel = f2 + 1 := ⟨fuel - 1, by omega⟩
    rfl
  | cons t row ih =>
    intro hy fuel hf
    obtain ⟨f, rfl⟩ : ∃ f2, fuel = f2 + 1 := ⟨fuel - 1, by omega⟩
    have e1 : (t :: row).flatMap cellHtml =
        "<td>".data ++ (t.data ++ ("</td>".data ++ row.flatMap cellHtml)) := by
      simp [cellHtml, List.flatMap_cons, List.append_assoc]
    rw [e1, cellPairsGo_succ]
    rw [show scanFirst matchCellOpen
        ("<td>".data ++ (t.data ++ ("</td>".data ++ row.flatMap cellHtml))) =
        some ([], false, t.data ++ ("</td>".data ++ row.flatMap cellHtml)) from rfl]
    dsimp only
    have hno : noMatchIn matchCellClose t.data ("</td>".data ++ row.flatMap cellHtml) :=
      noMatchIn_text (fun _ _ hne => matchCellClose_none_of_ne hne)
        (hy t (List.mem_cons_self t row))
    rw [scanFirst_append_of_noMatch _ _ hno]
    rw [show scanFirst matchCellClose ("</td>".data ++ row.flatMap cellHtml) =
        some ([], (), row.flatMap cellHtml) from rfl]
    simp only [Option.map_some', List.append_nil]
    rw [ih (fun t2 ht2 => hy t2 (List.mem_cons_of_mem t ht2)) f (by simp at hf; omega)]
    rfl

theorem tagPairsGo_rows : ∀ (rows : List (List String)),
    (∀ r ∈ rows, ∀ t ∈ r, ∀ c ∈ t.data, c ≠ '<') → ∀ fuel : Nat, rows.length < fuel →
    tagPairsGo "tr".data fuel (rows.flatMap rowHtml) =
      rows.map (fun r => r.flatMap cellHtml) := by
  intro rows
  induction rows with
  | nil =>
    intro _ fuel hf
    obtain ⟨f, rfl⟩ : ∃ f2, fuel = f2 + 1 := ⟨fuel - 1, by omega⟩
    rfl
  | cons r rows ih =>
    intro hy fuel hf
    obtain ⟨f, rfl⟩ : ∃ f2, fuel = f2 + 1 := ⟨fuel - 1, by omega⟩
    have e1 : (r :: rows).flatMap rowHtml =
        "<tr>".data ++ (r.flatMap cellHtml ++ ("</tr>".data ++ rows.flatMap rowHtml)) := by
      simp [rowHtml, List.flatMap_cons, List.append_assoc]
    rw [e1, tagPairsGo_succ]
    rw [show scanFirst (matchTagOpen "tr".data)
        ("<tr>".data ++ (r.flatMap cellHtml ++ ("</tr>".data ++ rows.flatMap rowHtml))) =
        some ([], (), r.flatMap cellHtml ++ ("</tr>".data ++ rows.flatMap rowHtml)) from rfl]
    dsimp only
    have hno : noMatchIn (matchTagClose "tr".data) (r.flatMap cellHtml)
        ("</tr>".data ++ rows.flatMap rowHtml) :=
      noMatchIn_blob_closeTr r (hy r (List.mem_cons_self r rows)) _
    rw [scanFirst_append_of_noMatch _ _ hno]
    rw [show scanFirst (matchTagClose "tr".data) ("</tr>".data ++ rows.flatMap rowHtml) =
        some ([], (), rows.flatMap rowHtml) from rfl]
    simp only [Option.map_some', List.append_nil]
    rw [ih (fun r2 hr2 => hy r2 (List.mem_cons_of_mem r hr2)) f (by simp at hf; omega)]
    rfl

theorem length_le_flatMap_cellHtml (r : List String) :
    r.length ≤ (r.flatMap cellHtml).length := by
  induction r with
  | nil => simp
  | cons t row ih =>
    have h4 : ("<td>".data).length = 4 := rfl
    have h5 : ("</td>".data).length = 5 := rfl
    simp only [List.flatMap_cons, List.length_append, List.length_cons, cellHtml, h4, h5]
    omega

theorem length_le_flatMap_rowHtml (cells : List (List String)) :
    cells.length ≤ (cells.flatMap rowHtml).length := by
  induction cells with
  | nil => simp
  | cons r rows ih =>
    have h4 : ("<tr>".data).length = 4 := rfl
    have h5 : ("</tr>".data).length = 5 := rfl
    simp only [List.flatMap_cons, List.length_append, List.length_cons, rowHtml, h4, h5]
    omega

/-- On the constructed table, `extractTag` finds the structural tags: no
    text before, the row blob inside, nothing after. -/
theorem extractTag_table_eval (cells : List (List String))
    (h : ∀ r ∈ cells, ∀ t ∈ r, ∀ c ∈ t.data, c ≠ '<') :
    extractTag "table".data (tableHtml cells) =
      some ([], cells.flatMap rowHtml, []) := by
  have e1 : tableHtml cells =
      "<table>".data ++ (cells.flatMap rowHtml ++ "</table>".data) := by
    simp [tableHtml, List.append_assoc]
  rw [e1]
  unfold extractTag
  rw [show scanFirst (matchTagOpen "table".data)
      ("<table>".data ++ (cells.flatMap rowHtml ++ "</table>".data)) =
      some ([], (), cells.flatMap rowHtml ++ "</table>".data) from rfl]
  dsimp only
  rw [scanFirst_append_of_noMatch _ _ (noMatchIn_body_closeTable cells h _)]
  rw [show scanFirst (matchTagClose "table".data) ("</table>".data) =
      some ([], (), ([] : List Char)) from rfl]
  simp only [Option.map_some', List.append_nil]

/-- On the constructed table, `parseTable` returns one table node with one
    row per constructed row and one cell per constructed cell, consuming
    the whole input. -/
theorem parseTable_table_eval (cells : List (List String))
    (h : ∀ r ∈ cells, ∀ t ∈ r, ∀ c ∈ t.data, c ≠ '<') :
    parseTable (tableHtml cells) =
      some (.table (cells.map (fun r => r.map (fun t => (false, stripTags t.data)))),
        [], []) := by
  unfold parseTable
  rw [extractTag_table_eval cells h]
  dsimp only
  rw [show tagPairs "tr".data (cells.flatMap rowHtml) =
      tagPairsGo "tr".data ((cells.flatMap rowHtml).length + 1)
        (cells.flatMap rowHtml) from rfl]
  rw [tagPairsGo_rows cells h _
    (by have := length_le_flatMap_rowHtml cells; omega)]
  rw [List.map_map]
  have hcomp : ∀ r ∈ cells,
      ((fun rowInner => (cellPairs rowInner).map
          (fun cell => (cell.1, stripTags cell.2))) ∘
        (fun r2 : List String => r2.flatMap cellHtml)) r =
      r.map (fun t => (false, stripTags t.data)) := by
    intro r hr
    show (cellPairs (r.flatMap cellHtml)).map (fun cell => (cell.1, stripTags cell.2)) =
      r.map (fun t => (false, stripTags t.data))
    rw [show cellPairs (r.flatMap cellHtml) =
        cellPairsGo ((r.flatMap cellHtml).length + 1) (r.flatMap cellHtml) from rfl]
    rw [cellPairsGo_cells r (h r hr) _
      (by have := length_le_flatMap_cellHtml r; omega)]
    rw [List.map_map]
    rfl
  rw [List.map_congr_left hcomp]
  rfl

/-- On the constructed table, one conversion step consumes everything and
    emits the single table node. -/
theorem convertStep_table (cells : List (List String))
    (h : ∀ r ∈ cells, ∀ t ∈ r, ∀ c ∈ t.data, c ≠ '<') :
    convertStep (tableHtml cells) =
      ([DocxNode.table (cells.map (fun r =>
        r.map (fun t => (false, stripTags t.data))))], []) := by
  unfold convertStep
  rw [parseTable_table_eval cells h]
  rfl

theorem htmlLoopGo_done (fuel : Nat) (acc : List DocxNode) :
    htmlLoopGo fuel [] acc = acc := by
  cases fuel <;> rfl

theorem htmlLoopGo_step (fuel : Nat) (cs : List Char) (acc : List DocxNode)
    (hne : cs ≠ []) :
    htmlLoopGo (fuel + 1) cs acc =
      htmlLoopGo fuel (convertStep cs).2 (acc ++ (convertStep cs).1) := by
  cases cs with
  | nil => exact absurd rfl hne
  | cons c cs => rfl

/-- C4: for a well-formed HTML input holding exactly one `<table>` element
    (constructed as `<table>` of `<tr>` rows of `<td>` cells whose texts
    contain no `<`) with R rows each holding C cells, `htmlToDocxChildren`
    emits exactly one node, a table node, and that node has R rows of C
    cells each. -/
theorem C4_table_shape (cells : List (List String)) (C : Nat)
    (h : ∀ r ∈ cells, ∀ t ∈ r, ∀ c ∈ t.data, c ≠ '<')
    (hC : ∀ r ∈ cells, r.length = C) :
    ∃ rows, htmlToDocxChildren ⟨tableHtml cells⟩ = [DocxNode.table rows] ∧
      rows.length = cells.length ∧ ∀ row ∈ rows, row.length = C := by
  refine ⟨cells.map (fun r => r.map (fun t => (false, stripTags t.data))), ?_, ?_, ?_⟩
  · unfold htmlToDocxChildren
    rw [show (String.mk (tableHtml cells)).data = tableHtml cells from rfl]
    rw [show (10000 : Nat) = 9999 + 1 from rfl]
    rw [htmlLoopGo_step 9999 _ _ (by simp [tableHtml])]
    rw [convertStep_table cells h]
    rw [htmlLoopGo_done]
    rfl
  · exact List.length_map _ _
  · intro row hrow
    obtain ⟨r, hr, rfl⟩ := List.mem_map.mp hrow
    rw [List.length_map]
    exact hC r hr

/-- C4 witness: a concrete 2×2 table. -/
theorem C4_witness :
    (∀ r ∈ [["a", "b"], ["c", "d"]], ∀ t ∈ r, ∀ c ∈ t.data, c ≠ '<') ∧
    (∀ r ∈ [["a", "b"], ["c", "d"]], r.length = 2) ∧
    ∃ rows, htmlToDocxChildren ⟨tableHtml [["a", "b"], ["c", "d"]]⟩ =
        [DocxNode.table rows] ∧
      rows.length = ([["a", "b"], ["c", "d"]] : List (List String)).length ∧
      ∀ row ∈ rows, row.length = 2 :=
  ⟨by decide, by decide,
    C4_table_shape [["a", "b"], ["c", "d"]] 2 (by decide) (by decide)⟩

/-- C1: the claim predicts that, for the example schema declaring the
    primitive field `name` before the array-of-objects field `items`, the
    compiled block list is a `keyValueList` followed by a `table`.  The
    compiler actually emits the `keyValueList` after the `table`, because
    accumulated primitive rows are only flushed after the walk of the whole
    property list, not when a non-primitive field is seen. -/
theorem C1_counterexample :
    ((schemaToTemplateConfig exampleSchema).blocks.map blockKind) ≠
      ["keyValueList", "table"] := by decide

/-- C1 (amended): primitive fields accumulate as rows of a single
    `keyValueList` block that is appended after all non-primitive blocks of
    the same nesting level; for the example schema the compiled blocks are a
    `table` block with columns `Sku`, `Qty` bound to `items`, followed by a
    `keyValueList` block with the single row `Name` bound to `name`. -/
theorem C1_amended_blocks :
    (schemaToTemplateConfig exampleSchema).blocks =
      [TemplateBlock.table
         ⟨none, [⟨"Sku", "sku"⟩, ⟨"Qty", "qty"⟩], some "items", none, none, none, none⟩,
       TemplateBlock.keyValueList
         ⟨[⟨some (some "name"), "Name", none⟩], none⟩] := by rfl

end DocsDrafter
